import Mathlib

/-!
# SocialNetwork: a shallow embedding of `src/SocialNetwork.cpp`

The C++ class `SocialNetwork` keeps two vectors, `edgeList` and `nodesList`.
Every member function is translated below into a Lean function over a record
holding the two lists; a mutating member returns the new record.

Modelling conventions.
* `int` and `size_t` values are unbounded integers: the vectors are taken to
  hold fewer than `2 ^ 31` elements, so that every `size_t → int` conversion in
  the source is exact.
* An index expression `v[i]` on a `std::vector` is defined only for
  `0 ≤ i < v.size()`; the embedding returns `Fault.outOfBounds` otherwise.
  A loop `for (i = 0; i < v.size(); i++)` that only reads `v[i]` is a recursion
  over the list; an index that comes from data (`visited[neighborIdx]`,
  `parent[at]`, `nodesList[current]`, `potentialFriends[i]` below `min(k, size)`)
  goes through the checked accessors `getAt` and `setAt`.
* The `while` loop of the breadth-first search and the parent-pointer walk are
  driven by a fuel counter; `Fault.outOfFuel` is returned when it runs out, and
  the theorems show that it does not for the stated amount of fuel.
* `std::sort` is a parameter of `topKPeople`, constrained by `StdSortSpec`
  (what the C++ standard promises). Where the order of equal counts matters,
  the parameter is `gnuSort`, an embedding of the `std::sort` of GNU libstdc++.
-/

namespace SocialNetworkModel

/-- Class `SocialNetwork::Node`: a person, compared by name (`operator==`). -/
structure Node where
  name : String
  deriving DecidableEq, Repr

/-- Class `SocialNetwork::Edge`: a friendship between two people. -/
structure Edge where
  node1 : Node
  node2 : Node
  deriving DecidableEq, Repr

/-- The private data members of class `SocialNetwork`. -/
structure SocialNetwork where
  edgeList : List Edge
  nodesList : List Node
  deriving DecidableEq, Repr

/-- The default constructor `SocialNetwork()`. -/
def empty : SocialNetwork := ⟨[], []⟩

/-- The loop of `isnodefound`, scanning the remaining nodes from position `i`. -/
def isnodefoundFrom (node : Node) : List Node → Nat → Int
  | [], _ => -1
  | x :: rest, i => if x = node then (i : Int) else isnodefoundFrom node rest (i + 1)

/-- Member `SocialNetwork::isnodefound`: the first index of `node`, or `-1`. -/
def isnodefound (net : SocialNetwork) (node : Node) : Int :=
  isnodefoundFrom node net.nodesList 0

/-- The loop of `areFriends` over the edges not yet inspected. -/
def areFriendsLoop (node1 node2 : Node) : List Edge → Bool
  | [] => false
  | e :: rest =>
    if (e.node1 = node1 ∧ e.node2 = node2) ∨ (e.node1 = node2 ∧ e.node2 = node1) then true
    else areFriendsLoop node1 node2 rest

/-- Member `SocialNetwork::areFriends`. -/
def areFriends (net : SocialNetwork) (personA personB : String) : Bool :=
  areFriendsLoop ⟨personA⟩ ⟨personB⟩ net.edgeList

/-- Member `SocialNetwork::addPerson`. -/
def addPerson (net : SocialNetwork) (person : String) : SocialNetwork :=
  let node : Node := ⟨person⟩
  if isnodefound net node = -1 then { net with nodesList := net.nodesList ++ [node] }
  else net

/-- Member `SocialNetwork::addFriend`. -/
def addFriend (net : SocialNetwork) (personA personB : String) : SocialNetwork :=
  let node1 : Node := ⟨personA⟩
  let node2 : Node := ⟨personB⟩
  if isnodefound net node1 = -1 ∨ isnodefound net node2 = -1 then net
  else if areFriends net node1.name node2.name then net
  else { net with edgeList := net.edgeList ++ [⟨node1, node2⟩] }

/-- The loop of `unfriend`: erase the first edge joining the two nodes and stop. -/
def unfriendLoop (node1 node2 : Node) : List Edge → List Edge
  | [] => []
  | e :: rest =>
    if (e.node1 = node1 ∧ e.node2 = node2) ∨ (e.node1 = node2 ∧ e.node2 = node1) then rest
    else e :: unfriendLoop node1 node2 rest

/-- Member `SocialNetwork::unfriend`. -/
def unfriend (net : SocialNetwork) (personA personB : String) : SocialNetwork :=
  { net with edgeList := unfriendLoop ⟨personA⟩ ⟨personB⟩ net.edgeList }

/-- The backward loop of `deletePerson`; the first argument is `i + 1` for the
loop variable `i`, so that `0` stands for `i = -1`, where the loop ends (on an
empty vector `edgeList.size() - 1` converts to `-1` and the body never runs). An
index outside the vector (which never arises, see `deleteEdgesFrom_take`)
leaves the edges as they are. -/
def deleteEdgesFrom (node : Node) : Nat → List Edge → List Edge
  | 0, edges => edges
  | i + 1, edges =>
    match edges[i]? with
    | some e =>
      if e.node1 = node ∨ e.node2 = node then deleteEdgesFrom node i (edges.eraseIdx i)
      else deleteEdgesFrom node i edges
    | none => deleteEdgesFrom node i edges

/-- Member `SocialNetwork::deletePerson`: the returned flag and the network afterwards. -/
def deletePerson (net : SocialNetwork) (person : String) : Bool × SocialNetwork :=
  let node : Node := ⟨person⟩
  let edges := deleteEdgesFrom node net.edgeList.length net.edgeList
  let net1 : SocialNetwork := { net with edgeList := edges }
  if isnodefound net1 node ≠ -1 then
    (true, { net1 with nodesList := net1.nodesList.eraseIdx (isnodefound net1 node).toNat })
  else (false, net1)

/-- The loop of `getNeighbors` over the edges not yet inspected. -/
def getNeighborsLoop (node1 : Node) : List Edge → List Node
  | [] => []
  | e :: rest =>
    if e.node1 = node1 ∨ e.node2 = node1 then
      (if e.node1 = node1 then e.node2 else e.node1) :: getNeighborsLoop node1 rest
    else getNeighborsLoop node1 rest

/-- Member `SocialNetwork::getNeighbors`. -/
def getNeighbors (net : SocialNetwork) (node1 : Node) : List Node :=
  getNeighborsLoop node1 net.edgeList

/-- The two ways in which the embedded traversal can fail to produce a value. -/
inductive Fault where
  | outOfBounds
  | outOfFuel
  deriving DecidableEq, Repr

/-- Reading `v[i]` for an `int` index `i`. -/
def getAt {α : Type} (v : List α) (i : Int) : Except Fault α :=
  if i < 0 then .error .outOfBounds
  else match v[i.toNat]? with
    | some a => .ok a
    | none => .error .outOfBounds

/-- Writing `v[i] = a` for an `int` index `i`. -/
def setAt {α : Type} (v : List α) (i : Int) (a : α) : Except Fault (List α) :=
  if i < 0 then .error .outOfBounds
  else if i.toNat < v.length then .ok (v.set i.toNat a)
  else .error .outOfBounds

/-- The local variables `visited`, `parent` and `q` of the two traversals. -/
structure BfsState where
  visited : List Bool
  parent : List Int
  q : List Int
  deriving DecidableEq, Repr

/-- The `for` loop over `neighbors` inside the `while` loop of `shortestPath`
(and, verbatim, of `shortestPathAvoidingNodes`). -/
def visitNeighbors (net : SocialNetwork) (current : Int) :
    List Node → BfsState → Except Fault BfsState
  | [], st => .ok st
  | neighbor :: rest, st =>
    let neighborIdx := isnodefound net neighbor
    match getAt st.visited neighborIdx with
    | .error f => .error f
    | .ok seen =>
      if !seen then
        match setAt st.visited neighborIdx true with
        | .error f => .error f
        | .ok visited =>
          match setAt st.parent neighborIdx current with
          | .error f => .error f
          | .ok parent =>
            visitNeighbors net current rest ⟨visited, parent, st.q ++ [neighborIdx]⟩
      else visitNeighbors net current rest st

/-- The `while (!q.empty())` loop of `shortestPath` (and, verbatim, of
`shortestPathAvoidingNodes`), one unit of fuel per iteration. -/
def bfsLoop (net : SocialNetwork) (finish : Node) : Nat → BfsState → Except Fault BfsState
  | 0, _ => .error .outOfFuel
  | fuel + 1, st =>
    match st.q with
    | [] => .ok st
    | current :: q =>
      match getAt net.nodesList current with
      | .error f => .error f
      | .ok cur =>
        if cur = finish then .ok { st with q := q }
        else
          match visitNeighbors net current (getNeighbors net cur) { st with q := q } with
          | .error f => .error f
          | .ok st1 => bfsLoop net finish fuel st1

/-- The loop `for (int at = endIdx; at != -1; at = parent[at])`, one unit of
fuel per test of the loop condition. -/
def walkParents (net : SocialNetwork) (parent : List Int) :
    Nat → Int → List Node → Except Fault (List Node)
  | 0, _, _ => .error .outOfFuel
  | fuel + 1, pos, path =>
    if pos = -1 then .ok path
    else
      match getAt net.nodesList pos with
      | .error f => .error f
      | .ok node =>
        match getAt parent pos with
        | .error f => .error f
        | .ok next => walkParents net parent fuel next (path ++ [node])

/-- The tail shared by both traversals: read `parent[endIdx]`, walk the parent
pointers and reverse. -/
def reconstruct (net : SocialNetwork) (fuel : Nat) (finish : Node) (st : BfsState) :
    Except Fault (List Node) :=
  let endIdx := isnodefound net finish
  match getAt st.parent endIdx with
  | .error f => .error f
  | .ok p =>
    if p = -1 then .ok []
    else
      match walkParents net st.parent fuel endIdx [] with
      | .error f => .error f
      | .ok path => .ok path.reverse

/-- Member `SocialNetwork::shortestPath`. -/
def shortestPath (fuel : Nat) (net : SocialNetwork) (begin finish : String) :
    Except Fault (List Node) :=
  let start : Node := ⟨begin⟩
  let goal : Node := ⟨finish⟩
  if isnodefound net start = -1 ∨ isnodefound net goal = -1 then .ok []
  else if start = goal then .ok [start]
  else
    let visited := List.replicate net.nodesList.length false
    let parent := List.replicate net.nodesList.length (-1 : Int)
    let startIdx := isnodefound net start
    match setAt visited startIdx true with
    | .error f => .error f
    | .ok visited =>
      match bfsLoop net goal fuel ⟨visited, parent, [startIdx]⟩ with
      | .error f => .error f
      | .ok st => reconstruct net fuel goal st

/-- The second loop over the blacklist in `shortestPathAvoidingNodes`: every
blacklisted node that is found is marked visited. -/
def markBlacklist (net : SocialNetwork) : List Node → List Bool → Except Fault (List Bool)
  | [], visited => .ok visited
  | node :: rest, visited =>
    let nodeIdx := isnodefound net node
    if nodeIdx ≠ -1 then
      match setAt visited nodeIdx true with
      | .error f => .error f
      | .ok visited1 => markBlacklist net rest visited1
    else markBlacklist net rest visited

/-- The first loop over the blacklist in `shortestPathAvoidingNodes`: is one of
its nodes equal to `start` or to `end`? -/
def blacklistHits (start goal : Node) : List Node → Bool
  | [] => false
  | node :: rest => if node = start ∨ node = goal then true else blacklistHits start goal rest

/-- Member `SocialNetwork::shortestPathAvoidingNodes`. -/
def shortestPathAvoidingNodes (fuel : Nat) (net : SocialNetwork) (begin finish : String)
    (blacklister : List String) : Except Fault (List Node) :=
  let start : Node := ⟨begin⟩
  let goal : Node := ⟨finish⟩
  let blacklist : List Node := blacklister.map Node.mk
  if isnodefound net start = -1 ∨ isnodefound net goal = -1 then .ok []
  else if blacklistHits start goal blacklist then .ok []
  else if start = goal then .ok [start]
  else
    let visited := List.replicate net.nodesList.length false
    let parent := List.replicate net.nodesList.length (-1 : Int)
    match markBlacklist net blacklist visited with
    | .error f => .error f
    | .ok visited =>
      let startIdx := isnodefound net start
      match setAt visited startIdx false with
      | .error f => .error f
      | .ok visited =>
        match setAt visited startIdx true with
        | .error f => .error f
        | .ok visited =>
          match bfsLoop net goal fuel ⟨visited, parent, [startIdx]⟩ with
          | .error f => .error f
          | .ok st => reconstruct net fuel goal st

/-- The inner loop of `nbOfCommonFriends`: is `friend1` among `friends2`? -/
def hasFriend (friend1 : Node) : List Node → Bool
  | [] => false
  | friend2 :: rest => if friend1 = friend2 then true else hasFriend friend1 rest

/-- The outer loop of `nbOfCommonFriends`, with the running `count`. -/
def countCommon (friends2 : List Node) : List Node → Int → Int
  | [], count => count
  | friend1 :: rest, count =>
    countCommon friends2 rest (if hasFriend friend1 friends2 then count + 1 else count)

/-- Member `SocialNetwork::nbOfCommonFriends`. -/
def nbOfCommonFriends (net : SocialNetwork) (node1 node2 : Node) : Int :=
  if isnodefound net node1 = -1 ∨ isnodefound net node2 = -1 then 0
  else countCommon (getNeighbors net node2) (getNeighbors net node1) 0

/-- The candidate loop of `topKPeople` over the nodes not yet inspected. -/
def potentialFriendsLoop (net : SocialNetwork) (targetNode : Node) :
    List Node → List (Node × Int)
  | [] => []
  | currentNode :: rest =>
    if currentNode = targetNode then potentialFriendsLoop net targetNode rest
    else if areFriends net targetNode.name currentNode.name then
      potentialFriendsLoop net targetNode rest
    else
      let commonFriends := nbOfCommonFriends net targetNode currentNode
      if commonFriends > 0 then
        (currentNode, commonFriends) :: potentialFriendsLoop net targetNode rest
      else potentialFriendsLoop net targetNode rest

/-- What the C++ standard promises of `std::sort` called with the comparator
`a.second > b.second`: the output is a rearrangement of the input in which no
later element compares before an earlier one. The order of equal counts is
left open. -/
structure StdSortSpec (sort : List (Node × Int) → List (Node × Int)) : Prop where
  perm : ∀ l, (sort l).Perm l
  sorted : ∀ l, (sort l).Pairwise (fun a b => ¬ b.2 > a.2)

/-- Member `SocialNetwork::topKPeople`, for a given behaviour `sort` of `std::sort`. -/
def topKPeople (sort : List (Node × Int) → List (Node × Int)) (net : SocialNetwork)
    (person : String) (k : Int) : List Node :=
  let targetNode : Node := ⟨person⟩
  if isnodefound net targetNode = -1 ∨ k ≤ 0 then []
  else
    let potentialFriends := sort (potentialFriendsLoop net targetNode net.nodesList)
    (potentialFriends.take (min k (potentialFriends.length : Int)).toNat).map Prod.fst

/-- One admissible `std::sort`: insertion sort on descending counts. -/
def insertionSortDesc (l : List (Node × Int)) : List (Node × Int) :=
  l.insertionSort (fun a b => a.2 ≥ b.2)

/-- The networks a caller can build: the public interface offers only the
default constructor and the four mutating members. -/
inductive Reachable : SocialNetwork → Prop where
  | empty : Reachable empty
  | addPerson {net : SocialNetwork} (person : String) :
      Reachable net → Reachable (addPerson net person)
  | addFriend {net : SocialNetwork} (personA personB : String) :
      Reachable net → Reachable (addFriend net personA personB)
  | unfriend {net : SocialNetwork} (personA personB : String) :
      Reachable net → Reachable (unfriend net personA personB)
  | deletePerson {net : SocialNetwork} (person : String) :
      Reachable net → Reachable (deletePerson net person).2

/-- The network of the concrete scenario: Alice, Bob, Carol and Dave in a chain. -/
def chainNet : SocialNetwork :=
  addFriend (addFriend (addFriend (addPerson (addPerson (addPerson (addPerson empty
    "Alice") "Bob") "Carol") "Dave") "Alice" "Bob") "Bob" "Carol") "Carol" "Dave"

/-! ## Specification vocabulary -/

/-- The position of a node in `nodesList`, as a natural number. -/
def idx (net : SocialNetwork) (v : Node) : Nat := net.nodesList.indexOf v

/-- Edge `e` joins `a` and `b`, in either orientation. -/
def Joins (e : Edge) (a b : Node) : Prop :=
  (e.node1 = a ∧ e.node2 = b) ∨ (e.node1 = b ∧ e.node2 = a)

instance (e : Edge) (a b : Node) : Decidable (Joins e a b) := by
  unfold Joins
  infer_instance

/-- The edges that `deletePerson` keeps: neither endpoint is `node`. -/
def notIncident (node : Node) (e : Edge) : Bool :=
  decide (¬ (e.node1 = node ∨ e.node2 = node))

/-- The three structural invariants kept by the mutating members: names are
unique, every edge joins stored nodes, and no unordered pair is joined twice. -/
structure WellFormed (net : SocialNetwork) : Prop where
  nodup : net.nodesList.Nodup
  stored : ∀ e ∈ net.edgeList, e.node1 ∈ net.nodesList ∧ e.node2 ∈ net.nodesList
  unique : net.edgeList.Pairwise (fun e1 e2 => ¬ Joins e1 e2.node1 e2.node2)

/-- A network that no sequence of public calls produces: one edge, no node. -/
def danglingNet : SocialNetwork := ⟨[⟨⟨"Alice"⟩, ⟨"Bob"⟩⟩], []⟩

/-- A recommendation candidate for `p`: a stored node other than `p`, not a
friend of `p`, with at least one common friend. -/
def IsCandidate (net : SocialNetwork) (p q : Node) : Prop :=
  q ∈ net.nodesList ∧ q ≠ p ∧ areFriends net p.name q.name = false ∧
    nbOfCommonFriends net p q > 0

instance (net : SocialNetwork) (p q : Node) : Decidable (IsCandidate net p q) := by
  unfold IsCandidate
  infer_instance

/-- The network of the recommendation scenario: `P` has friends `F1 F2 F3`;
`Q1` shares all three, `Q2` shares `F1`, `Q3` shares none. -/
def recNet : SocialNetwork :=
  addFriend (addFriend (addFriend (addFriend (addFriend (addFriend (addFriend
    (addPerson (addPerson (addPerson (addPerson (addPerson (addPerson (addPerson empty
      "P") "F1") "F2") "F3") "Q3") "Q2") "Q1")
    "P" "F1") "P" "F2") "P" "F3") "Q1" "F1") "Q1" "F2") "Q1" "F3") "Q2" "F1"

/-- The traversal state seen through node names instead of indices: the
visited marker and parent of every node, and the queue as a list of nodes. -/
structure AbsState where
  vis : Node → Bool
  par : Node → Option Node
  q : List Node

/-- The neighbour loop on the name-indexed state. -/
def absVisit (cur : Node) : List Node → AbsState → AbsState
  | [], a => a
  | x :: rest, a =>
    if a.vis x then absVisit cur rest a
    else absVisit cur rest
      ⟨Function.update a.vis x true, Function.update a.par x (some cur), a.q ++ [x]⟩

/-- The queue loop on the name-indexed state. -/
def absLoop (net : SocialNetwork) (goal : Node) : Nat → AbsState → Option AbsState
  | 0, _ => none
  | fuel + 1, a =>
    match a.q with
    | [] => some a
    | cur :: q =>
      if cur = goal then some { a with q := q }
      else absLoop net goal fuel (absVisit cur (getNeighbors net cur) { a with q := q })

/-- The parent walk on the name-indexed state. -/
def absWalk (par : Node → Option Node) : Nat → Option Node → List Node → Option (List Node)
  | 0, _, _ => none
  | _ + 1, none, path => some path
  | fuel + 1, some v, path => absWalk par fuel (par v) (path ++ [v])

/-- How a parent is stored in the `parent` vector: its index, or `-1`. -/
def enc (net : SocialNetwork) : Option Node → Int
  | none => -1
  | some w => isnodefound net w

/-- The vectors and the queue of `st` hold, index by index, what `a` holds name
by name. -/
structure Rep (net : SocialNetwork) (st : BfsState) (a : AbsState) : Prop where
  vlen : st.visited.length = net.nodesList.length
  plen : st.parent.length = net.nodesList.length
  vis : ∀ v ∈ net.nodesList, st.visited[idx net v]? = some (a.vis v)
  par : ∀ v ∈ net.nodesList, st.parent[idx net v]? = some (enc net (a.par v))
  q : st.q = a.q.map (isnodefound net)

/-- The number of stored nodes not yet marked visited. -/
def unvisited (net : SocialNetwork) (a : AbsState) : Nat :=
  (net.nodesList.filter (fun v => !a.vis v)).length

/-- Reachability in steps, `Reach net B s k v`: `v` is reached from `s` in `k`
friendship steps, none of which enters a node of `B`. -/
inductive Reach (net : SocialNetwork) (B : List Node) (s : Node) : Nat → Node → Prop where
  | base : Reach net B s 0 s
  | step {k : Nat} {w v : Node} :
      Reach net B s k w → v ∈ getNeighbors net w → v ∉ B → Reach net B s (k + 1) v

/-- A friendship path from `s` to `g`: a list of nodes starting with `s`, ending
with `g`, in which every two adjacent nodes are friends (`areFriends`). It has
`p.length - 1` edges. -/
def IsPath (net : SocialNetwork) (s g : Node) (p : List Node) : Prop :=
  p.head? = some s ∧ p.getLast? = some g ∧
    p.Chain' (fun a b => areFriends net a.name b.name = true)

/-- The function `lvl` gives, for every node reached from `s` outside `B`, the
least number of steps in which it is reached. -/
def IsDist (net : SocialNetwork) (B : List Node) (s : Node) (lvl : Node → Nat) : Prop :=
  ∀ v k, Reach net B s k v → lvl v ≤ k ∧ Reach net B s (lvl v) v

/-- A node is discovered once it is the start node or has a parent. -/
def Disc (s : Node) (a : AbsState) (v : Node) : Prop := v = s ∨ a.par v ≠ none

/-- The invariant of the breadth-first search from `s` avoiding `B`. `L` is the
level being expanded and `cur` the node whose neighbours are being scanned,
if any. -/
structure Inv (net : SocialNetwork) (B : List Node) (s : Node) (lvl : Node → Nat)
    (L : Nat) (cur : Option Node) (a : AbsState) : Prop where
  vis_iff : ∀ v, a.vis v = true ↔ v ∈ B ∨ Disc s a v
  par_s : a.par s = none
  par_B : ∀ v ∈ B, a.par v = none
  par_ok : ∀ v w, a.par v = some w →
    w ∈ net.nodesList ∧ Disc s a w ∧ v ∈ getNeighbors net w ∧ lvl v = lvl w + 1
  reach : ∀ v, Disc s a v → ∃ k, Reach net B s k v
  q_ok : ∀ v ∈ a.q, v ∈ net.nodesList ∧ Disc s a v
  sorted : a.q.Pairwise (fun x y => lvl x ≤ lvl y)
  q_lvl : ∀ x ∈ a.q, L ≤ lvl x ∧ lvl x ≤ L + 1
  cur_ok : ∀ c, cur = some c → lvl c = L ∧ Disc s a c ∧ c ∈ net.nodesList
  done : ∀ w, Disc s a w → w ∉ a.q → cur ≠ some w →
    ∀ x ∈ getNeighbors net w, a.vis x = true
  bound : ∀ v, Disc s a v → lvl v + 1 + unvisited net a ≤ net.nodesList.length

/-- The name-indexed state on entry to the queue loop: the blacklist and the
start node are marked, no node has a parent, the queue holds the start node. -/
def absInit (B : List Node) (s : Node) : AbsState :=
  ⟨fun v => decide (v ∈ B ∨ v = s), fun _ => none, [s]⟩

/-- Position along the chain Alice - Bob - Carol - Dave of `chainNet`. -/
def chainPos (n : String) : Nat :=
  if n = "Bob" then 1 else if n = "Carol" then 2 else if n = "Dave" then 3 else 0

/-- A network with two routes from `A` to `D`: `A - B - D` and `A - C - E - D`. -/
def detourNet : SocialNetwork :=
  addFriend (addFriend (addFriend (addFriend (addFriend
    (addPerson (addPerson (addPerson (addPerson (addPerson empty "A") "B") "C") "D") "E")
    "A" "B") "B" "D") "A" "C") "C" "E") "E" "D"

/-- The other endpoint of edge `e` as seen from `p`, when `p` is an endpoint of
`e`; written after the wording of the specification of `neighbors`. -/
def otherEndpoint (p : Node) (e : Edge) : Option Node :=
  if e.node1 = p then some e.node2 else if e.node2 = p then some e.node1 else none

/-- The `std::iter_swap` of two positions of a vector; `none` when a position
lies outside the vector. -/
def iterSwap {α : Type} (v : List α) (i j : Nat) : Option (List α) :=
  match v[i]?, v[j]? with
  | some a, some b => some ((v.set i b).set j a)
  | _, _ => none

/-- Function `std::__move_median_to_first` of GNU libstdc++ (`bits/stl_algo.h`). -/
def moveMedianToFirst {α : Type} (comp : α → α → Bool) (v : List α) (result a b c : Nat) :
    Option (List α) :=
  match v[a]?, v[b]?, v[c]? with
  | some va, some vb, some vc =>
    if comp va vb then
      if comp vb vc then iterSwap v result b
      else if comp va vc then iterSwap v result c
      else iterSwap v result a
    else if comp va vc then iterSwap v result a
    else if comp vb vc then iterSwap v result c
    else iterSwap v result b
  | _, _, _ => none

/-- The loop `while (__comp(__first, __pivot)) ++__first;` of
`std::__unguarded_partition`, returning the final `__first`. -/
def skipUp {α : Type} (comp : α → α → Bool) (v : List α) (pivot : Nat) :
    Nat → Nat → Option Nat
  | 0, _ => none
  | fuel + 1, first =>
    match v[first]?, v[pivot]? with
    | some x, some p => if comp x p then skipUp comp v pivot fuel (first + 1) else some first
    | _, _ => none

/-- The loop `while (__comp(__pivot, __last)) --__last;` of
`std::__unguarded_partition`, returning the final `__last`. -/
def skipDown {α : Type} (comp : α → α → Bool) (v : List α) (pivot : Nat) :
    Nat → Nat → Option Nat
  | 0, _ => none
  | fuel + 1, last =>
    match v[pivot]?, v[last]? with
    | some p, some x =>
      if comp p x then
        match last with
        | 0 => none
        | last1 + 1 => skipDown comp v pivot fuel last1
      else some last
    | _, _ => none

/-- Function `std::__unguarded_partition` of libstdc++: the vector after the
swaps and the returned cut position. -/
def unguardedPartition {α : Type} (comp : α → α → Bool) (pivot : Nat) :
    Nat → List α → Nat → Nat → Option (List α × Nat)
  | 0, _, _, _ => none
  | fuel + 1, v, first, last =>
    match skipUp comp v pivot (v.length + 1) first with
    | none => none
    | some first1 =>
      match last with
      | 0 => none
      | last0 + 1 =>
        match skipDown comp v pivot (v.length + 1) last0 with
        | none => none
        | some last1 =>
          if first1 < last1 then
            match iterSwap v first1 last1 with
            | none => none
            | some v1 => unguardedPartition comp pivot fuel v1 (first1 + 1) last1
          else some (v, first1)

/-- Function `std::__unguarded_partition_pivot` of libstdc++. -/
def unguardedPartitionPivot {α : Type} (comp : α → α → Bool) (v : List α)
    (first last : Nat) : Option (List α × Nat) :=
  let mid := first + (last - first) / 2
  match moveMedianToFirst comp v first (first + 1) mid (last - 1) with
  | none => none
  | some v1 => unguardedPartition comp first (v.length + 1) v1 (first + 1) last

/-- Function `std::__introsort_loop` of libstdc++, threshold `_S_threshold = 16`.
The heap sort it falls back on when `__depth_limit` reaches `0`
(`std::__partial_sort`) is not embedded: that case gives `none`. -/
def introsortLoop {α : Type} (comp : α → α → Bool) :
    Nat → List α → Nat → Nat → Nat → Option (List α)
  | 0, _, _, _, _ => none
  | fuel + 1, v, first, last, depthLimit =>
    if last - first > 16 then
      match depthLimit with
      | 0 => none
      | depth + 1 =>
        match unguardedPartitionPivot comp v first last with
        | none => none
        | some (v1, cut) =>
          match introsortLoop comp fuel v1 cut last depth with
          | none => none
          | some v2 => introsortLoop comp fuel v2 first cut depth
    else some v

/-- The loop of `std::__unguarded_linear_insert` for the value `val` taken
from position `last`. -/
def unguardedLinearInsertLoop {α : Type} (comp : α → α → Bool) (val : α) :
    Nat → List α → Nat → Option (List α)
  | 0, _, _ => none
  | fuel + 1, v, last =>
    match last with
    | 0 => none
    | next + 1 =>
      match v[next]? with
      | none => none
      | some x =>
        if comp val x then unguardedLinearInsertLoop comp val fuel (v.set (next + 1) x) next
        else some (v.set (next + 1) val)

/-- Function `std::__unguarded_linear_insert` of libstdc++. -/
def unguardedLinearInsert {α : Type} (comp : α → α → Bool) (v : List α) (last : Nat) :
    Option (List α) :=
  match v[last]? with
  | none => none
  | some val => unguardedLinearInsertLoop comp val (v.length + 1) v last

/-- The `for` loop of `std::__insertion_sort`; the first argument counts the
iterations left. -/
def insertionSortLoop {α : Type} (comp : α → α → Bool) (first : Nat) :
    Nat → List α → Nat → Option (List α)
  | 0, v, _ => some v
  | left + 1, v, i =>
    match v[i]?, v[first]? with
    | some x, some f =>
      if comp x f then
        insertionSortLoop comp first left
          (v.take first ++ x :: (v.drop first).take (i - first) ++ v.drop (i + 1)) (i + 1)
      else
        match unguardedLinearInsert comp v i with
        | none => none
        | some v1 => insertionSortLoop comp first left v1 (i + 1)
    | _, _ => none

/-- Function `std::__insertion_sort` of libstdc++ on the range `[first, last)`. -/
def insertionSortRange {α : Type} (comp : α → α → Bool) (v : List α) (first last : Nat) :
    Option (List α) :=
  if first = last then some v
  else insertionSortLoop comp first (last - (first + 1)) v (first + 1)

/-- Function `std::__unguarded_insertion_sort` of libstdc++; the first
argument counts the iterations left. -/
def unguardedInsertionSort {α : Type} (comp : α → α → Bool) :
    Nat → List α → Nat → Option (List α)
  | 0, v, _ => some v
  | left + 1, v, i =>
    match unguardedLinearInsert comp v i with
    | none => none
    | some v1 => unguardedInsertionSort comp left v1 (i + 1)

/-- Function `std::__final_insertion_sort` of libstdc++. -/
def finalInsertionSort {α : Type} (comp : α → α → Bool) (v : List α) (first last : Nat) :
    Option (List α) :=
  if last - first > 16 then
    match insertionSortRange comp v first (first + 16) with
    | none => none
    | some v1 => unguardedInsertionSort comp (last - (first + 16)) v1 (first + 16)
  else insertionSortRange comp v first last

/-- Function `std::__lg`, the floor of the binary logarithm, by halving. -/
def lg : Nat → Nat → Nat
  | 0, _ => 0
  | fuel + 1, n => if n < 2 then 0 else lg fuel (n / 2) + 1

/-- Function `std::__sort` of libstdc++, which `std::sort` runs: the introsort
loop followed by the final insertion sort. The result is `none` only in the
heap-sort case left out of `introsortLoop`. -/
def stdSort {α : Type} (comp : α → α → Bool) (v : List α) : Option (List α) :=
  if v.length = 0 then some v
  else
    match introsortLoop comp (v.length + 1) v 0 v.length (lg v.length v.length * 2) with
    | none => none
    | some v1 => finalInsertionSort comp v1 0 v.length

/-- The comparator handed to `sort` in `topKPeople`: `a.second > b.second`. -/
def byCount (a b : Node × Int) : Bool := decide (a.2 > b.2)

/-- The call `sort(potentialFriends.begin(), potentialFriends.end(), ...)` of
`topKPeople` as libstdc++ runs it. In the heap-sort case that `stdSort` leaves
out the vector is handed back as it is; the theorems that use `gnuSort` state
that `stdSort` returns a value at their inputs. -/
def gnuSort (potentialFriends : List (Node × Int)) : List (Node × Int) :=
  match stdSort byCount potentialFriends with
  | some sorted => sorted
  | none => potentialFriends

/-- The names `Q01` to `Q17`, in the order in which `tie17Net` stores them. -/
def tieNames : List String :=
  ["Q01", "Q02", "Q03", "Q04", "Q05", "Q06", "Q07", "Q08", "Q09", "Q10", "Q11", "Q12",
    "Q13", "Q14", "Q15", "Q16", "Q17"]

/-- A network with a seventeen-fold tie: `P` and each of `Q01` to `Q17` have
the single friend `F`. Built by `addPerson` for `P`, `F`, `Q01`, ..., `Q17`, then
`addFriend` for `P-F`, `Q01-F`, ..., `Q17-F`. -/
def tie17Net : SocialNetwork :=
  tieNames.foldl (fun net q => addFriend net q "F")
    (addFriend (tieNames.foldl addPerson (addPerson (addPerson empty "P") "F")) "P" "F")

/-- A network with a tie: `Q1` and `Q2` each share exactly the friend `F`
with `P`, and `Q1` is stored before `Q2`. -/
def tieNet : SocialNetwork :=
  addFriend (addFriend (addFriend
    (addPerson (addPerson (addPerson (addPerson empty "P") "F") "Q1") "Q2")
    "P" "F") "Q1" "F") "Q2" "F"

/-- The last loop of `topKPeople` with its index,
`for (int i = 0; i < min(k, size); i++) push_back(potentialFriends[i].first)`.
The first argument counts the iterations left, `min(k, size) - i`. -/
def topLoop (potentialFriends : List (Node × Int)) :
    Nat → Int → List Node → Except Fault (List Node)
  | 0, _, recommendations => .ok recommendations
  | left + 1, i, recommendations =>
    match getAt potentialFriends i with
    | .error f => .error f
    | .ok pr => topLoop potentialFriends left (i + 1) (recommendations ++ [pr.1])

/-- Member `SocialNetwork::topKPeople` once more, this time with the last loop
reading `potentialFriends[i]` through a bounds-checked index. -/
def topKPeopleAt (sort : List (Node × Int) → List (Node × Int)) (net : SocialNetwork)
    (person : String) (k : Int) : Except Fault (List Node) :=
  let targetNode : Node := ⟨person⟩
  if isnodefound net targetNode = -1 ∨ k ≤ 0 then .ok []
  else
    let potentialFriends := sort (potentialFriendsLoop net targetNode net.nodesList)
    topLoop potentialFriends (min k (potentialFriends.length : Int)).toNat 0 []

/-- A network with two equally short routes between `A` and `D`, through `B`
and through `C`, whose edges are stored in the order `A-B`, `A-C`, `C-D`, `B-D`. -/
def crossNet : SocialNetwork :=
  addFriend (addFriend (addFriend (addFriend
    (addPerson (addPerson (addPerson (addPerson empty "A") "B") "C") "D")
    "A" "B") "A" "C") "C" "D") "B" "D"

/-! ## Identity lookup -/

theorem isnodefoundFrom_eq (node : Node) (l : List Node) (i : Nat) :
    isnodefoundFrom node l i = if node ∈ l then ((i + l.indexOf node : Nat) : Int) else -1 := by
  induction l generalizing i with
  | nil => simp [isnodefoundFrom]
  | cons x rest ih =>
    by_cases hx : x = node
    · subst hx
      simp [isnodefoundFrom]
    · have hx1 : ¬ node = x := fun h => hx h.symm
      simp only [isnodefoundFrom, hx, if_false, ih, List.mem_cons, hx1, false_or]
      by_cases hm : node ∈ rest
      · simp only [hm, if_true, List.indexOf_cons_ne _ hx]
        congr 1
        omega
      · simp [hm]

theorem isnodefound_eq (net : SocialNetwork) (v : Node) :
    isnodefound net v = if v ∈ net.nodesList then (idx net v : Int) else -1 := by
  simp [isnodefound, isnodefoundFrom_eq, idx]

theorem isnodefound_of_mem {net : SocialNetwork} {v : Node} (h : v ∈ net.nodesList) :
    isnodefound net v = (idx net v : Int) := by
  simp [isnodefound_eq, h]

theorem isnodefound_eq_neg_one {net : SocialNetwork} {v : Node} :
    isnodefound net v = -1 ↔ v ∉ net.nodesList := by
  rw [isnodefound_eq]
  by_cases h : v ∈ net.nodesList
  · simp only [h, if_true, not_true, iff_false]
    omega
  · simp [h]

theorem idx_lt {net : SocialNetwork} {v : Node} (h : v ∈ net.nodesList) :
    idx net v < net.nodesList.length :=
  List.indexOf_lt_length.2 h

theorem nodesList_idx {net : SocialNetwork} {v : Node} (h : v ∈ net.nodesList) :
    net.nodesList[idx net v]? = some v := by
  have hlt := idx_lt h
  rw [List.getElem?_eq_getElem hlt]
  exact congrArg some (List.getElem_indexOf hlt)

theorem idx_inj {net : SocialNetwork} {v w : Node} (hv : v ∈ net.nodesList)
    (hw : w ∈ net.nodesList) (h : idx net v = idx net w) : v = w := by
  have h1 := nodesList_idx hv
  have h2 := nodesList_idx hw
  rw [h] at h1
  exact Option.some.inj (h1.symm.trans h2)

/-! ## Friendship tests and neighbour lists -/

theorem areFriendsLoop_eq_true {a b : Node} {l : List Edge} :
    areFriendsLoop a b l = true ↔ ∃ e ∈ l, Joins e a b := by
  induction l with
  | nil => simp [areFriendsLoop]
  | cons e rest ih =>
    by_cases h : (e.node1 = a ∧ e.node2 = b) ∨ (e.node1 = b ∧ e.node2 = a)
    · simp only [areFriendsLoop, h, if_true, List.mem_cons, true_iff]
      exact ⟨e, Or.inl rfl, h⟩
    · simp only [areFriendsLoop, h, if_false, ih, List.mem_cons]
      constructor
      · rintro ⟨e1, h1, h2⟩
        exact ⟨e1, Or.inr h1, h2⟩
      · rintro ⟨e1, h1 | h1, h2⟩
        · subst h1
          exact absurd h2 h
        · exact ⟨e1, h1, h2⟩

theorem areFriends_eq_true {net : SocialNetwork} {a b : String} :
    areFriends net a b = true ↔ ∃ e ∈ net.edgeList, Joins e ⟨a⟩ ⟨b⟩ :=
  areFriendsLoop_eq_true

theorem getNeighborsLoop_cons (a : Node) (e : Edge) (rest : List Edge) :
    getNeighborsLoop a (e :: rest) =
      if e.node1 = a ∨ e.node2 = a then
        (if e.node1 = a then e.node2 else e.node1) :: getNeighborsLoop a rest
      else getNeighborsLoop a rest := rfl

theorem mem_getNeighborsLoop {a b : Node} {l : List Edge} :
    b ∈ getNeighborsLoop a l ↔ ∃ e ∈ l, Joins e a b := by
  induction l with
  | nil => simp [getNeighborsLoop]
  | cons e rest ih =>
    have key : (∃ e1 ∈ e :: rest, Joins e1 a b) ↔ Joins e a b ∨ ∃ e1 ∈ rest, Joins e1 a b := by
      simp
    rw [key, ← ih, getNeighborsLoop_cons]
    by_cases h1 : e.node1 = a
    · simp only [h1, true_or, if_true, List.mem_cons]
      apply or_congr_left
      unfold Joins
      constructor
      · intro h
        exact Or.inl ⟨h1, h.symm⟩
      · rintro (⟨_, h⟩ | ⟨h, h2⟩)
        · exact h.symm
        · rw [← h, h1, h2]
    · by_cases h2 : e.node2 = a
      · simp only [h1, h2, or_true, if_true, if_false, List.mem_cons]
        apply or_congr_left
        unfold Joins
        constructor
        · intro h
          exact Or.inr ⟨h.symm, h2⟩
        · rintro (⟨h, _⟩ | ⟨h, _⟩)
          · exact absurd h h1
          · exact h.symm
      · simp only [h1, h2, or_self, if_false]
        constructor
        · exact Or.inr
        · rintro (h | h)
          · rcases h with ⟨h, _⟩ | ⟨_, h⟩
            · exact absurd h h1
            · exact absurd h h2
          · exact h

theorem mem_getNeighbors {net : SocialNetwork} {a b : Node} :
    b ∈ getNeighbors net a ↔ areFriends net a.name b.name = true := by
  rw [areFriends_eq_true]
  exact mem_getNeighborsLoop

theorem Joins.symm {e : Edge} {a b : Node} (h : Joins e a b) : Joins e b a :=
  Or.symm h

theorem mem_getNeighbors_comm {net : SocialNetwork} {a b : Node} :
    b ∈ getNeighbors net a ↔ a ∈ getNeighbors net b := by
  unfold getNeighbors
  rw [mem_getNeighborsLoop, mem_getNeighborsLoop]
  constructor <;> rintro ⟨e, he, hj⟩ <;> exact ⟨e, he, hj.symm⟩

/-! ## Deleting a person -/

theorem deleteEdgesFrom_take (node : Node) (i : Nat) (edges : List Edge)
    (hi : i ≤ edges.length) :
    deleteEdgesFrom node i edges =
      (edges.take i).filter (notIncident node) ++ edges.drop i := by
  induction i generalizing edges with
  | zero => simp [deleteEdgesFrom]
  | succ i ih =>
    have hlt : i < edges.length := hi
    have hget : edges[i]? = some edges[i] := List.getElem?_eq_getElem hlt
    have htake : edges.take (i + 1) = edges.take i ++ [edges[i]] := by
      rw [List.take_succ, hget]
      rfl
    have hdrop : edges.drop i = edges[i] :: edges.drop (i + 1) :=
      List.drop_eq_getElem_cons hlt
    rw [deleteEdgesFrom, hget]
    by_cases hinc : edges[i].node1 = node ∨ edges[i].node2 = node
    · have hf : notIncident node edges[i] = false := by
        simp only [notIncident, hinc, not_true, decide_False]
      simp only [hinc, if_true]
      have hlen : i ≤ (edges.eraseIdx i).length := by
        rw [List.length_eraseIdx]
        simp only [hlt, if_true]
        omega
      rw [ih _ hlen, htake, List.filter_append, List.eraseIdx_eq_take_drop_succ]
      have h1 : (edges.take i ++ edges.drop (i + 1)).take i = edges.take i := by
        rw [List.take_append_of_le_length (by simp; omega)]
        simp
      have h2 : (edges.take i ++ edges.drop (i + 1)).drop i = edges.drop (i + 1) := by
        rw [List.drop_append_of_le_length (by simp; omega)]
        simp [List.drop_take]
      rw [h1, h2, List.filter_cons_of_neg (by simp [hf]), List.filter_nil, List.append_nil]
    · have hf : notIncident node edges[i] = true := by
        simp only [notIncident, hinc, not_false_eq_true, decide_True]
      simp only [hinc, if_false]
      rw [ih _ (Nat.le_of_lt hlt), htake, List.filter_append, hdrop,
        List.filter_cons_of_pos hf, List.filter_nil, List.append_assoc]
      rfl

theorem deleteEdgesFrom_eq_filter (node : Node) (edges : List Edge) :
    deleteEdgesFrom node edges.length edges = edges.filter (notIncident node) := by
  rw [deleteEdgesFrom_take node edges.length edges (Nat.le_refl _)]
  simp

theorem eraseIdx_indexOf (l : List Node) (a : Node) : l.eraseIdx (l.indexOf a) = l.erase a := by
  induction l with
  | nil => simp
  | cons x rest ih =>
    by_cases hx : x = a
    · subst hx
      simp
    · rw [List.indexOf_cons_ne _ hx, List.eraseIdx_cons_succ, ih, List.erase_cons]
      simp [hx]

theorem isnodefound_congr {net1 net2 : SocialNetwork} (h : net1.nodesList = net2.nodesList)
    (v : Node) : isnodefound net1 v = isnodefound net2 v := by
  simp [isnodefound, h]

theorem deletePerson_eq (net : SocialNetwork) (person : String) :
    deletePerson net person =
      (decide ((⟨person⟩ : Node) ∈ net.nodesList),
        ⟨net.edgeList.filter (notIncident ⟨person⟩), net.nodesList.erase ⟨person⟩⟩) := by
  have hc : ∀ es : List Edge, isnodefound ⟨es, net.nodesList⟩ ⟨person⟩
      = isnodefound net ⟨person⟩ := fun es => isnodefound_congr rfl _
  unfold deletePerson
  simp only [deleteEdgesFrom_eq_filter, hc]
  by_cases hm : (⟨person⟩ : Node) ∈ net.nodesList
  · have hi : isnodefound net ⟨person⟩ = (net.nodesList.indexOf ⟨person⟩ : Int) :=
      isnodefound_of_mem hm
    have hne : isnodefound net ⟨person⟩ ≠ -1 := fun h => isnodefound_eq_neg_one.1 h hm
    simp only [hne, ne_eq, not_false_eq_true, if_true, hm, decide_True]
    rw [hi, Int.toNat_ofNat, eraseIdx_indexOf]
  · have hi : isnodefound net ⟨person⟩ = -1 := isnodefound_eq_neg_one.2 hm
    simp only [hi, ne_eq, not_true, if_false, hm, decide_False, List.erase_of_not_mem hm]

/-! ## Invariants of reachable networks -/

theorem unfriendLoop_sublist (a b : Node) (l : List Edge) :
    (unfriendLoop a b l).Sublist l := by
  induction l with
  | nil => exact List.Sublist.refl _
  | cons e rest ih =>
    unfold unfriendLoop
    split
    · exact List.sublist_cons_self _ _
    · exact ih.cons₂ _

theorem mem_notIncident {node : Node} {e : Edge} :
    notIncident node e = true ↔ e.node1 ≠ node ∧ e.node2 ≠ node := by
  simp [notIncident, not_or]

theorem WellFormed.empty : WellFormed empty :=
  ⟨List.nodup_nil, fun _ h => absurd h (List.not_mem_nil _), List.Pairwise.nil⟩

theorem WellFormed.addPerson {net : SocialNetwork} (h : WellFormed net) (person : String) :
    WellFormed (addPerson net person) := by
  unfold SocialNetworkModel.addPerson
  by_cases hf : isnodefound net ⟨person⟩ = -1
  · simp only [hf, if_true]
    have hm := isnodefound_eq_neg_one.1 hf
    refine ⟨?_, ?_, h.unique⟩
    · refine List.nodup_append.2 ⟨h.nodup, List.nodup_singleton _, ?_⟩
      intro x hx hx1
      rw [List.mem_singleton] at hx1
      exact hm (hx1 ▸ hx)
    · intro e he
      have := h.stored e he
      exact ⟨List.mem_append_left _ this.1, List.mem_append_left _ this.2⟩
  · simp only [hf, if_false]
    exact h

theorem WellFormed.addFriend {net : SocialNetwork} (h : WellFormed net) (a b : String) :
    WellFormed (addFriend net a b) := by
  unfold SocialNetworkModel.addFriend
  by_cases hf : isnodefound net ⟨a⟩ = -1 ∨ isnodefound net ⟨b⟩ = -1
  · simp only [hf, if_true]
    exact h
  · simp only [hf, if_false]
    by_cases hfr : areFriends net a b = true
    · simp only [hfr, if_true]
      exact h
    · simp only [hfr, Bool.false_eq_true, if_false]
      rw [not_or] at hf
      have ha : (⟨a⟩ : Node) ∈ net.nodesList := by
        by_contra hn
        exact hf.1 (isnodefound_eq_neg_one.2 hn)
      have hb : (⟨b⟩ : Node) ∈ net.nodesList := by
        by_contra hn
        exact hf.2 (isnodefound_eq_neg_one.2 hn)
      refine ⟨h.nodup, ?_, ?_⟩
      · intro e he
        rcases List.mem_append.1 he with he | he
        · exact h.stored e he
        · rw [List.mem_singleton] at he
          subst he
          exact ⟨ha, hb⟩
      · refine List.pairwise_append.2 ⟨h.unique, List.pairwise_singleton _ _, ?_⟩
        intro e he e1 he1 hj
        rw [List.mem_singleton] at he1
        subst he1
        exact hfr (areFriends_eq_true.2 ⟨e, he, hj⟩)

theorem WellFormed.unfriend {net : SocialNetwork} (h : WellFormed net) (a b : String) :
    WellFormed (unfriend net a b) := by
  have hs := unfriendLoop_sublist ⟨a⟩ ⟨b⟩ net.edgeList
  exact ⟨h.nodup, fun e he => h.stored e (hs.subset he), h.unique.sublist hs⟩

theorem WellFormed.deletePerson {net : SocialNetwork} (h : WellFormed net) (person : String) :
    WellFormed (deletePerson net person).2 := by
  rw [deletePerson_eq]
  refine ⟨h.nodup.erase _, ?_, h.unique.sublist (List.filter_sublist _)⟩
  intro e he
  have he1 := List.mem_filter.1 he
  have hne := mem_notIncident.1 he1.2
  have hst := h.stored e he1.1
  exact ⟨(List.mem_erase_of_ne hne.1).2 hst.1, (List.mem_erase_of_ne hne.2).2 hst.2⟩

theorem Reachable.wellFormed {net : SocialNetwork} (h : Reachable net) : WellFormed net := by
  induction h with
  | empty => exact WellFormed.empty
  | addPerson person _ ih => exact ih.addPerson person
  | addFriend a b _ ih => exact ih.addFriend a b
  | unfriend a b _ ih => exact ih.unfriend a b
  | deletePerson person _ ih => exact ih.deletePerson person

theorem WellFormed.mem_of_mem_getNeighbors {net : SocialNetwork} (h : WellFormed net)
    {a b : Node} (hb : b ∈ getNeighbors net a) : a ∈ net.nodesList ∧ b ∈ net.nodesList := by
  obtain ⟨e, he, hj⟩ := mem_getNeighborsLoop.1 hb
  have hst := h.stored e he
  rcases hj with ⟨h1, h2⟩ | ⟨h1, h2⟩
  · exact ⟨h1 ▸ hst.1, h2 ▸ hst.2⟩
  · exact ⟨h2 ▸ hst.2, h1 ▸ hst.1⟩

/-! ## Claims on `deletePerson` -/

theorem chainNet_reachable : Reachable chainNet :=
  .addFriend _ _ (.addFriend _ _ (.addFriend _ _ (.addPerson _ (.addPerson _ (.addPerson _
    (.addPerson _ .empty))))))

/-- C8: after `deletePerson a`, `areFriends a b` is false for every `b`, `a` is
in no neighbour list, and the edge list is the old one restricted, in order, to
the edges not incident to `a`. This holds for every network. -/
theorem deletePerson_cascade (net : SocialNetwork) (a : String) :
    (∀ b : String, areFriends (deletePerson net a).2 a b = false) ∧
    (∀ x : Node, (⟨a⟩ : Node) ∉ getNeighbors (deletePerson net a).2 x) ∧
    (deletePerson net a).2.edgeList =
      net.edgeList.filter (fun e => decide (e.node1 ≠ ⟨a⟩ ∧ e.node2 ≠ ⟨a⟩)) := by
  have hedges : (deletePerson net a).2.edgeList = net.edgeList.filter (notIncident ⟨a⟩) := by
    rw [deletePerson_eq]
  have hno : ∀ e ∈ (deletePerson net a).2.edgeList, e.node1 ≠ ⟨a⟩ ∧ e.node2 ≠ ⟨a⟩ := by
    intro e he
    rw [hedges] at he
    exact mem_notIncident.1 (List.mem_filter.1 he).2
  refine ⟨?_, ?_, ?_⟩
  · intro b
    rw [Bool.eq_false_iff]
    intro hfr
    obtain ⟨e, he, hj⟩ := areFriends_eq_true.1 hfr
    rcases hj with ⟨h1, _⟩ | ⟨_, h2⟩
    · exact (hno e he).1 h1
    · exact (hno e he).2 h2
  · intro x hx
    obtain ⟨e, he, hj⟩ := mem_getNeighborsLoop.1 hx
    rcases hj with ⟨_, h2⟩ | ⟨h1, _⟩
    · exact (hno e he).2 h2
    · exact (hno e he).1 h1
  · rw [hedges]
    apply List.filter_congr
    intro e _
    simp [notIncident, not_or]

/-- C9: on a reachable network `deletePerson n` returns true exactly when `n`
was stored; afterwards `n` is not stored and the node list is the old one
without `n`, in the old order. -/
theorem deletePerson_persons (net : SocialNetwork) (n : String) (hr : Reachable net) :
    ((deletePerson net n).1 = true ↔ (⟨n⟩ : Node) ∈ net.nodesList) ∧
    (⟨n⟩ : Node) ∉ (deletePerson net n).2.nodesList ∧
    (deletePerson net n).2.nodesList = net.nodesList.filter (fun v => decide (v ≠ ⟨n⟩)) := by
  have hnd := hr.wellFormed.nodup
  rw [deletePerson_eq]
  refine ⟨by simp, ?_, ?_⟩
  · intro hm
    exact ((hnd.mem_erase_iff).1 hm).1 rfl
  · show net.nodesList.erase ⟨n⟩ = _
    rw [hnd.erase_eq_filter]
    apply List.filter_congr
    intro v _
    by_cases hv : v = ⟨n⟩ <;> simp [hv, bne]

theorem deletePerson_persons_witness :
    Reachable chainNet ∧
    ((deletePerson chainNet "Bob").1 = true ↔ (⟨"Bob"⟩ : Node) ∈ chainNet.nodesList) ∧
    (⟨"Bob"⟩ : Node) ∉ (deletePerson chainNet "Bob").2.nodesList ∧
    (deletePerson chainNet "Bob").2.nodesList =
      chainNet.nodesList.filter (fun v => decide (v ≠ ⟨"Bob"⟩)) :=
  ⟨chainNet_reachable, deletePerson_persons chainNet "Bob" chainNet_reachable⟩

/-- C10, as stated, fails: on a network holding the edge Alice-Bob but no node,
`deletePerson "Alice"` returns false and yet removes the edge. -/
theorem deletePerson_absent_removes_dangling :
    (⟨"Alice"⟩ : Node) ∉ danglingNet.nodesList ∧
    (deletePerson danglingNet "Alice").1 = false ∧
    (deletePerson danglingNet "Alice").2.edgeList = [] ∧
    (deletePerson danglingNet "Alice").2.edgeList ≠ danglingNet.edgeList := by
  decide

/-- C10, amended: when `n` is not stored, `deletePerson n` returns false and
leaves both collections as they were, provided no edge is incident to `n`; that
proviso holds in every reachable network. -/
theorem deletePerson_absent_unchanged (net : SocialNetwork) (n : String)
    (hn : (⟨n⟩ : Node) ∉ net.nodesList) :
    ((∀ e ∈ net.edgeList, e.node1 ≠ ⟨n⟩ ∧ e.node2 ≠ ⟨n⟩) → deletePerson net n = (false, net)) ∧
    (Reachable net → deletePerson net n = (false, net)) := by
  have main : (∀ e ∈ net.edgeList, e.node1 ≠ (⟨n⟩ : Node) ∧ e.node2 ≠ ⟨n⟩) →
      deletePerson net n = (false, net) := by
    intro hno
    rw [deletePerson_eq]
    have h1 : net.edgeList.filter (notIncident ⟨n⟩) = net.edgeList :=
      List.filter_eq_self.2 (fun e he => mem_notIncident.2 (hno e he))
    rw [h1, List.erase_of_not_mem hn]
    simp [hn]
  refine ⟨main, fun hr => main ?_⟩
  intro e he
  have hst := hr.wellFormed.stored e he
  exact ⟨fun h => hn (h ▸ hst.1), fun h => hn (h ▸ hst.2)⟩

theorem deletePerson_absent_unchanged_witness :
    (⟨"Eve"⟩ : Node) ∉ chainNet.nodesList ∧ Reachable chainNet ∧
    deletePerson chainNet "Eve" = (false, chainNet) :=
  ⟨by decide, chainNet_reachable,
    (deletePerson_absent_unchanged chainNet "Eve" (by decide)).2 chainNet_reachable⟩

/-! ## Claims on the recommendation engine -/

theorem hasFriend_eq (f : Node) (l : List Node) : hasFriend f l = decide (f ∈ l) := by
  induction l with
  | nil => simp [hasFriend]
  | cons x rest ih =>
    by_cases hx : f = x
    · simp [hasFriend, hx]
    · simp [hasFriend, hx, ih]

theorem countCommon_eq (friends2 friends1 : List Node) (count : Int) :
    countCommon friends2 friends1 count =
      count + ((friends1.filter (fun f => decide (f ∈ friends2))).length : Int) := by
  induction friends1 generalizing count with
  | nil => simp [countCommon]
  | cons f rest ih =>
    rw [countCommon, ih, hasFriend_eq]
    by_cases hf : f ∈ friends2
    · simp only [hf, decide_True, if_true, List.filter_cons_of_pos, List.length_cons]
      push_cast
      ring
    · simp [hf]

theorem getNeighborsLoop_nodup (a : Node) (l : List Edge)
    (h : l.Pairwise (fun e1 e2 => ¬ Joins e1 e2.node1 e2.node2)) :
    (getNeighborsLoop a l).Nodup := by
  induction l with
  | nil => exact List.nodup_nil
  | cons e rest ih =>
    have hrest := ih (List.Pairwise.of_cons h)
    have hhead : ∀ e2 ∈ rest, ¬ Joins e e2.node1 e2.node2 := (List.pairwise_cons.1 h).1
    rw [getNeighborsLoop_cons]
    by_cases hinc : e.node1 = a ∨ e.node2 = a
    · simp only [hinc, if_true]
      refine List.nodup_cons.2 ⟨?_, hrest⟩
      intro hmem
      obtain ⟨e2, he2, hj2⟩ := mem_getNeighborsLoop.1 hmem
      have hje : Joins e a (if e.node1 = a then e.node2 else e.node1) := by
        by_cases h1 : e.node1 = a
        · simp only [h1, if_true]
          exact Or.inl ⟨h1, rfl⟩
        · simp only [h1, if_false]
          exact Or.inr ⟨rfl, hinc.resolve_left h1⟩
      apply hhead e2 he2
      rcases hj2 with ⟨h1, h2⟩ | ⟨h1, h2⟩
      · rw [h1, h2]
        exact hje
      · rw [h1, h2]
        exact hje.symm
    · simp only [hinc, if_false]
      exact hrest

theorem WellFormed.getNeighbors_nodup {net : SocialNetwork} (h : WellFormed net) (a : Node) :
    (getNeighbors net a).Nodup :=
  getNeighborsLoop_nodup a net.edgeList h.unique

theorem WellFormed.getNeighbors_eq_nil {net : SocialNetwork} (h : WellFormed net) {a : Node}
    (ha : a ∉ net.nodesList) : getNeighbors net a = [] :=
  List.eq_nil_iff_forall_not_mem.2 (fun _ hb => ha (h.mem_of_mem_getNeighbors hb).1)

/-- C7: on a reachable network `nbOfCommonFriends p q` is the number of distinct
nodes lying in both neighbour lists, and it is `0` when `p` or `q` is not stored. -/
theorem nbOfCommonFriends_eq_card (net : SocialNetwork) (p q : String) (hr : Reachable net) :
    nbOfCommonFriends net ⟨p⟩ ⟨q⟩ =
      (((getNeighbors net ⟨p⟩).toFinset ∩ (getNeighbors net ⟨q⟩).toFinset).card : Int) ∧
    (((⟨p⟩ : Node) ∉ net.nodesList ∨ (⟨q⟩ : Node) ∉ net.nodesList) →
      nbOfCommonFriends net ⟨p⟩ ⟨q⟩ = 0) := by
  have hw := hr.wellFormed
  have hzero : ((⟨p⟩ : Node) ∉ net.nodesList ∨ (⟨q⟩ : Node) ∉ net.nodesList) →
      nbOfCommonFriends net ⟨p⟩ ⟨q⟩ = 0 := by
    intro h
    have h1 : isnodefound net ⟨p⟩ = -1 ∨ isnodefound net ⟨q⟩ = -1 :=
      h.imp isnodefound_eq_neg_one.2 isnodefound_eq_neg_one.2
    simp only [nbOfCommonFriends, h1, if_true]
  refine ⟨?_, hzero⟩
  by_cases hst : (⟨p⟩ : Node) ∉ net.nodesList ∨ (⟨q⟩ : Node) ∉ net.nodesList
  · rw [hzero hst]
    rcases hst with h | h
    · simp [hw.getNeighbors_eq_nil h]
    · simp [hw.getNeighbors_eq_nil h]
  · have h1 : ¬ (isnodefound net ⟨p⟩ = -1 ∨ isnodefound net ⟨q⟩ = -1) := by
      intro h
      exact hst (h.imp isnodefound_eq_neg_one.1 isnodefound_eq_neg_one.1)
    simp only [nbOfCommonFriends, h1, if_false, countCommon_eq, zero_add, Nat.cast_inj]
    have hnd : ((getNeighbors net ⟨p⟩).filter
        (fun f => decide (f ∈ getNeighbors net ⟨q⟩))).Nodup :=
      (hw.getNeighbors_nodup _).filter _
    rw [← List.toFinset_card_of_nodup hnd, List.toFinset_filter]
    congr 1
    ext x
    simp

theorem nbOfCommonFriends_eq_card_witness :
    Reachable chainNet ∧ nbOfCommonFriends chainNet ⟨"Alice"⟩ ⟨"Carol"⟩ = 1 ∧
    nbOfCommonFriends chainNet ⟨"Alice"⟩ ⟨"Carol"⟩ =
      (((getNeighbors chainNet ⟨"Alice"⟩).toFinset ∩
        (getNeighbors chainNet ⟨"Carol"⟩).toFinset).card : Int) :=
  ⟨chainNet_reachable, by decide,
    (nbOfCommonFriends_eq_card chainNet "Alice" "Carol" chainNet_reachable).1⟩

theorem potentialFriendsLoop_eq (net : SocialNetwork) (t : Node) (l : List Node) :
    potentialFriendsLoop net t l =
      (l.filter (fun q => decide (q ≠ t ∧ areFriends net t.name q.name = false ∧
        nbOfCommonFriends net t q > 0))).map (fun q => (q, nbOfCommonFriends net t q)) := by
  induction l with
  | nil => rfl
  | cons x rest ih =>
    rw [potentialFriendsLoop, ih]
    by_cases h1 : x = t
    · simp [h1]
    · by_cases h2 : areFriends net t.name x.name = true
      · simp [h1, h2]
      · by_cases h3 : nbOfCommonFriends net t x > 0
        · simp [h1, h2, h3]
        · simp [h1, h2, h3]

theorem mem_potentialFriendsLoop {net : SocialNetwork} {t : Node} {x : Node × Int} :
    x ∈ potentialFriendsLoop net t net.nodesList ↔
      IsCandidate net t x.1 ∧ x.2 = nbOfCommonFriends net t x.1 := by
  rw [potentialFriendsLoop_eq, List.mem_map]
  constructor
  · rintro ⟨q, hq, rfl⟩
    have := List.mem_filter.1 hq
    exact ⟨⟨this.1, of_decide_eq_true this.2⟩, rfl⟩
  · rintro ⟨⟨h1, h2⟩, h3⟩
    refine ⟨x.1, List.mem_filter.2 ⟨h1, decide_eq_true h2⟩, ?_⟩
    rw [← h3]

theorem potentialFriendsLoop_fst (net : SocialNetwork) (t : Node) :
    (potentialFriendsLoop net t net.nodesList).map Prod.fst =
      net.nodesList.filter (fun q => decide (IsCandidate net t q)) := by
  rw [potentialFriendsLoop_eq, List.map_map]
  have h1 : (Prod.fst ∘ fun q => (q, nbOfCommonFriends net t q)) = id := rfl
  rw [h1, List.map_id]
  apply List.filter_congr
  intro q hq
  simp [IsCandidate, hq]

theorem topKPeople_eq (sort : List (Node × Int) → List (Node × Int)) (net : SocialNetwork)
    (p : String) (k : Int) (hp : (⟨p⟩ : Node) ∈ net.nodesList) (hk : 0 < k) :
    topKPeople sort net p k =
      ((sort (potentialFriendsLoop net ⟨p⟩ net.nodesList)).take k.toNat).map Prod.fst := by
  have h1 : ¬ (isnodefound net ⟨p⟩ = -1 ∨ k ≤ 0) := by
    rintro (h | h)
    · exact isnodefound_eq_neg_one.1 h hp
    · omega
  simp only [topKPeople, h1, if_false]
  congr 1
  generalize sort (potentialFriendsLoop net ⟨p⟩ net.nodesList) = l
  rcases le_total k (l.length : Int) with h | h
  · rw [min_eq_left h]
  · rw [min_eq_right h, Int.toNat_ofNat, List.take_length]
    exact (List.take_of_length_le (by omega)).symm

/-- C5: `topKPeople p k` is empty when `p` is not stored or `k ≤ 0`; otherwise,
on a reachable network, it has `min k c` elements for `c` the number of
candidates, holds no node twice, and holds candidates only. -/
theorem topKPeople_size (sort : List (Node × Int) → List (Node × Int))
    (net : SocialNetwork) (p : String) (k : Int) (hs : StdSortSpec sort) (hr : Reachable net) :
    (((⟨p⟩ : Node) ∉ net.nodesList ∨ k ≤ 0) → topKPeople sort net p k = []) ∧
    ((⟨p⟩ : Node) ∈ net.nodesList → 0 < k →
      ((topKPeople sort net p k).length : Int) =
          min k ((net.nodesList.toFinset.filter (fun q => IsCandidate net ⟨p⟩ q)).card : Int) ∧
        (topKPeople sort net p k).Nodup ∧
        ∀ q ∈ topKPeople sort net p k, IsCandidate net ⟨p⟩ q) := by
  constructor
  · intro h
    have h1 : isnodefound net ⟨p⟩ = -1 ∨ k ≤ 0 := h.imp_left isnodefound_eq_neg_one.2
    simp only [topKPeople, h1, if_true]
  · intro hp hk
    have hnd := hr.wellFormed.nodup
    rw [topKPeople_eq sort net p k hp hk]
    have hperm := hs.perm (potentialFriendsLoop net ⟨p⟩ net.nodesList)
    have hfst : ((sort (potentialFriendsLoop net ⟨p⟩ net.nodesList)).map Prod.fst).Perm
        (net.nodesList.filter (fun q => decide (IsCandidate net ⟨p⟩ q))) := by
      rw [← potentialFriendsLoop_fst]
      exact hperm.map _
    have hcard : (net.nodesList.toFinset.filter (fun q => IsCandidate net ⟨p⟩ q)).card =
        (sort (potentialFriendsLoop net ⟨p⟩ net.nodesList)).length := by
      rw [← List.length_map _ Prod.fst, hfst.length_eq,
        ← List.toFinset_card_of_nodup (hnd.filter _), List.toFinset_filter]
      congr 1
      ext q
      simp
    have hsub : (((sort (potentialFriendsLoop net ⟨p⟩ net.nodesList)).take k.toNat).map
        Prod.fst).Sublist ((sort (potentialFriendsLoop net ⟨p⟩ net.nodesList)).map Prod.fst) :=
      (List.take_sublist _ _).map _
    refine ⟨?_, ?_, ?_⟩
    · rw [hcard, List.length_map, List.length_take]
      omega
    · exact ((hfst.nodup_iff).2 (hnd.filter _)).sublist hsub
    · intro q hq
      have hq1 := hfst.subset (hsub.subset hq)
      exact of_decide_eq_true (List.mem_filter.1 hq1).2

theorem insertionSortDesc_spec : StdSortSpec insertionSortDesc := by
  have htotal : IsTotal (Node × Int) (fun a b => a.2 ≥ b.2) := ⟨fun a b => le_total b.2 a.2⟩
  have htrans : IsTrans (Node × Int) (fun a b => a.2 ≥ b.2) :=
    ⟨fun a b c hab hbc => le_trans hbc hab⟩
  refine ⟨fun l => List.perm_insertionSort _ l, fun l => ?_⟩
  have hsorted : (insertionSortDesc l).Pairwise (fun a b => a.2 ≥ b.2) :=
    List.sorted_insertionSort (fun a b : Node × Int => a.2 ≥ b.2) l
  exact hsorted.imp (fun h => not_lt.2 h)

theorem recNet_reachable : Reachable recNet :=
  .addFriend _ _ (.addFriend _ _ (.addFriend _ _ (.addFriend _ _ (.addFriend _ _
    (.addFriend _ _ (.addFriend _ _ (.addPerson _ (.addPerson _ (.addPerson _ (.addPerson _
      (.addPerson _ (.addPerson _ (.addPerson _ .empty)))))))))))))

theorem topKPeople_size_witness :
    Reachable recNet ∧ (⟨"P"⟩ : Node) ∈ recNet.nodesList ∧
    topKPeople insertionSortDesc recNet "P" 5 = [⟨"Q1"⟩, ⟨"Q2"⟩] ∧
    ((topKPeople insertionSortDesc recNet "P" 5).length : Int) =
        min 5 ((recNet.nodesList.toFinset.filter (fun q => IsCandidate recNet ⟨"P"⟩ q)).card
          : Int) ∧
    (topKPeople insertionSortDesc recNet "P" 5).Nodup ∧
    ∀ q ∈ topKPeople insertionSortDesc recNet "P" 5, IsCandidate recNet ⟨"P"⟩ q :=
  ⟨recNet_reachable, by decide, by decide,
    (topKPeople_size insertionSortDesc recNet "P" 5 insertionSortDesc_spec recNet_reachable).2
      (by decide) (by decide)⟩

theorem sort_snd_eq {sort : List (Node × Int) → List (Node × Int)} (hs : StdSortSpec sort)
    (net : SocialNetwork) (t : Node) :
    ∀ x ∈ sort (potentialFriendsLoop net t net.nodesList), x.2 = nbOfCommonFriends net t x.1 :=
  fun _ hx => (mem_potentialFriendsLoop.1 ((hs.perm _).subset hx)).2

/-- C6: for a stored `p` and `k > 0` (on any network, reachable or not), the counts
along `topKPeople p k` never increase, and no candidate left out has a larger
count than a returned node. -/
theorem topKPeople_ranked (sort : List (Node × Int) → List (Node × Int))
    (net : SocialNetwork) (p : String) (k : Int) (hs : StdSortSpec sort)
    (hp : (⟨p⟩ : Node) ∈ net.nodesList) (hk : 0 < k) :
    (topKPeople sort net p k).Pairwise
        (fun q1 q2 => nbOfCommonFriends net ⟨p⟩ q1 ≥ nbOfCommonFriends net ⟨p⟩ q2) ∧
    ∀ q, IsCandidate net ⟨p⟩ q → q ∉ topKPeople sort net p k →
      ∀ r ∈ topKPeople sort net p k,
        nbOfCommonFriends net ⟨p⟩ q ≤ nbOfCommonFriends net ⟨p⟩ r := by
  rw [topKPeople_eq sort net p k hp hk]
  have hsnd := sort_snd_eq hs net ⟨p⟩
  have hsorted := hs.sorted (potentialFriendsLoop net ⟨p⟩ net.nodesList)
  generalize hS : sort (potentialFriendsLoop net ⟨p⟩ net.nodesList) = S at hsnd hsorted
  constructor
  · rw [List.pairwise_map]
    have h1 : (S.take k.toNat).Pairwise (fun a b => ¬ b.2 > a.2) :=
      hsorted.sublist (List.take_sublist _ _)
    refine h1.imp_of_mem ?_
    intro a b ha hb hab
    rw [← hsnd a (List.mem_of_mem_take ha), ← hsnd b (List.mem_of_mem_take hb)]
    exact not_lt.1 hab
  · intro q hq hout r hr
    obtain ⟨a, ha, rfl⟩ := List.mem_map.1 hr
    have hmem : (q, nbOfCommonFriends net ⟨p⟩ q) ∈ S := by
      rw [← hS]
      exact (hs.perm _).symm.subset (mem_potentialFriendsLoop.2 ⟨hq, rfl⟩)
    rw [← List.take_append_drop k.toNat S] at hmem hsorted
    rcases List.mem_append.1 hmem with h | h
    · exact absurd (List.mem_map.2 ⟨_, h, rfl⟩) hout
    · have := (List.pairwise_append.1 hsorted).2.2 a ha _ h
      rw [← hsnd a (List.mem_of_mem_take ha)]
      exact not_lt.1 this

theorem topKPeople_ranked_witness :
    Reachable recNet ∧ (⟨"P"⟩ : Node) ∈ recNet.nodesList ∧
    topKPeople insertionSortDesc recNet "P" 2 = [⟨"Q1"⟩, ⟨"Q2"⟩] ∧
    nbOfCommonFriends recNet ⟨"P"⟩ ⟨"Q1"⟩ = 3 ∧ nbOfCommonFriends recNet ⟨"P"⟩ ⟨"Q2"⟩ = 1 ∧
    nbOfCommonFriends recNet ⟨"P"⟩ ⟨"Q3"⟩ = 0 ∧
    (topKPeople insertionSortDesc recNet "P" 2).Pairwise
        (fun q1 q2 => nbOfCommonFriends recNet ⟨"P"⟩ q1 ≥ nbOfCommonFriends recNet ⟨"P"⟩ q2) ∧
    ∀ q, IsCandidate recNet ⟨"P"⟩ q → q ∉ topKPeople insertionSortDesc recNet "P" 2 →
      ∀ r ∈ topKPeople insertionSortDesc recNet "P" 2,
        nbOfCommonFriends recNet ⟨"P"⟩ q ≤ nbOfCommonFriends recNet ⟨"P"⟩ r :=
  ⟨recNet_reachable, by decide, by decide, by decide, by decide, by decide,
    topKPeople_ranked insertionSortDesc recNet "P" 2 insertionSortDesc_spec
      (by decide) (by decide)⟩

/-! ## The traversal on indices simulates the traversal on names -/

theorem getAt_natCast {α : Type} {v : List α} {i : Nat} {a : α} (h : v[i]? = some a) :
    getAt v (i : Int) = .ok a := by
  have hneg : ¬ ((i : Int) < 0) := by omega
  simp only [getAt, hneg, if_false, Int.toNat_ofNat, h]

theorem setAt_natCast {α : Type} {v : List α} {i : Nat} (a : α) (h : i < v.length) :
    setAt v (i : Int) a = .ok (v.set i a) := by
  have hneg : ¬ ((i : Int) < 0) := by omega
  simp only [setAt, hneg, if_false, Int.toNat_ofNat, h, if_true]

theorem getElem?_set_idx {α : Type} {net : SocialNetwork} {l : List α} {x v : Node} {a : α}
    (hx : x ∈ net.nodesList) (hv : v ∈ net.nodesList) (hl : l.length = net.nodesList.length) :
    (l.set (idx net x) a)[idx net v]? = if v = x then some a else l[idx net v]? := by
  by_cases h : v = x
  · subst h
    rw [if_pos rfl, List.getElem?_set_self]
    rw [hl]
    exact idx_lt hx
  · have hne : idx net x ≠ idx net v := fun he => h (idx_inj hv hx he.symm)
    rw [if_neg h, List.getElem?_set_ne hne]

theorem Rep.mark {net : SocialNetwork} {st : BfsState} {a : AbsState} (h : Rep net st a)
    {x cur : Node} (hx : x ∈ net.nodesList) (hseen : a.vis x = false) :
    Rep net ⟨st.visited.set (idx net x) true, st.parent.set (idx net x) (isnodefound net cur),
        st.q ++ [isnodefound net x]⟩
      ⟨Function.update a.vis x true, Function.update a.par x (some cur), a.q ++ [x]⟩ := by
  refine ⟨by simp [h.vlen], by simp [h.plen], ?_, ?_, ?_⟩
  · intro v hv
    show (st.visited.set (idx net x) true)[idx net v]? = _
    rw [getElem?_set_idx hx hv h.vlen]
    by_cases hvx : v = x
    · subst hvx
      simp
    · simp only [hvx, if_false, Function.update_noteq hvx, h.vis v hv]
  · intro v hv
    show (st.parent.set (idx net x) (isnodefound net cur))[idx net v]? = _
    rw [getElem?_set_idx hx hv h.plen]
    by_cases hvx : v = x
    · subst hvx
      simp [enc]
    · simp only [hvx, if_false, Function.update_noteq hvx, h.par v hv]
  · show st.q ++ [isnodefound net x] = (a.q ++ [x]).map (isnodefound net)
    rw [h.q]
    simp

theorem visitNeighbors_sim {net : SocialNetwork} (cur : Node) (ns : List Node)
    (hns : ∀ x ∈ ns, x ∈ net.nodesList) (st : BfsState) (a : AbsState) (h : Rep net st a) :
    ∃ st1, visitNeighbors net (isnodefound net cur) ns st = .ok st1 ∧
      Rep net st1 (absVisit cur ns a) := by
  induction ns generalizing st a with
  | nil => exact ⟨st, rfl, h⟩
  | cons x rest ih =>
    have hx : x ∈ net.nodesList := hns x (List.mem_cons_self _ _)
    have hrest : ∀ y ∈ rest, y ∈ net.nodesList := fun y hy => hns y (List.mem_cons_of_mem _ hy)
    have hget : getAt st.visited (isnodefound net x) = .ok (a.vis x) := by
      rw [isnodefound_of_mem hx]
      exact getAt_natCast (h.vis x hx)
    rw [visitNeighbors, absVisit]
    simp only [hget]
    by_cases hseen : a.vis x = true
    · simp only [hseen, Bool.not_true, Bool.false_eq_true, if_false, if_true]
      exact ih hrest st a h
    · have hseen1 : a.vis x = false := Bool.eq_false_iff.2 hseen
      have hset1 : setAt st.visited (isnodefound net x) true
          = .ok (st.visited.set (idx net x) true) := by
        rw [isnodefound_of_mem hx]
        exact setAt_natCast _ (h.vlen ▸ idx_lt hx)
      have hset2 : setAt st.parent (isnodefound net x) (isnodefound net cur)
          = .ok (st.parent.set (idx net x) (isnodefound net cur)) := by
        rw [isnodefound_of_mem hx]
        exact setAt_natCast _ (h.plen ▸ idx_lt hx)
      simp only [hseen1, Bool.not_false, if_true, hset1, hset2, Bool.false_eq_true, if_false]
      exact ih hrest _ _ (h.mark hx hseen1)

theorem absVisit_q_stored {net : SocialNetwork} (cur : Node) (ns : List Node)
    (hns : ∀ x ∈ ns, x ∈ net.nodesList) (a : AbsState) (hq : ∀ v ∈ a.q, v ∈ net.nodesList) :
    ∀ v ∈ (absVisit cur ns a).q, v ∈ net.nodesList := by
  induction ns generalizing a with
  | nil => exact hq
  | cons x rest ih =>
    have hrest : ∀ y ∈ rest, y ∈ net.nodesList := fun y hy => hns y (List.mem_cons_of_mem _ hy)
    rw [absVisit]
    split
    · exact ih hrest a hq
    · apply ih hrest
      intro v hv
      rcases List.mem_append.1 hv with h | h
      · exact hq v h
      · rw [List.mem_singleton] at h
        exact h ▸ hns x (List.mem_cons_self _ _)

theorem bfsLoop_sim {net : SocialNetwork} (hw : WellFormed net) (goal : Node) (fuel : Nat)
    (st : BfsState) (a a1 : AbsState) (h : Rep net st a)
    (hq : ∀ v ∈ a.q, v ∈ net.nodesList) (hrun : absLoop net goal fuel a = some a1) :
    ∃ st1, bfsLoop net goal fuel st = .ok st1 ∧ Rep net st1 a1 := by
  induction fuel generalizing st a with
  | zero => simp [absLoop] at hrun
  | succ fuel ih =>
    rw [absLoop] at hrun
    rw [bfsLoop]
    cases hqa : a.q with
    | nil =>
      have hqs : st.q = [] := by rw [h.q, hqa]; rfl
      simp only [hqa] at hrun
      simp only [hqs]
      exact ⟨st, rfl, Option.some.inj hrun ▸ h⟩
    | cons cur rest =>
      have hcur : cur ∈ net.nodesList := hq cur (hqa ▸ List.mem_cons_self _ _)
      have hqs : st.q = isnodefound net cur :: rest.map (isnodefound net) := by
        rw [h.q, hqa]; rfl
      have hget : getAt net.nodesList (isnodefound net cur) = .ok cur := by
        rw [isnodefound_of_mem hcur]
        exact getAt_natCast (nodesList_idx hcur)
      have hpop : Rep net { st with q := rest.map (isnodefound net) } { a with q := rest } :=
        ⟨h.vlen, h.plen, h.vis, h.par, rfl⟩
      simp only [hqa] at hrun
      simp only [hqs, hget]
      by_cases hg : cur = goal
      · simp only [hg, if_true] at hrun ⊢
        exact ⟨_, rfl, Option.some.inj hrun ▸ hpop⟩
      · simp only [hg, if_false] at hrun ⊢
        have hns : ∀ x ∈ getNeighbors net cur, x ∈ net.nodesList :=
          fun x hx => (hw.mem_of_mem_getNeighbors hx).2
        obtain ⟨st1, hst1, hrep1⟩ := visitNeighbors_sim cur _ hns _ _ hpop
        simp only [hst1]
        refine ih st1 _ hrep1 ?_ hrun
        apply absVisit_q_stored cur _ hns
        intro v hv
        exact hq v (hqa ▸ List.mem_cons_of_mem _ hv)

theorem walkParents_sim {net : SocialNetwork} {st : BfsState} {a : AbsState} (h : Rep net st a)
    (hpar : ∀ v w, a.par v = some w → w ∈ net.nodesList) (fuel : Nat) (o : Option Node)
    (ho : ∀ v, o = some v → v ∈ net.nodesList) (path p : List Node)
    (hrun : absWalk a.par fuel o path = some p) :
    walkParents net st.parent fuel (enc net o) path = .ok p := by
  induction fuel generalizing o path with
  | zero => simp [absWalk] at hrun
  | succ fuel ih =>
    cases o with
    | none =>
      rw [absWalk] at hrun
      rw [walkParents]
      simp only [enc, if_true]
      exact congrArg Except.ok (Option.some.inj hrun)
    | some v =>
      have hv : v ∈ net.nodesList := ho v rfl
      rw [absWalk] at hrun
      rw [walkParents]
      have hne : ¬ (enc net (some v) = -1) := by
        simp only [enc, isnodefound_of_mem hv]
        omega
      have hget1 : getAt net.nodesList (enc net (some v)) = .ok v := by
        simp only [enc, isnodefound_of_mem hv]
        exact getAt_natCast (nodesList_idx hv)
      have hget2 : getAt st.parent (enc net (some v)) = .ok (enc net (a.par v)) := by
        simp only [enc, isnodefound_of_mem hv]
        exact getAt_natCast (h.par v hv)
      simp only [hne, if_false, hget1, hget2]
      exact ih (a.par v) (fun w hw => hpar v w hw) _ hrun

/-! ## Correctness of the breadth-first search on names -/

theorem filter_unvisited_le (vis : Node → Bool) (x : Node) (l : List Node) :
    (l.filter (fun v => !(Function.update vis x true) v)).length ≤
      (l.filter (fun v => !vis v)).length := by
  induction l with
  | nil => simp
  | cons y rest ih =>
    by_cases hy : y = x
    · subst hy
      simp only [List.filter_cons, Function.update_same, Bool.not_true, Bool.false_eq_true,
        if_false]
      split
      · simp only [List.length_cons]
        omega
      · exact ih
    · simp only [List.filter_cons, Function.update_noteq hy]
      split
      · simp only [List.length_cons]
        omega
      · exact ih

theorem filter_unvisited_lt (vis : Node → Bool) (x : Node) (l : List Node) (hx : x ∈ l)
    (hv : vis x = false) :
    (l.filter (fun v => !(Function.update vis x true) v)).length + 1 ≤
      (l.filter (fun v => !vis v)).length := by
  induction l with
  | nil => exact absurd hx (List.not_mem_nil _)
  | cons y rest ih =>
    by_cases hy : y = x
    · subst hy
      have := filter_unvisited_le vis y rest
      simp only [List.filter_cons, Function.update_same, Bool.not_true, Bool.false_eq_true,
        if_false, hv, Bool.not_false, if_true, List.length_cons]
      omega
    · have hx1 : x ∈ rest := by
        rcases List.mem_cons.1 hx with h | h
        · exact absurd h.symm hy
        · exact h
      have := ih hx1
      simp only [List.filter_cons, Function.update_noteq hy]
      split
      · simp only [List.length_cons]
        omega
      · exact this

theorem unvisited_lt_length {net : SocialNetwork} {a : AbsState} {x : Node}
    (hx : x ∈ net.nodesList) (hv : a.vis x = true) :
    unvisited net a + 1 ≤ net.nodesList.length := by
  have : (net.nodesList.filter (fun v => !a.vis v)).length < net.nodesList.length := by
    rw [List.length_filter_lt_length_iff_exists]
    exact ⟨x, hx, by simp [hv]⟩
  exact this

theorem Inv.undisc_bound {net : SocialNetwork} {B : List Node} {s : Node} {lvl : Node → Nat}
    {L : Nat} {cur : Option Node} {a : AbsState} (h : Inv net B s lvl L cur a)
    (hd : IsDist net B s lvl) {k : Nat} {v : Node} (hr : Reach net B s k v)
    (hv : ¬ Disc s a v) : L + 1 ≤ k := by
  induction hr with
  | base => exact absurd (Or.inl rfl) hv
  | @step k w v hw hadj hB ih =>
    by_cases hdw : Disc s a w
    · have hlw : lvl w ≤ k := (hd w k hw).1
      have hnv : ¬ a.vis v = true := fun hvis =>
        ((h.vis_iff v).1 hvis).elim hB hv
      have hL : L ≤ lvl w := by
        by_contra hcon
        by_cases hq : w ∈ a.q
        · exact hcon (h.q_lvl w hq).1
        · by_cases hc : cur = some w
          · exact hcon (le_of_eq (h.cur_ok w hc).1.symm)
          · exact hnv (h.done w hdw hq hc v hadj)
      omega
    · have := ih hdw
      omega

theorem Inv.visit_one {net : SocialNetwork} {B : List Node} {s : Node} {lvl : Node → Nat}
    {L : Nat} {c : Node} {a : AbsState} (h : Inv net B s lvl L (some c) a)
    (hd : IsDist net B s lvl) {x : Node}
    (hadj : x ∈ getNeighbors net c) (hxn : x ∈ net.nodesList) (hseen : a.vis x = false) :
    Inv net B s lvl L (some c)
      ⟨Function.update a.vis x true, Function.update a.par x (some c), a.q ++ [x]⟩ := by
  obtain ⟨hcL, hcd, hcn⟩ := h.cur_ok c rfl
  subst hcL
  have hnv : ¬ (x ∈ B ∨ Disc s a x) := fun hh => by
    have := (h.vis_iff x).2 hh
    rw [hseen] at this
    exact Bool.false_ne_true this
  have hxB : x ∉ B := fun hh => hnv (Or.inl hh)
  have hxd : ¬ Disc s a x := fun hh => hnv (Or.inr hh)
  have hxs : x ≠ s := fun hh => hxd (Or.inl hh)
  have hxp : a.par x = none := by
    by_contra hh
    exact hxd (Or.inr hh)
  have hcx : c ≠ x := fun hh => hxd (hh ▸ hcd)
  have hdisc : ∀ v, Disc s ⟨Function.update a.vis x true, Function.update a.par x (some c),
      a.q ++ [x]⟩ v ↔ v = x ∨ Disc s a v := by
    intro v
    unfold Disc
    by_cases hvx : v = x
    · subst hvx
      simp
    · simp only [Function.update_noteq hvx, hvx, false_or]
  obtain ⟨k0, hk0⟩ := h.reach c hcd
  have hrc : Reach net B s (lvl c) c := (hd c k0 hk0).2
  have hrx : Reach net B s (lvl c + 1) x := Reach.step hrc hadj hxB
  have hlx : lvl x = lvl c + 1 := by
    have h1 := (hd x _ hrx).1
    have h2 := h.undisc_bound hd (hd x _ hrx).2 hxd
    omega
  have hU : unvisited net ⟨Function.update a.vis x true, Function.update a.par x (some c),
      a.q ++ [x]⟩ + 1 ≤ unvisited net a :=
    filter_unvisited_lt a.vis x net.nodesList hxn hseen
  refine ⟨?_, ?_, ?_, ?_, ?_, ?_, ?_, ?_, ?_, ?_, ?_⟩
  · intro v
    rw [hdisc]
    show Function.update a.vis x true v = true ↔ _
    by_cases hvx : v = x
    · subst hvx
      simp
    · rw [Function.update_noteq hvx, h.vis_iff]
      simp only [hvx, false_or]
  · show Function.update a.par x (some c) s = none
    rw [Function.update_noteq (Ne.symm hxs)]
    exact h.par_s
  · intro v hv
    show Function.update a.par x (some c) v = none
    have hvx : v ≠ x := fun hh => hxB (hh ▸ hv)
    rw [Function.update_noteq hvx]
    exact h.par_B v hv
  · intro v w hvw
    change Function.update a.par x (some c) v = some w at hvw
    rw [hdisc]
    by_cases hvx : v = x
    · subst hvx
      rw [Function.update_same] at hvw
      have hwc : c = w := Option.some.inj hvw
      subst hwc
      exact ⟨hcn, Or.inr hcd, hadj, hlx⟩
    · rw [Function.update_noteq hvx] at hvw
      obtain ⟨h1, h2, h3, h4⟩ := h.par_ok v w hvw
      exact ⟨h1, Or.inr h2, h3, h4⟩
  · intro v hv
    rcases (hdisc v).1 hv with hvx | hv1
    · exact ⟨_, hvx ▸ hrx⟩
    · exact h.reach v hv1
  · intro v hv
    rw [hdisc]
    change v ∈ a.q ++ [x] at hv
    rcases List.mem_append.1 hv with hv1 | hv1
    · exact ⟨(h.q_ok v hv1).1, Or.inr (h.q_ok v hv1).2⟩
    · rw [List.mem_singleton] at hv1
      exact ⟨hv1 ▸ hxn, Or.inl hv1⟩
  · show (a.q ++ [x]).Pairwise _
    refine List.pairwise_append.2 ⟨h.sorted, List.pairwise_singleton _ _, ?_⟩
    intro y hy z hz
    rw [List.mem_singleton] at hz
    subst hz
    have := (h.q_lvl y hy).2
    omega
  · intro y hy
    change y ∈ a.q ++ [x] at hy
    rcases List.mem_append.1 hy with hy1 | hy1
    · exact h.q_lvl y hy1
    · rw [List.mem_singleton] at hy1
      subst hy1
      omega
  · intro c1 hc1
    have hcc : c = c1 := Option.some.inj hc1
    subst hcc
    exact ⟨rfl, (hdisc c).2 (Or.inr hcd), hcn⟩
  · intro w hw hwq hwc y hy
    change w ∉ a.q ++ [x] at hwq
    have hwx : w ≠ x := fun hh => hwq (List.mem_append_right _ (hh ▸ List.mem_singleton_self _))
    have hwq1 : w ∉ a.q := fun hh => hwq (List.mem_append_left _ hh)
    have hw1 : Disc s a w := ((hdisc w).1 hw).resolve_left hwx
    have := h.done w hw1 hwq1 hwc y hy
    show Function.update a.vis x true y = true
    by_cases hyx : y = x
    · subst hyx
      simp
    · rw [Function.update_noteq hyx]
      exact this
  · intro v hv
    rcases (hdisc v).1 hv with hvx | hv1
    · subst hvx
      have := h.bound c hcd
      omega
    · have := h.bound v hv1
      omega

theorem Inv.visit {net : SocialNetwork} {B : List Node} {s : Node} {lvl : Node → Nat}
    {L : Nat} {c : Node} (hd : IsDist net B s lvl) (ns : List Node)
    (hns : ∀ x ∈ ns, x ∈ getNeighbors net c ∧ x ∈ net.nodesList) (a : AbsState)
    (h : Inv net B s lvl L (some c) a) :
    Inv net B s lvl L (some c) (absVisit c ns a) ∧
    (∀ v, a.vis v = true → (absVisit c ns a).vis v = true) ∧
    (∀ x ∈ ns, (absVisit c ns a).vis x = true) ∧
    2 * unvisited net (absVisit c ns a) + (absVisit c ns a).q.length ≤
      2 * unvisited net a + a.q.length := by
  induction ns generalizing a with
  | nil =>
    exact ⟨h, fun _ hv => hv, fun _ hx => absurd hx (List.not_mem_nil _), Nat.le_refl _⟩
  | cons x rest ih =>
    have hx := hns x (List.mem_cons_self _ _)
    have hrest : ∀ y ∈ rest, y ∈ getNeighbors net c ∧ y ∈ net.nodesList :=
      fun y hy => hns y (List.mem_cons_of_mem _ hy)
    rw [absVisit]
    by_cases hseen : a.vis x = true
    · simp only [hseen, if_true]
      obtain ⟨h1, h2, h3, h4⟩ := ih hrest a h
      refine ⟨h1, h2, ?_, h4⟩
      intro y hy
      rcases List.mem_cons.1 hy with hyx | hy1
      · exact hyx ▸ h2 x hseen
      · exact h3 y hy1
    · have hseen1 : a.vis x = false := Bool.eq_false_iff.2 hseen
      simp only [hseen1, Bool.false_eq_true, if_false]
      have hU : unvisited net ⟨Function.update a.vis x true, Function.update a.par x (some c),
          a.q ++ [x]⟩ + 1 ≤ unvisited net a :=
        filter_unvisited_lt a.vis x net.nodesList hx.2 hseen1
      obtain ⟨h1, h2, h3, h4⟩ := ih hrest _ (h.visit_one hd hx.1 hx.2 hseen1)
      refine ⟨h1, ?_, ?_, ?_⟩
      · intro v hv
        apply h2
        show Function.update a.vis x true v = true
        by_cases hvx : v = x
        · subst hvx
          simp
        · rw [Function.update_noteq hvx]
          exact hv
      · intro y hy
        rcases List.mem_cons.1 hy with hyx | hy1
        · subst hyx
          apply h2
          show Function.update a.vis y true y = true
          simp
        · exact h3 y hy1
      · simp only [List.length_append, List.length_singleton] at h4
        omega

theorem Inv.pop {net : SocialNetwork} {B : List Node} {s : Node} {lvl : Node → Nat}
    {L : Nat} {a : AbsState} (h : Inv net B s lvl L none a) {c : Node} {rest : List Node}
    (hq : a.q = c :: rest) :
    Inv net B s lvl (lvl c) (some c) { a with q := rest } := by
  have hc : c ∈ a.q := hq ▸ List.mem_cons_self _ _
  have hsub : ∀ v, v ∈ rest → v ∈ a.q := fun v hv => hq ▸ List.mem_cons_of_mem _ hv
  have hsorted : (c :: rest).Pairwise (fun x y => lvl x ≤ lvl y) := hq ▸ h.sorted
  refine ⟨h.vis_iff, h.par_s, h.par_B, h.par_ok, h.reach, fun v hv => h.q_ok v (hsub v hv),
    (List.pairwise_cons.1 hsorted).2, ?_, ?_, ?_, h.bound⟩
  · intro x hx
    have h1 := (List.pairwise_cons.1 hsorted).1 x hx
    have h2 := (h.q_lvl x (hsub x hx)).2
    have h3 := (h.q_lvl c hc).1
    omega
  · intro c1 hc1
    have hcc : c = c1 := Option.some.inj hc1
    subst hcc
    exact ⟨rfl, (h.q_ok c hc).2, (h.q_ok c hc).1⟩
  · intro w hw hwq hwc y hy
    refine h.done w hw ?_ (fun hh => Option.noConfusion hh) y hy
    intro hmem
    rw [hq] at hmem
    rcases List.mem_cons.1 hmem with h1 | h1
    · exact hwc (h1 ▸ rfl)
    · exact hwq h1

theorem Inv.finish {net : SocialNetwork} {B : List Node} {s : Node} {lvl : Node → Nat}
    {L : Nat} {a : AbsState} {c : Node} (h : Inv net B s lvl L (some c) a)
    (hall : ∀ x ∈ getNeighbors net c, a.vis x = true) :
    Inv net B s lvl L none a := by
  refine ⟨h.vis_iff, h.par_s, h.par_B, h.par_ok, h.reach, h.q_ok, h.sorted, h.q_lvl,
    fun _ hc => Option.noConfusion hc, ?_, h.bound⟩
  intro w hw hwq _ y hy
  by_cases hwc : w = c
  · subst hwc
    exact hall y hy
  · exact h.done w hw hwq (fun hh => hwc (Option.some.inj hh).symm) y hy

theorem absLoop_spec {net : SocialNetwork} {B : List Node} {s : Node} {lvl : Node → Nat}
    (hd : IsDist net B s lvl) (hw : WellFormed net) (g : Node) (fuel : Nat) (a : AbsState)
    (L : Nat) (h : Inv net B s lvl L none a)
    (hfuel : 2 * unvisited net a + a.q.length < fuel) :
    ∃ a1 L1 c1, absLoop net g fuel a = some a1 ∧ Inv net B s lvl L1 c1 a1 ∧
      (Disc s a1 g ∨ (a1.q = [] ∧ c1 = none)) := by
  induction fuel generalizing a L with
  | zero => exact absurd hfuel (Nat.not_lt_zero _)
  | succ fuel ih =>
    rw [absLoop]
    cases hq : a.q with
    | nil => exact ⟨a, L, none, rfl, h, Or.inr ⟨hq, rfl⟩⟩
    | cons c rest =>
      have hpop := h.pop hq
      by_cases hcg : c = g
      · simp only [hcg, if_true]
        refine ⟨_, _, _, rfl, hcg ▸ hpop, Or.inl ?_⟩
        exact hcg ▸ (hpop.cur_ok c rfl).2.1
      · simp only [hcg, if_false]
        have hns : ∀ x ∈ getNeighbors net c, x ∈ getNeighbors net c ∧ x ∈ net.nodesList :=
          fun x hx => ⟨hx, (hw.mem_of_mem_getNeighbors hx).2⟩
        obtain ⟨h1, _, h3, h4⟩ := Inv.visit hd (getNeighbors net c) hns _ hpop
        have hlen : a.q.length = rest.length + 1 := by rw [hq]; rfl
        have hU : unvisited net { a with q := rest } = unvisited net a := rfl
        refine ih _ _ (h1.finish h3) ?_
        simp only [hU] at h4
        omega

theorem Inv.closed {net : SocialNetwork} {B : List Node} {s : Node} {lvl : Node → Nat}
    {L : Nat} {a : AbsState} (h : Inv net B s lvl L none a) (hq : a.q = []) {k : Nat}
    {v : Node} (hr : Reach net B s k v) : Disc s a v := by
  induction hr with
  | base => exact Or.inl rfl
  | @step k w v _ hadj hB ih =>
    have hwq : w ∉ a.q := by
      rw [hq]
      exact List.not_mem_nil _
    have := h.done w ih hwq (fun hh => Option.noConfusion hh) v hadj
    exact ((h.vis_iff v).1 this).resolve_left hB

theorem Inv.not_blocked {net : SocialNetwork} {B : List Node} {s : Node} {lvl : Node → Nat}
    {L : Nat} {c : Option Node} {a : AbsState} (h : Inv net B s lvl L c a) (hsB : s ∉ B)
    {v : Node} (hv : Disc s a v) : v ∉ B := by
  intro hB
  rcases hv with hv | hv
  · exact hsB (hv ▸ hB)
  · exact hv (h.par_B v hB)

theorem absWalk_spec {net : SocialNetwork} {B : List Node} {s : Node} {lvl : Node → Nat}
    {L : Nat} {c : Option Node} {a : AbsState} (h : Inv net B s lvl L c a)
    (hd : IsDist net B s lvl) (hsB : s ∉ B) (n : Nat) (v : Node) (hv : Disc s a v)
    (hn : lvl v = n) (fuel : Nat) (hfuel : n + 2 ≤ fuel) (path : List Node) :
    ∃ ch, absWalk a.par fuel (some v) path = some (path ++ ch) ∧ ch.length = n + 1 ∧
      ch.head? = some v ∧ ch.getLast? = some s ∧
      ch.Chain' (fun x y => x ∈ getNeighbors net y) ∧ ∀ x ∈ ch, x ∉ B := by
  have hls : lvl s = 0 := Nat.le_zero.1 (hd s 0 Reach.base).1
  induction n generalizing v fuel path with
  | zero =>
    have hpar : a.par v = none := by
      cases hp : a.par v with
      | none => rfl
      | some w =>
        have := (h.par_ok v w hp).2.2.2
        omega
    have hvs : v = s := hv.resolve_right (fun hh => hh hpar)
    obtain ⟨f, rfl⟩ : ∃ f, fuel = f + 2 := ⟨fuel - 2, by omega⟩
    refine ⟨[v], ?_, rfl, rfl, by rw [hvs]; rfl, List.chain'_singleton _, ?_⟩
    · rw [absWalk, hpar, absWalk]
    · intro x hx
      rw [List.mem_singleton] at hx
      exact hx ▸ h.not_blocked hsB hv
  | succ n ih =>
    cases hp : a.par v with
    | none =>
      have hvs : v = s := hv.resolve_right (fun hh => hh hp)
      rw [hvs, hls] at hn
      omega
    | some w =>
      obtain ⟨_, hwd, hadj, hlv⟩ := h.par_ok v w hp
      obtain ⟨f, rfl⟩ : ∃ f, fuel = f + 1 := ⟨fuel - 1, by omega⟩
      obtain ⟨ch, h1, h2, h3, h4, h5, h6⟩ :=
        ih w hwd (by omega) f (by omega) (path ++ [v])
      refine ⟨v :: ch, ?_, by simp [h2], rfl, ?_, ?_, ?_⟩
      · rw [absWalk, hp, h1]
        simp
      · cases ch with
        | nil => simp at h2
        | cons y t => simpa using h4
      · cases ch with
        | nil => simp at h2
        | cons y t =>
          have hy : y = w := by simpa using h3
          exact List.chain'_cons.2 ⟨hy ▸ hadj, h5⟩
      · intro x hx
        rcases List.mem_cons.1 hx with hxv | hx1
        · exact hxv ▸ h.not_blocked hsB hv
        · exact h6 x hx1

theorem Inv.init {net : SocialNetwork} {B : List Node} {s : Node} {lvl : Node → Nat}
    (hd : IsDist net B s lvl) (hs : s ∈ net.nodesList) :
    Inv net B s lvl 0 none (absInit B s) := by
  have hls : lvl s = 0 := Nat.le_zero.1 (hd s 0 Reach.base).1
  have hdisc : ∀ v, Disc s (absInit B s) v ↔ v = s := by
    intro v
    simp [Disc, absInit]
  refine ⟨?_, rfl, fun _ _ => rfl, ?_, ?_, ?_, List.pairwise_singleton _ _, ?_,
    fun _ hc => Option.noConfusion hc, ?_, ?_⟩
  · intro v
    rw [hdisc]
    simp [absInit]
  · intro v w hvw
    exact Option.noConfusion hvw
  · intro v hv
    rw [hdisc] at hv
    exact ⟨0, hv ▸ Reach.base⟩
  · intro v hv
    have hvs : v = s := List.mem_singleton.1 hv
    exact ⟨hvs ▸ hs, Or.inl hvs⟩
  · intro x hx
    have hxs : x = s := List.mem_singleton.1 hx
    rw [hxs, hls]
    omega
  · intro w hw hwq
    rw [hdisc] at hw
    exact absurd (hw ▸ List.mem_singleton_self s) hwq
  · intro v hv
    rw [hdisc] at hv
    have hvis : (absInit B s).vis s = true := by simp [absInit]
    have := unvisited_lt_length hs hvis
    rw [hv, hls]
    omega

theorem exists_isDist (net : SocialNetwork) (B : List Node) (s : Node) :
    ∃ lvl : Node → Nat, IsDist net B s lvl := by
  classical
  refine ⟨fun v => if h : ∃ k, Reach net B s k v then Nat.find h else 0, ?_⟩
  intro v k hk
  have hex : ∃ k, Reach net B s k v := ⟨k, hk⟩
  simp only [hex, dif_pos]
  exact ⟨Nat.find_min' hex hk, Nat.find_spec hex⟩

theorem Reach.of_chain {net : SocialNetwork} {B : List Node} {s : Node} (p : List Node)
    (u : Node) (k : Nat) (hu : Reach net B s k u)
    (hc : (u :: p).Chain' (fun a b => areFriends net a.name b.name = true))
    (hB : ∀ x ∈ p, x ∉ B) :
    ∀ g, (u :: p).getLast? = some g → Reach net B s (k + p.length) g := by
  induction p generalizing u k with
  | nil =>
    intro g hg
    have : u = g := by simpa using hg
    exact this ▸ hu
  | cons y t ih =>
    intro g hg
    have hc1 := List.chain'_cons.1 hc
    have hy : Reach net B s (k + 1) y :=
      Reach.step hu (mem_getNeighbors.2 hc1.1) (hB y (List.mem_cons_self _ _))
    have hg1 : (y :: t).getLast? = some g := by
      rw [← hg]
      simp [List.getLast?_cons_cons]
    have := ih y (k + 1) hy hc1.2 (fun x hx => hB x (List.mem_cons_of_mem _ hx)) g hg1
    rw [List.length_cons]
    have he : k + (t.length + 1) = k + 1 + t.length := by omega
    rw [he]
    exact this

theorem Reach.of_isPath {net : SocialNetwork} {B : List Node} {s g : Node} {p : List Node}
    (hp : IsPath net s g p) (hB : ∀ x ∈ p, x ∉ B) :
    Reach net B s (p.length - 1) g := by
  obtain ⟨h1, h2, h3⟩ := hp
  cases p with
  | nil => simp at h1
  | cons u t =>
    have hu : u = s := by simpa using h1
    subst hu
    have := Reach.of_chain t u 0 Reach.base h3 (fun x hx => hB x (List.mem_cons_of_mem _ hx))
      g h2
    simpa using this

/-- The queue loop followed by the reconstruction, started in a state that
represents `absInit B s`: the result is empty when `g` is not reached outside
`B`, and otherwise a path from `s` to `g` outside `B` of least length. -/
theorem traverse_spec {net : SocialNetwork} (hw : WellFormed net) (B : List Node)
    (s g : Node) (hs : s ∈ net.nodesList) (hg : g ∈ net.nodesList) (hsg : s ≠ g)
    (hsB : s ∉ B) (st0 : BfsState) (hrep : Rep net st0 (absInit B s)) (fuel : Nat)
    (hfuel : 2 * net.nodesList.length ≤ fuel) :
    ∃ st1 path, bfsLoop net g fuel st0 = .ok st1 ∧ reconstruct net fuel g st1 = .ok path ∧
      ((path = [] ∧ ∀ k, ¬ Reach net B s k g) ∨
        (IsPath net s g path ∧ (∀ x ∈ path, x ∉ B) ∧
          ∀ k, Reach net B s k g → path.length ≤ k + 1)) := by
  obtain ⟨lvl, hd⟩ := exists_isDist net B s
  have hinit : Inv net B s lvl 0 none (absInit B s) := Inv.init hd hs
  have hvis : (absInit B s).vis s = true := by simp [absInit]
  have hU := unvisited_lt_length hs hvis
  have hqlen : (absInit B s).q.length = 1 := rfl
  obtain ⟨a1, L1, c1, hrun, hinv, hend⟩ :=
    absLoop_spec hd hw g fuel (absInit B s) 0 hinit (by omega)
  obtain ⟨st1, hst1, hrep1⟩ := bfsLoop_sim hw g fuel st0 _ a1 hrep
    (fun v hv => (hinit.q_ok v hv).1) hrun
  have hget : getAt st1.parent (isnodefound net g) = .ok (enc net (a1.par g)) := by
    rw [isnodefound_of_mem hg]
    exact getAt_natCast (hrep1.par g hg)
  cases hp : a1.par g with
  | none =>
    refine ⟨st1, [], hst1, ?_, Or.inl ⟨rfl, ?_⟩⟩
    · simp only [reconstruct, hget, hp, enc, if_true]
    · intro k hk
      have hnd : ¬ Disc s a1 g := by
        rintro (h1 | h1)
        · exact hsg h1.symm
        · exact h1 hp
      rcases hend with h1 | ⟨h1, h2⟩
      · exact hnd h1
      · subst h2
        exact hnd (hinv.closed h1 hk)
  | some w =>
    have hgd : Disc s a1 g := Or.inr (by rw [hp]; exact fun hh => Option.noConfusion hh)
    have hwn : w ∈ net.nodesList := (hinv.par_ok g w hp).1
    have hbound := hinv.bound g hgd
    obtain ⟨ch, h1, h2, h3, h4, h5, h6⟩ :=
      absWalk_spec hinv hd hsB (lvl g) g hgd rfl fuel (by omega) []
    have hwalk := walkParents_sim hrep1 (fun v w hvw => (hinv.par_ok v w hvw).1) fuel
      (some g) (fun v hv => Option.some.inj hv ▸ hg) [] _ h1
    have hne : ¬ (enc net (some w) = -1) := by
      simp only [enc, isnodefound_of_mem hwn]
      omega
    have hwalk1 : walkParents net st1.parent fuel (isnodefound net g) [] = .ok ch := by
      simpa [enc] using hwalk
    refine ⟨st1, ch.reverse, hst1, ?_, Or.inr ⟨⟨?_, ?_, ?_⟩, ?_, ?_⟩⟩
    · simp only [reconstruct, hget, hp, hne, if_false, hwalk1]
    · rw [List.head?_reverse]
      exact h4
    · rw [List.getLast?_reverse]
      exact h3
    · rw [List.chain'_reverse]
      refine h5.imp ?_
      intro x y hxy
      exact mem_getNeighbors.1 hxy
    · intro x hx
      exact h6 x (List.mem_reverse.1 hx)
    · intro k hk
      rw [List.length_reverse, h2]
      have := (hd g k hk).1
      omega

theorem rep_init {net : SocialNetwork} (B : List Node) {s : Node} (hs : s ∈ net.nodesList)
    (visited0 : List Bool) (hlen : visited0.length = net.nodesList.length)
    (hv : ∀ v ∈ net.nodesList, v ≠ s → visited0[idx net v]? = some (decide (v ∈ B))) :
    Rep net ⟨visited0.set (idx net s) true, List.replicate net.nodesList.length (-1),
      [isnodefound net s]⟩ (absInit B s) := by
  refine ⟨by simp [hlen], by simp, ?_, ?_, rfl⟩
  · intro v hvn
    show (visited0.set (idx net s) true)[idx net v]? = some (decide (v ∈ B ∨ v = s))
    rw [getElem?_set_idx hs hvn hlen]
    by_cases hvs : v = s
    · simp [hvs]
    · simp only [hvs, if_false, or_false]
      exact hv v hvn hvs
  · intro v hvn
    show (List.replicate net.nodesList.length (-1 : Int))[idx net v]? = some (-1)
    rw [List.getElem?_replicate]
    simp [idx_lt hvn]

theorem shortestPath_eq {net : SocialNetwork} {start goal : String}
    (hs : (⟨start⟩ : Node) ∈ net.nodesList) (hg : (⟨goal⟩ : Node) ∈ net.nodesList)
    (hsg : (⟨start⟩ : Node) ≠ ⟨goal⟩) (fuel : Nat) :
    shortestPath fuel net start goal =
      match bfsLoop net ⟨goal⟩ fuel
        ⟨(List.replicate net.nodesList.length false).set (idx net ⟨start⟩) true,
          List.replicate net.nodesList.length (-1), [isnodefound net ⟨start⟩]⟩ with
      | .error f => .error f
      | .ok st => reconstruct net fuel ⟨goal⟩ st := by
  have h1 : ¬ (isnodefound net ⟨start⟩ = -1 ∨ isnodefound net ⟨goal⟩ = -1) := by
    rintro (h | h)
    · exact isnodefound_eq_neg_one.1 h hs
    · exact isnodefound_eq_neg_one.1 h hg
  have hset : setAt (List.replicate net.nodesList.length false) (isnodefound net ⟨start⟩) true
      = .ok ((List.replicate net.nodesList.length false).set (idx net ⟨start⟩) true) := by
    rw [isnodefound_of_mem hs]
    exact setAt_natCast _ (by simpa using idx_lt hs)
  simp only [shortestPath, h1, if_false, hsg, hset]

theorem isPath_ne_nil {net : SocialNetwork} {s g : Node} {p : List Node}
    (h : IsPath net s g p) : p ≠ [] := by
  intro hp
  rw [hp] at h
  exact Option.noConfusion h.1

theorem isPath_self (net : SocialNetwork) (s : Node) : IsPath net s s [s] :=
  ⟨rfl, rfl, List.chain'_singleton _⟩

/-! ## Claims on the traversal engine -/

/-- C1: on a reachable network, for stored `start` and `goal` whose least
friendship path has `d` edges, `shortestPath` (with fuel for `2 * |nodesList|`
iterations) returns `d + 1` nodes, the first `start`, the last `goal`, adjacent
ones friends; and `shortestPath start start` returns `[start]`. -/
theorem shortestPath_minimal (net : SocialNetwork) (start goal : String) (d fuel : Nat)
    (hr : Reachable net) (hs : (⟨start⟩ : Node) ∈ net.nodesList)
    (hg : (⟨goal⟩ : Node) ∈ net.nodesList)
    (hd1 : ∃ p, IsPath net ⟨start⟩ ⟨goal⟩ p ∧ p.length = d + 1)
    (hd2 : ∀ p, IsPath net ⟨start⟩ ⟨goal⟩ p → d + 1 ≤ p.length)
    (hfuel : 2 * net.nodesList.length ≤ fuel) :
    (∃ path, shortestPath fuel net start goal = .ok path ∧ path.length = d + 1 ∧
      path.head? = some ⟨start⟩ ∧ path.getLast? = some ⟨goal⟩ ∧
      path.Chain' (fun a b => areFriends net a.name b.name = true)) ∧
    shortestPath fuel net start start = .ok [⟨start⟩] := by
  have hself : ∀ x : String, (⟨x⟩ : Node) ∈ net.nodesList →
      shortestPath fuel net x x = .ok [⟨x⟩] := by
    intro x hx
    have h1 : ¬ (isnodefound net ⟨x⟩ = -1) := fun h => isnodefound_eq_neg_one.1 h hx
    simp only [shortestPath, h1, or_self, if_false, if_true]
  refine ⟨?_, hself start hs⟩
  by_cases hsg : (⟨start⟩ : Node) = ⟨goal⟩
  · have hsg1 : start = goal := congrArg Node.name hsg
    subst hsg1
    have hd0 : d = 0 := by
      have := hd2 _ (isPath_self net ⟨start⟩)
      simp only [List.length_singleton] at this
      omega
    subst hd0
    exact ⟨[⟨start⟩], hself start hs, rfl, rfl, rfl, List.chain'_singleton _⟩
  · obtain ⟨st0, hrep⟩ : ∃ st0, st0 = (⟨(List.replicate net.nodesList.length false).set
        (idx net ⟨start⟩) true, List.replicate net.nodesList.length (-1),
        [isnodefound net ⟨start⟩]⟩ : BfsState) ∧ Rep net st0 (absInit [] ⟨start⟩) := by
      refine ⟨_, rfl, rep_init [] hs _ (by simp) ?_⟩
      intro v hv _
      rw [List.getElem?_replicate]
      simp [idx_lt hv]
    obtain ⟨hst0, hrep⟩ := hrep
    obtain ⟨st1, path, h1, h2, h3⟩ := traverse_spec hr.wellFormed [] ⟨start⟩ ⟨goal⟩ hs hg hsg
      (List.not_mem_nil _) st0 hrep fuel hfuel
    rw [shortestPath_eq hs hg hsg fuel, ← hst0]
    simp only [h1, h2]
    obtain ⟨p, hp, hplen⟩ := hd1
    have hreach : Reach net [] ⟨start⟩ (p.length - 1) ⟨goal⟩ :=
      Reach.of_isPath hp (fun _ _ => List.not_mem_nil _)
    rcases h3 with ⟨_, hno⟩ | ⟨hpath, _, hmin⟩
    · exact absurd hreach (hno _)
    · refine ⟨path, rfl, ?_, hpath.1, hpath.2.1, hpath.2.2⟩
      have h4 := hmin _ hreach
      have h5 := hd2 path hpath
      omega

/-- C2: on a reachable network `shortestPath` returns the empty sequence exactly
when `start` is not stored, or `goal` is not stored, or no friendship path
joins them. -/
theorem shortestPath_empty_iff (net : SocialNetwork) (start goal : String) (fuel : Nat)
    (hr : Reachable net) (hfuel : 2 * net.nodesList.length ≤ fuel) :
    ∃ path, shortestPath fuel net start goal = .ok path ∧
      (path = [] ↔ ((⟨start⟩ : Node) ∉ net.nodesList ∨ (⟨goal⟩ : Node) ∉ net.nodesList ∨
        ¬ ∃ p, IsPath net ⟨start⟩ ⟨goal⟩ p)) := by
  by_cases hst : (⟨start⟩ : Node) ∉ net.nodesList ∨ (⟨goal⟩ : Node) ∉ net.nodesList
  · have h1 : isnodefound net ⟨start⟩ = -1 ∨ isnodefound net ⟨goal⟩ = -1 :=
      hst.imp isnodefound_eq_neg_one.2 isnodefound_eq_neg_one.2
    refine ⟨[], by simp only [shortestPath, h1, if_true], ?_⟩
    simp only [true_iff]
    rcases hst with h | h
    · exact Or.inl h
    · exact Or.inr (Or.inl h)
  · rw [not_or, not_not, not_not] at hst
    obtain ⟨hs, hg⟩ := hst
    have h1 : ¬ (isnodefound net ⟨start⟩ = -1 ∨ isnodefound net ⟨goal⟩ = -1) := by
      rintro (h | h)
      · exact isnodefound_eq_neg_one.1 h hs
      · exact isnodefound_eq_neg_one.1 h hg
    by_cases hsg : (⟨start⟩ : Node) = ⟨goal⟩
    · have hsg1 : start = goal := congrArg Node.name hsg
      subst hsg1
      refine ⟨[⟨start⟩], by simp only [shortestPath, h1, if_false, if_true], ?_⟩
      constructor
      · intro h
        exact absurd h (List.cons_ne_nil _ _)
      · rintro (h | h | h)
        · exact absurd hs h
        · exact absurd hg h
        · exact absurd ⟨[⟨start⟩], isPath_self net ⟨start⟩⟩ h
    · obtain ⟨st0, hst0, hrep⟩ : ∃ st0, st0 = (⟨(List.replicate net.nodesList.length
          false).set (idx net ⟨start⟩) true, List.replicate net.nodesList.length (-1),
          [isnodefound net ⟨start⟩]⟩ : BfsState) ∧ Rep net st0 (absInit [] ⟨start⟩) := by
        refine ⟨_, rfl, rep_init [] hs _ (by simp) ?_⟩
        intro v hv _
        rw [List.getElem?_replicate]
        simp [idx_lt hv]
      obtain ⟨st1, path, h2, h3, h4⟩ := traverse_spec hr.wellFormed [] ⟨start⟩ ⟨goal⟩ hs hg hsg
        (List.not_mem_nil _) st0 hrep fuel hfuel
      rw [shortestPath_eq hs hg hsg fuel, ← hst0]
      simp only [h2, h3]
      refine ⟨path, rfl, ?_⟩
      rcases h4 with ⟨hnil, hno⟩ | ⟨hpath, _, _⟩
      · simp only [hnil, true_iff]
        refine Or.inr (Or.inr ?_)
        rintro ⟨p, hp⟩
        exact hno _ (Reach.of_isPath hp (fun _ _ => List.not_mem_nil _))
      · constructor
        · intro h
          exact absurd h (isPath_ne_nil hpath)
        · rintro (h | h | h)
          · exact absurd hs h
          · exact absurd hg h
          · exact absurd ⟨path, hpath⟩ h

theorem blacklistHits_eq_true {s g : Node} {bl : List Node} :
    blacklistHits s g bl = true ↔ s ∈ bl ∨ g ∈ bl := by
  induction bl with
  | nil => simp [blacklistHits]
  | cons b rest ih =>
    rw [blacklistHits]
    by_cases hb : b = s ∨ b = g
    · simp only [hb, if_true, List.mem_cons, true_iff]
      rcases hb with h | h
      · exact Or.inl (Or.inl h.symm)
      · exact Or.inr (Or.inl h.symm)
    · simp only [hb, if_false, ih, List.mem_cons]
      rw [not_or] at hb
      have h1 : ¬ s = b := fun h => hb.1 h.symm
      have h2 : ¬ g = b := fun h => hb.2 h.symm
      simp only [h1, h2, false_or]

theorem markBlacklist_spec (net : SocialNetwork) (bl : List Node) (visited : List Bool)
    (f : Node → Bool) (hlen : visited.length = net.nodesList.length)
    (hv : ∀ v ∈ net.nodesList, visited[idx net v]? = some (f v)) :
    ∃ visited1, markBlacklist net bl visited = .ok visited1 ∧
      visited1.length = net.nodesList.length ∧
      ∀ v ∈ net.nodesList, visited1[idx net v]? = some (f v || decide (v ∈ bl)) := by
  induction bl generalizing visited f with
  | nil =>
    refine ⟨visited, rfl, hlen, ?_⟩
    intro v hvn
    simp [hv v hvn]
  | cons b rest ih =>
    rw [markBlacklist]
    by_cases hb : b ∈ net.nodesList
    · have hne : isnodefound net b ≠ -1 := fun h => isnodefound_eq_neg_one.1 h hb
      have hset : setAt visited (isnodefound net b) true = .ok (visited.set (idx net b) true) := by
        rw [isnodefound_of_mem hb]
        exact setAt_natCast _ (hlen ▸ idx_lt hb)
      simp only [hne, ne_eq, not_false_eq_true, if_true, hset]
      obtain ⟨visited1, h1, h2, h3⟩ := ih (visited.set (idx net b) true)
        (fun v => if v = b then true else f v) (by simp [hlen]) (by
          intro v hvn
          rw [getElem?_set_idx hb hvn hlen]
          by_cases hvb : v = b
          · simp [hvb]
          · simp only [hvb, if_false]
            exact hv v hvn)
      refine ⟨visited1, h1, h2, ?_⟩
      intro v hvn
      rw [h3 v hvn]
      by_cases hvb : v = b
      · simp [hvb]
      · simp [hvb]
    · have hneg : isnodefound net b = -1 := isnodefound_eq_neg_one.2 hb
      simp only [hneg, ne_eq, not_true, if_false]
      obtain ⟨visited1, h1, h2, h3⟩ := ih visited f hlen hv
      refine ⟨visited1, h1, h2, ?_⟩
      intro v hvn
      rw [h3 v hvn]
      have hvb : v ≠ b := fun h => hb (h ▸ hvn)
      simp [hvb]

theorem avoiding_eq {net : SocialNetwork} {start goal : String} {blacklister : List String}
    (hs : (⟨start⟩ : Node) ∈ net.nodesList) (hg : (⟨goal⟩ : Node) ∈ net.nodesList)
    (hsg : (⟨start⟩ : Node) ≠ ⟨goal⟩)
    (hhit : blacklistHits ⟨start⟩ ⟨goal⟩ (blacklister.map Node.mk) = false) (fuel : Nat) :
    ∃ st0, Rep net st0 (absInit (blacklister.map Node.mk) ⟨start⟩) ∧
      shortestPathAvoidingNodes fuel net start goal blacklister =
        match bfsLoop net ⟨goal⟩ fuel st0 with
        | .error f => .error f
        | .ok st => reconstruct net fuel ⟨goal⟩ st := by
  have h1 : ¬ (isnodefound net ⟨start⟩ = -1 ∨ isnodefound net ⟨goal⟩ = -1) := by
    rintro (h | h)
    · exact isnodefound_eq_neg_one.1 h hs
    · exact isnodefound_eq_neg_one.1 h hg
  obtain ⟨marked, hm1, hm2, hm3⟩ := markBlacklist_spec net (blacklister.map Node.mk)
    (List.replicate net.nodesList.length false) (fun _ => false) (by simp) (by
      intro v hvn
      rw [List.getElem?_replicate]
      simp [idx_lt hvn])
  have hset1 : setAt marked (isnodefound net ⟨start⟩) false
      = .ok (marked.set (idx net ⟨start⟩) false) := by
    rw [isnodefound_of_mem hs]
    exact setAt_natCast _ (hm2 ▸ idx_lt hs)
  have hset2 : setAt (marked.set (idx net ⟨start⟩) false) (isnodefound net ⟨start⟩) true
      = .ok ((marked.set (idx net ⟨start⟩) false).set (idx net ⟨start⟩) true) := by
    rw [isnodefound_of_mem hs]
    exact setAt_natCast _ (by simpa [hm2] using idx_lt hs)
  refine ⟨_, rep_init (blacklister.map Node.mk) hs (marked.set (idx net ⟨start⟩) false)
    (by simp [hm2]) ?_, ?_⟩
  · intro v hvn hvs
    rw [getElem?_set_idx hs hvn hm2, if_neg hvs, hm3 v hvn]
    simp
  · simp only [shortestPathAvoidingNodes, h1, if_false, hhit, Bool.false_eq_true, hsg, hm1,
      hset1, hset2]

theorem mem_blacklist {x : Node} {blacklister : List String} :
    x ∈ blacklister.map Node.mk ↔ x.name ∈ blacklister := by
  rw [List.mem_map]
  constructor
  · rintro ⟨n, hn, rfl⟩
    exact hn
  · intro h
    exact ⟨x.name, h, rfl⟩

/-- C3: on a reachable network, for stored `start` and `goal` not named in the
blacklist: if some friendship path from `start` to `goal` avoids the blacklist,
`shortestPathAvoidingNodes` returns such a path of least length; if none does,
it returns the empty sequence. -/
theorem shortestPathAvoiding_minimal (net : SocialNetwork) (start goal : String)
    (blacklister : List String) (fuel : Nat) (hr : Reachable net)
    (hs : (⟨start⟩ : Node) ∈ net.nodesList) (hg : (⟨goal⟩ : Node) ∈ net.nodesList)
    (hsB : start ∉ blacklister) (hgB : goal ∉ blacklister)
    (hfuel : 2 * net.nodesList.length ≤ fuel) :
    ((∃ p, IsPath net ⟨start⟩ ⟨goal⟩ p ∧ ∀ x ∈ p, x.name ∉ blacklister) →
      ∃ path, shortestPathAvoidingNodes fuel net start goal blacklister = .ok path ∧
        IsPath net ⟨start⟩ ⟨goal⟩ path ∧ (∀ x ∈ path, x.name ∉ blacklister) ∧
        ∀ p, IsPath net ⟨start⟩ ⟨goal⟩ p → (∀ x ∈ p, x.name ∉ blacklister) →
          path.length ≤ p.length) ∧
    ((¬ ∃ p, IsPath net ⟨start⟩ ⟨goal⟩ p ∧ ∀ x ∈ p, x.name ∉ blacklister) →
      shortestPathAvoidingNodes fuel net start goal blacklister = .ok []) := by
  have h1 : ¬ (isnodefound net ⟨start⟩ = -1 ∨ isnodefound net ⟨goal⟩ = -1) := by
    rintro (h | h)
    · exact isnodefound_eq_neg_one.1 h hs
    · exact isnodefound_eq_neg_one.1 h hg
  have hhit : blacklistHits ⟨start⟩ ⟨goal⟩ (blacklister.map Node.mk) = false := by
    rw [Bool.eq_false_iff]
    intro h
    rcases blacklistHits_eq_true.1 h with h2 | h2
    · exact hsB (mem_blacklist.1 h2)
    · exact hgB (mem_blacklist.1 h2)
  by_cases hsg : (⟨start⟩ : Node) = ⟨goal⟩
  · have hsg1 : start = goal := congrArg Node.name hsg
    subst hsg1
    have hres : shortestPathAvoidingNodes fuel net start start blacklister = .ok [⟨start⟩] := by
      simp only [shortestPathAvoidingNodes, h1, if_false, hhit, Bool.false_eq_true, if_true]
    have hav : ∀ x ∈ [(⟨start⟩ : Node)], x.name ∉ blacklister := by
      intro x hx
      rw [List.mem_singleton] at hx
      rw [hx]
      exact hsB
    constructor
    · intro _
      refine ⟨_, hres, isPath_self net _, hav, ?_⟩
      intro p hp _
      have := isPath_ne_nil hp
      cases p with
      | nil => exact absurd rfl this
      | cons y t => simp
    · intro hno
      exact absurd ⟨_, isPath_self net _, hav⟩ hno
  · obtain ⟨st0, hrep, heq⟩ := avoiding_eq hs hg hsg hhit fuel
    obtain ⟨st1, path, h2, h3, h4⟩ := traverse_spec hr.wellFormed (blacklister.map Node.mk)
      ⟨start⟩ ⟨goal⟩ hs hg hsg (fun h => hsB (mem_blacklist.1 h)) st0 hrep fuel hfuel
    rw [heq]
    simp only [h2, h3]
    have hreach : ∀ p, IsPath net ⟨start⟩ ⟨goal⟩ p → (∀ x ∈ p, x.name ∉ blacklister) →
        Reach net (blacklister.map Node.mk) ⟨start⟩ (p.length - 1) ⟨goal⟩ :=
      fun p hp hav => Reach.of_isPath hp (fun x hx h => hav x hx (mem_blacklist.1 h))
    rcases h4 with ⟨hnil, hno⟩ | ⟨hpath, hav, hmin⟩
    · constructor
      · rintro ⟨p, hp, hpav⟩
        exact absurd (hreach p hp hpav) (hno _)
      · intro _
        rw [hnil]
    · have hav1 : ∀ x ∈ path, x.name ∉ blacklister :=
        fun x hx h => hav x hx (mem_blacklist.2 h)
      constructor
      · intro _
        refine ⟨path, rfl, hpath, hav1, ?_⟩
        intro p hp hpav
        have h5 := hmin _ (hreach p hp hpav)
        have h6 : p.length ≠ 0 := fun h0 => isPath_ne_nil hp (List.length_eq_zero.1 h0)
        omega
      · intro hno
        exact absurd ⟨path, hpath, hav1⟩ hno

/-- C4: on a reachable network no node returned by `shortestPathAvoidingNodes`
is named in the blacklist, and the result is empty as soon as `start` or `goal`
is named in it (also when `start = goal`). -/
theorem shortestPathAvoiding_avoids (net : SocialNetwork) (start goal : String)
    (blacklister : List String) (fuel : Nat) (hr : Reachable net)
    (hfuel : 2 * net.nodesList.length ≤ fuel) :
    ∃ path, shortestPathAvoidingNodes fuel net start goal blacklister = .ok path ∧
      (∀ x ∈ path, x.name ∉ blacklister) ∧
      ((start ∈ blacklister ∨ goal ∈ blacklister) → path = []) := by
  have hnil : ∀ x ∈ ([] : List Node), x.name ∉ blacklister :=
    fun x hx => absurd hx (List.not_mem_nil _)
  by_cases hst : isnodefound net ⟨start⟩ = -1 ∨ isnodefound net ⟨goal⟩ = -1
  · exact ⟨[], by simp only [shortestPathAvoidingNodes, hst, if_true], hnil, fun _ => rfl⟩
  · by_cases hhit : blacklistHits ⟨start⟩ ⟨goal⟩ (blacklister.map Node.mk) = true
    · exact ⟨[], by simp only [shortestPathAvoidingNodes, hst, if_false, hhit, if_true],
        hnil, fun _ => rfl⟩
    · have hhit1 : blacklistHits ⟨start⟩ ⟨goal⟩ (blacklister.map Node.mk) = false :=
        Bool.eq_false_iff.2 hhit
      have hnb : ¬ (start ∈ blacklister ∨ goal ∈ blacklister) := by
        intro h
        apply hhit
        rw [blacklistHits_eq_true]
        exact h.imp mem_blacklist.2 mem_blacklist.2
      rw [not_or] at hst
      have hs : (⟨start⟩ : Node) ∈ net.nodesList := by
        by_contra h
        exact hst.1 (isnodefound_eq_neg_one.2 h)
      have hg : (⟨goal⟩ : Node) ∈ net.nodesList := by
        by_contra h
        exact hst.2 (isnodefound_eq_neg_one.2 h)
      by_cases hsg : (⟨start⟩ : Node) = ⟨goal⟩
      · have hsg1 : start = goal := congrArg Node.name hsg
        subst hsg1
        refine ⟨[⟨start⟩], ?_, ?_, fun h => absurd h hnb⟩
        · simp only [shortestPathAvoidingNodes, hst, or_self, if_false, hhit1,
            Bool.false_eq_true, if_true]
        · intro x hx
          rw [List.mem_singleton] at hx
          rw [hx]
          exact fun h => hnb (Or.inl h)
      · obtain ⟨st0, hrep, heq⟩ := avoiding_eq hs hg hsg hhit1 fuel
        obtain ⟨st1, path, h2, h3, h4⟩ := traverse_spec hr.wellFormed
          (blacklister.map Node.mk) ⟨start⟩ ⟨goal⟩ hs hg hsg
          (fun h => hnb (Or.inl (mem_blacklist.1 h))) st0 hrep fuel hfuel
        rw [heq]
        simp only [h2, h3]
        refine ⟨path, rfl, ?_, fun h => absurd h hnb⟩
        rcases h4 with ⟨hp, _⟩ | ⟨_, hav, _⟩
        · rw [hp]
          exact hnil
        · exact fun x hx h => hav x hx (mem_blacklist.2 h)

/-! ## The claims on the traversal engine at concrete networks -/

theorem chainNet_friends {x y : String} (h : areFriends chainNet x y = true) :
    (x, y) ∈ [("Alice", "Bob"), ("Bob", "Alice"), ("Bob", "Carol"), ("Carol", "Bob"),
      ("Carol", "Dave"), ("Dave", "Carol")] := by
  obtain ⟨e, he, hj⟩ := areFriends_eq_true.1 h
  have hedges : chainNet.edgeList =
      [⟨⟨"Alice"⟩, ⟨"Bob"⟩⟩, ⟨⟨"Bob"⟩, ⟨"Carol"⟩⟩, ⟨⟨"Carol"⟩, ⟨"Dave"⟩⟩] := by decide
  rw [hedges] at he
  simp only [List.mem_cons, List.mem_singleton, List.not_mem_nil, or_false] at he
  rcases he with rfl | rfl | rfl <;> rcases hj with ⟨h1, h2⟩ | ⟨h1, h2⟩ <;>
    cases h1 <;> cases h2 <;> decide

theorem chainPos_step {x y : String} (h : areFriends chainNet x y = true) :
    chainPos y ≤ chainPos x + 1 := by
  have := chainNet_friends h
  simp only [List.mem_cons, List.mem_singleton, Prod.mk.injEq, List.not_mem_nil, or_false]
    at this
  rcases this with ⟨rfl, rfl⟩ | ⟨rfl, rfl⟩ | ⟨rfl, rfl⟩ | ⟨rfl, rfl⟩ | ⟨rfl, rfl⟩ | ⟨rfl, rfl⟩ <;>
    decide

theorem chainPos_chain (t : List Node) (u : Node)
    (hc : (u :: t).Chain' (fun a b => areFriends chainNet a.name b.name = true)) :
    ∀ g, (u :: t).getLast? = some g → chainPos g.name ≤ chainPos u.name + t.length := by
  induction t generalizing u with
  | nil =>
    intro g hg
    have : u = g := by simpa using hg
    rw [this]
    exact Nat.le_refl _
  | cons y t ih =>
    intro g hg
    have hc1 := List.chain'_cons.1 hc
    have hg1 : (y :: t).getLast? = some g := by
      rw [← hg]
      simp [List.getLast?_cons_cons]
    have h1 := ih y hc1.2 g hg1
    have h2 := chainPos_step hc1.1
    rw [List.length_cons]
    omega

theorem chainNet_dist (p : List Node) (hp : IsPath chainNet ⟨"Alice"⟩ ⟨"Dave"⟩ p) :
    3 + 1 ≤ p.length := by
  obtain ⟨h1, h2, h3⟩ := hp
  cases p with
  | nil => exact Option.noConfusion h1
  | cons u t =>
    have hu : u = ⟨"Alice"⟩ := by simpa using h1
    subst hu
    have := chainPos_chain t _ h3 _ h2
    have hD : chainPos "Dave" = 3 := by decide
    have hA : chainPos "Alice" = 0 := by decide
    simp only [hD, hA] at this
    rw [List.length_cons]
    omega

theorem chainNet_mem_alice : (⟨"Alice"⟩ : Node) ∈ chainNet.nodesList := by decide

theorem chainNet_mem_dave : (⟨"Dave"⟩ : Node) ∈ chainNet.nodesList := by decide

theorem chainNet_path : IsPath chainNet ⟨"Alice"⟩ ⟨"Dave"⟩
    [⟨"Alice"⟩, ⟨"Bob"⟩, ⟨"Carol"⟩, ⟨"Dave"⟩] :=
  ⟨rfl, rfl, List.chain'_cons.2 ⟨by decide, List.chain'_cons.2 ⟨by decide,
    List.chain'_cons.2 ⟨by decide, List.chain'_singleton _⟩⟩⟩⟩

theorem shortestPath_minimal_witness :
    Reachable chainNet ∧
    shortestPath 8 chainNet "Alice" "Dave" = .ok [⟨"Alice"⟩, ⟨"Bob"⟩, ⟨"Carol"⟩, ⟨"Dave"⟩] ∧
    ((∃ path, shortestPath 8 chainNet "Alice" "Dave" = .ok path ∧ path.length = 3 + 1 ∧
      path.head? = some ⟨"Alice"⟩ ∧ path.getLast? = some ⟨"Dave"⟩ ∧
      path.Chain' (fun a b => areFriends chainNet a.name b.name = true)) ∧
    shortestPath 8 chainNet "Alice" "Alice" = .ok [⟨"Alice"⟩]) :=
  ⟨chainNet_reachable, rfl,
    shortestPath_minimal chainNet "Alice" "Dave" 3 8 chainNet_reachable chainNet_mem_alice
      chainNet_mem_dave ⟨_, chainNet_path, rfl⟩ chainNet_dist (by decide)⟩

theorem shortestPath_empty_iff_witness :
    Reachable chainNet ∧
    ∃ path, shortestPath 8 chainNet "Alice" "Eve" = .ok path ∧
      (path = [] ↔ ((⟨"Alice"⟩ : Node) ∉ chainNet.nodesList ∨
        (⟨"Eve"⟩ : Node) ∉ chainNet.nodesList ∨ ¬ ∃ p, IsPath chainNet ⟨"Alice"⟩ ⟨"Eve"⟩ p)) :=
  ⟨chainNet_reachable, shortestPath_empty_iff chainNet "Alice" "Eve" 8 chainNet_reachable
    (by decide)⟩

theorem detourNet_reachable : Reachable detourNet :=
  .addFriend _ _ (.addFriend _ _ (.addFriend _ _ (.addFriend _ _ (.addFriend _ _
    (.addPerson _ (.addPerson _ (.addPerson _ (.addPerson _ (.addPerson _ .empty)))))))))

theorem detourNet_path : IsPath detourNet ⟨"A"⟩ ⟨"D"⟩ [⟨"A"⟩, ⟨"C"⟩, ⟨"E"⟩, ⟨"D"⟩] :=
  ⟨rfl, rfl, List.chain'_cons.2 ⟨by decide, List.chain'_cons.2 ⟨by decide,
    List.chain'_cons.2 ⟨by decide, List.chain'_singleton _⟩⟩⟩⟩

theorem chainNet_blocked :
    ¬ ∃ p, IsPath chainNet ⟨"Alice"⟩ ⟨"Dave"⟩ p ∧ ∀ x ∈ p, x.name ∉ ["Bob"] := by
  rintro ⟨p, ⟨h1, h2, h3⟩, hav⟩
  rcases p with _ | ⟨u, _ | ⟨y, t⟩⟩
  · exact Option.noConfusion h1
  · have hu : u = ⟨"Alice"⟩ := by simpa using h1
    have hg : u = ⟨"Dave"⟩ := by simpa using h2
    rw [hu] at hg
    exact absurd hg (by decide)
  · have hu : u = ⟨"Alice"⟩ := by simpa using h1
    subst hu
    have hfr := chainNet_friends (List.chain'_cons.1 h3).1
    have hy : y.name ≠ "Bob" := by
      have := hav y (List.mem_cons_of_mem _ (List.mem_cons_self _ _))
      simpa using this
    simp only [List.mem_cons, List.mem_singleton, Prod.mk.injEq, List.not_mem_nil, or_false]
      at hfr
    rcases hfr with ⟨_, h⟩ | ⟨h, _⟩ | ⟨h, _⟩ | ⟨h, _⟩ | ⟨h, _⟩ | ⟨h, _⟩
    · exact hy h
    all_goals exact absurd h (by decide)

theorem shortestPathAvoiding_minimal_witness :
    Reachable detourNet ∧
    shortestPath 10 detourNet "A" "D" = .ok [⟨"A"⟩, ⟨"B"⟩, ⟨"D"⟩] ∧
    shortestPathAvoidingNodes 10 detourNet "A" "D" ["B"] =
      .ok [⟨"A"⟩, ⟨"C"⟩, ⟨"E"⟩, ⟨"D"⟩] ∧
    (∃ path, shortestPathAvoidingNodes 10 detourNet "A" "D" ["B"] = .ok path ∧
      IsPath detourNet ⟨"A"⟩ ⟨"D"⟩ path ∧ (∀ x ∈ path, x.name ∉ ["B"]) ∧
      ∀ p, IsPath detourNet ⟨"A"⟩ ⟨"D"⟩ p → (∀ x ∈ p, x.name ∉ ["B"]) →
        path.length ≤ p.length) ∧
    Reachable chainNet ∧
    shortestPathAvoidingNodes 8 chainNet "Alice" "Dave" ["Bob"] = .ok [] :=
  ⟨detourNet_reachable, rfl, rfl,
    (shortestPathAvoiding_minimal detourNet "A" "D" ["B"] 10 detourNet_reachable (by decide)
      (by decide) (by decide) (by decide) (by decide)).1 ⟨_, detourNet_path, by decide⟩,
    chainNet_reachable,
    (shortestPathAvoiding_minimal chainNet "Alice" "Dave" ["Bob"] 8 chainNet_reachable
      chainNet_mem_alice chainNet_mem_dave (by decide) (by decide) (by decide)).2
      chainNet_blocked⟩

theorem shortestPathAvoiding_avoids_witness :
    Reachable detourNet ∧
    (∃ path, shortestPathAvoidingNodes 10 detourNet "A" "D" ["B"] = .ok path ∧
      (∀ x ∈ path, x.name ∉ ["B"]) ∧ (("A" ∈ ["B"] ∨ "D" ∈ ["B"]) → path = [])) ∧
    shortestPathAvoidingNodes 10 detourNet "A" "A" ["A"] = .ok [] :=
  ⟨detourNet_reachable,
    shortestPathAvoiding_avoids detourNet "A" "D" ["B"] 10 detourNet_reachable (by decide), rfl⟩

/-! ## Claims on the graph store -/

theorem areFriends_comm (net : SocialNetwork) (a b : String) :
    areFriends net a b = areFriends net b a := by
  rw [Bool.eq_iff_iff, areFriends_eq_true, areFriends_eq_true]
  constructor <;> rintro ⟨e, he, hj⟩ <;> exact ⟨e, he, hj.symm⟩

theorem addFriend_eq_self {net : SocialNetwork} {a b : String}
    (h : (⟨a⟩ : Node) ∉ net.nodesList ∨ (⟨b⟩ : Node) ∉ net.nodesList ∨
      ∃ e ∈ net.edgeList, Joins e ⟨a⟩ ⟨b⟩) : addFriend net a b = net := by
  unfold addFriend
  by_cases hf : isnodefound net ⟨a⟩ = -1 ∨ isnodefound net ⟨b⟩ = -1
  · simp only [hf, if_true]
  · simp only [hf, if_false]
    rw [not_or] at hf
    have hfr : areFriends net a b = true := by
      rcases h with h | h | h
      · exact absurd (isnodefound_eq_neg_one.2 h) hf.1
      · exact absurd (isnodefound_eq_neg_one.2 h) hf.2
      · exact areFriends_eq_true.2 h
    simp only [hfr, if_true]

theorem addFriend_eq_append {net : SocialNetwork} {a b : String}
    (h : ¬ ((⟨a⟩ : Node) ∉ net.nodesList ∨ (⟨b⟩ : Node) ∉ net.nodesList ∨
      ∃ e ∈ net.edgeList, Joins e ⟨a⟩ ⟨b⟩)) :
    addFriend net a b = ⟨net.edgeList ++ [⟨⟨a⟩, ⟨b⟩⟩], net.nodesList⟩ := by
  rw [not_or, not_or] at h
  have hf : ¬ (isnodefound net ⟨a⟩ = -1 ∨ isnodefound net ⟨b⟩ = -1) := by
    rintro (hf | hf)
    · exact h.1 (isnodefound_eq_neg_one.1 hf)
    · exact h.2.1 (isnodefound_eq_neg_one.1 hf)
  have hfr : ¬ (areFriends net a b = true) := fun hh => h.2.2 (areFriends_eq_true.1 hh)
  unfold addFriend
  simp only [hf, if_false, hfr, Bool.false_eq_true]

/-- C11: for every network, `addFriend a b` changes nothing when `a` or `b`
is not stored or an edge already joins them in either orientation; otherwise it
appends the edge `(a, b)` to the edge list and leaves the node list as it is. -/
theorem addFriend_effect (net : SocialNetwork) (a b : String) :
    (((⟨a⟩ : Node) ∉ net.nodesList ∨ (⟨b⟩ : Node) ∉ net.nodesList ∨
        ∃ e ∈ net.edgeList, Joins e ⟨a⟩ ⟨b⟩) → addFriend net a b = net) ∧
    (¬ ((⟨a⟩ : Node) ∉ net.nodesList ∨ (⟨b⟩ : Node) ∉ net.nodesList ∨
        ∃ e ∈ net.edgeList, Joins e ⟨a⟩ ⟨b⟩) →
      (addFriend net a b).edgeList = net.edgeList ++ [⟨⟨a⟩, ⟨b⟩⟩] ∧
      (addFriend net a b).nodesList = net.nodesList) := by
  refine ⟨addFriend_eq_self, fun h => ?_⟩
  rw [addFriend_eq_append h]
  exact ⟨rfl, rfl⟩

theorem chainNet_edges : chainNet.edgeList =
    [⟨⟨"Alice"⟩, ⟨"Bob"⟩⟩, ⟨⟨"Bob"⟩, ⟨"Carol"⟩⟩, ⟨⟨"Carol"⟩, ⟨"Dave"⟩⟩] := by
  decide

theorem addFriend_effect_witness :
    addFriend chainNet "Alice" "Eve" = chainNet ∧
    addFriend chainNet "Bob" "Alice" = chainNet ∧
    (addFriend chainNet "Alice" "Dave").edgeList =
      chainNet.edgeList ++ [⟨⟨"Alice"⟩, ⟨"Dave"⟩⟩] ∧
    (addFriend chainNet "Alice" "Dave").nodesList = chainNet.nodesList :=
  ⟨(addFriend_effect chainNet "Alice" "Eve").1 (Or.inr (Or.inl (by decide))),
    (addFriend_effect chainNet "Bob" "Alice").1
      (Or.inr (Or.inr ⟨⟨⟨"Alice"⟩, ⟨"Bob"⟩⟩, by decide, Or.inr ⟨rfl, rfl⟩⟩)),
    (addFriend_effect chainNet "Alice" "Dave").2 (by
      rw [chainNet_edges]
      simp only [List.mem_cons, List.mem_singleton, List.not_mem_nil, or_false,
        exists_eq_or_imp, exists_eq_left, Joins]
      decide)⟩

/-- C12: for every network and stored `a`, `b`, after `addFriend a b` both
`areFriends a b` and `areFriends b a` are true. -/
theorem addFriend_symmetric (net : SocialNetwork) (a b : String)
    (ha : (⟨a⟩ : Node) ∈ net.nodesList) (hb : (⟨b⟩ : Node) ∈ net.nodesList) :
    areFriends (addFriend net a b) a b = true ∧ areFriends (addFriend net a b) b a = true := by
  have key : areFriends (addFriend net a b) a b = true := by
    by_cases h : ∃ e ∈ net.edgeList, Joins e ⟨a⟩ ⟨b⟩
    · rw [addFriend_eq_self (Or.inr (Or.inr h))]
      exact areFriends_eq_true.2 h
    · have hn : ¬ ((⟨a⟩ : Node) ∉ net.nodesList ∨ (⟨b⟩ : Node) ∉ net.nodesList ∨
          ∃ e ∈ net.edgeList, Joins e ⟨a⟩ ⟨b⟩) := by
        rintro (h1 | h1 | h1)
        · exact h1 ha
        · exact h1 hb
        · exact h h1
      rw [addFriend_eq_append hn]
      exact areFriends_eq_true.2
        ⟨⟨⟨a⟩, ⟨b⟩⟩, List.mem_append_right _ (List.mem_singleton_self _), Or.inl ⟨rfl, rfl⟩⟩
  exact ⟨key, (areFriends_comm _ b a).trans key⟩

theorem addFriend_symmetric_witness :
    (⟨"Alice"⟩ : Node) ∈ chainNet.nodesList ∧ (⟨"Dave"⟩ : Node) ∈ chainNet.nodesList ∧
    areFriends chainNet "Alice" "Dave" = false ∧
    areFriends (addFriend chainNet "Alice" "Dave") "Alice" "Dave" = true ∧
    areFriends (addFriend chainNet "Alice" "Dave") "Dave" "Alice" = true :=
  ⟨chainNet_mem_alice, chainNet_mem_dave, by decide,
    addFriend_symmetric chainNet "Alice" "Dave" chainNet_mem_alice chainNet_mem_dave⟩


theorem Joins.same_pair {e e2 : Edge} {a b : Node} (h : Joins e a b) (h2 : Joins e2 a b) :
    Joins e e2.node1 e2.node2 := by
  rcases h2 with ⟨h3, h4⟩ | ⟨h3, h4⟩
  · rw [h3, h4]
    exact h
  · rw [h3, h4]
    exact h.symm

theorem countP_joins_eq_zero {a b : Node} {l : List Edge} (h : ∀ e ∈ l, ¬ Joins e a b) :
    l.countP (fun e => decide (Joins e a b)) = 0 := by
  rw [List.countP_eq_zero]
  intro e he
  simpa using h e he

theorem countP_joins_eq_one {a b : Node} {l : List Edge}
    (hu : l.Pairwise (fun e1 e2 => ¬ Joins e1 e2.node1 e2.node2))
    (hex : ∃ e ∈ l, Joins e a b) : l.countP (fun e => decide (Joins e a b)) = 1 := by
  induction l with
  | nil =>
    obtain ⟨e, he, _⟩ := hex
    exact absurd he (List.not_mem_nil _)
  | cons e rest ih =>
    have hhead : ∀ e2 ∈ rest, ¬ Joins e e2.node1 e2.node2 := (List.pairwise_cons.1 hu).1
    by_cases hj : Joins e a b
    · have hrest : ∀ e2 ∈ rest, ¬ Joins e2 a b :=
        fun e2 he2 hj2 => hhead e2 he2 (hj.same_pair hj2)
      rw [List.countP_cons_of_pos _ _ (by simpa using hj), countP_joins_eq_zero hrest]
    · have hex1 : ∃ e1 ∈ rest, Joins e1 a b := by
        obtain ⟨e1, he1, hj1⟩ := hex
        rcases List.mem_cons.1 he1 with h | h
        · exact absurd (h ▸ hj1) hj
        · exact ⟨e1, h, hj1⟩
      rw [List.countP_cons_of_neg _ _ (by simpa using hj)]
      exact ih (List.Pairwise.of_cons hu) hex1

theorem count_getNeighborsLoop (a b : Node) (l : List Edge) :
    (getNeighborsLoop a l).count b = l.countP (fun e => decide (Joins e a b)) := by
  induction l with
  | nil => rfl
  | cons e rest ih =>
    rw [getNeighborsLoop_cons]
    by_cases h1 : e.node1 = a
    · simp only [h1, true_or, if_true]
      by_cases h2 : e.node2 = b
      · have hj : Joins e a b := Or.inl ⟨h1, h2⟩
        rw [List.countP_cons_of_pos _ _ (by simpa using hj), h2, List.count_cons_self, ih]
      · have hj : ¬ Joins e a b := by
          rintro (⟨_, h⟩ | ⟨h3, h4⟩)
          · exact h2 h
          · exact h2 (by rw [h4, ← h1, h3])
        rw [List.countP_cons_of_neg _ _ (by simpa using hj),
          List.count_cons_of_ne (fun h => h2 h.symm), ih]
    · by_cases h2 : e.node2 = a
      · simp only [h1, h2, or_true, if_true, if_false]
        by_cases h3 : e.node1 = b
        · have hj : Joins e a b := Or.inr ⟨h3, h2⟩
          rw [List.countP_cons_of_pos _ _ (by simpa using hj), h3, List.count_cons_self, ih]
        · have hj : ¬ Joins e a b := by
            rintro (⟨h, _⟩ | ⟨h, _⟩)
            · exact h1 h
            · exact h3 h
          rw [List.countP_cons_of_neg _ _ (by simpa using hj),
            List.count_cons_of_ne (fun h => h3 h.symm), ih]
      · simp only [h1, h2, or_self, if_false]
        have hj : ¬ Joins e a b := by
          rintro (⟨h, _⟩ | ⟨_, h⟩)
          · exact h1 h
          · exact h2 h
        rw [List.countP_cons_of_neg _ _ (by simpa using hj), ih]

theorem WellFormed.one_edge {net : SocialNetwork} (h : WellFormed net) {a b : String}
    (hfr : areFriends net a b = true) :
    net.edgeList.countP (fun e => decide (Joins e ⟨a⟩ ⟨b⟩)) = 1 ∧
    (getNeighbors net ⟨a⟩).count ⟨b⟩ = 1 := by
  have h1 := countP_joins_eq_one h.unique (areFriends_eq_true.1 hfr)
  refine ⟨h1, ?_⟩
  unfold getNeighbors
  rw [count_getNeighborsLoop, h1]

/-- C13: in a reachable network no two stored edges join the same unordered
pair; hence, for stored `a` and `b`, after `addFriend a b` followed by
`addFriend a b` or by `addFriend b a` exactly one edge joins them and
`getNeighbors a` holds `b` exactly once. -/
theorem no_duplicate_edges (net : SocialNetwork) (a b : String) (hr : Reachable net)
    (ha : (⟨a⟩ : Node) ∈ net.nodesList) (hb : (⟨b⟩ : Node) ∈ net.nodesList) :
    net.edgeList.Pairwise (fun e1 e2 => ¬ Joins e1 e2.node1 e2.node2) ∧
    ((addFriend (addFriend net a b) a b).edgeList.countP
        (fun e => decide (Joins e ⟨a⟩ ⟨b⟩)) = 1 ∧
      (getNeighbors (addFriend (addFriend net a b) a b) ⟨a⟩).count ⟨b⟩ = 1) ∧
    ((addFriend (addFriend net a b) b a).edgeList.countP
        (fun e => decide (Joins e ⟨a⟩ ⟨b⟩)) = 1 ∧
      (getNeighbors (addFriend (addFriend net a b) b a) ⟨a⟩).count ⟨b⟩ = 1) := by
  have hw1 : WellFormed (addFriend net a b) := hr.wellFormed.addFriend a b
  have hfr : areFriends (addFriend net a b) a b = true := by
    by_cases h : ∃ e ∈ net.edgeList, Joins e ⟨a⟩ ⟨b⟩
    · rw [addFriend_eq_self (Or.inr (Or.inr h))]
      exact areFriends_eq_true.2 h
    · have hn : ¬ ((⟨a⟩ : Node) ∉ net.nodesList ∨ (⟨b⟩ : Node) ∉ net.nodesList ∨
          ∃ e ∈ net.edgeList, Joins e ⟨a⟩ ⟨b⟩) := by
        rintro (h1 | h1 | h1)
        · exact h1 ha
        · exact h1 hb
        · exact h h1
      rw [addFriend_eq_append hn]
      exact areFriends_eq_true.2
        ⟨⟨⟨a⟩, ⟨b⟩⟩, List.mem_append_right _ (List.mem_singleton_self _), Or.inl ⟨rfl, rfl⟩⟩
  have hfr1 : areFriends (addFriend net a b) b a = true :=
    (areFriends_comm _ b a).trans hfr
  have e1 : addFriend (addFriend net a b) a b = addFriend net a b :=
    addFriend_eq_self (Or.inr (Or.inr (areFriends_eq_true.1 hfr)))
  have e2 : addFriend (addFriend net a b) b a = addFriend net a b :=
    addFriend_eq_self (Or.inr (Or.inr (areFriends_eq_true.1 hfr1)))
  rw [e1, e2]
  exact ⟨hr.wellFormed.unique, hw1.one_edge hfr, hw1.one_edge hfr⟩

theorem no_duplicate_edges_witness :
    Reachable chainNet ∧
    (addFriend (addFriend chainNet "Alice" "Dave") "Alice" "Dave").edgeList =
      chainNet.edgeList ++ [⟨⟨"Alice"⟩, ⟨"Dave"⟩⟩] ∧
    chainNet.edgeList.Pairwise (fun e1 e2 => ¬ Joins e1 e2.node1 e2.node2) ∧
    ((addFriend (addFriend chainNet "Alice" "Dave") "Alice" "Dave").edgeList.countP
        (fun e => decide (Joins e ⟨"Alice"⟩ ⟨"Dave"⟩)) = 1 ∧
      (getNeighbors (addFriend (addFriend chainNet "Alice" "Dave") "Alice" "Dave")
        ⟨"Alice"⟩).count ⟨"Dave"⟩ = 1) ∧
    ((addFriend (addFriend chainNet "Alice" "Dave") "Dave" "Alice").edgeList.countP
        (fun e => decide (Joins e ⟨"Alice"⟩ ⟨"Dave"⟩)) = 1 ∧
      (getNeighbors (addFriend (addFriend chainNet "Alice" "Dave") "Dave" "Alice")
        ⟨"Alice"⟩).count ⟨"Dave"⟩ = 1) :=
  ⟨chainNet_reachable, by decide,
    no_duplicate_edges chainNet "Alice" "Dave" chainNet_reachable chainNet_mem_alice
      chainNet_mem_dave⟩

/-- C14: in a reachable network no two stored nodes share a name; `addPerson n`
appends `n` to the node list when `n` is absent and changes nothing when `n` is
already stored. -/
theorem addPerson_unique (net : SocialNetwork) (n : String) :
    (Reachable net → (net.nodesList.map Node.name).Nodup) ∧
    ((⟨n⟩ : Node) ∉ net.nodesList →
      addPerson net n = ⟨net.edgeList, net.nodesList ++ [⟨n⟩]⟩) ∧
    ((⟨n⟩ : Node) ∈ net.nodesList → addPerson net n = net) := by
  refine ⟨fun hr => ?_, fun h => ?_, fun h => ?_⟩
  · refine hr.wellFormed.nodup.map ?_
    intro x y hxy
    cases x
    cases y
    exact congrArg Node.mk hxy
  · have hf : isnodefound net ⟨n⟩ = -1 := isnodefound_eq_neg_one.2 h
    simp only [addPerson, hf, if_true]
  · have hf : ¬ (isnodefound net ⟨n⟩ = -1) := fun hh => isnodefound_eq_neg_one.1 hh h
    simp only [addPerson, hf, if_false]

theorem addPerson_unique_witness :
    Reachable chainNet ∧ (chainNet.nodesList.map Node.name).Nodup ∧
    addPerson chainNet "Eve" = ⟨chainNet.edgeList, chainNet.nodesList ++ [⟨"Eve"⟩]⟩ ∧
    addPerson chainNet "Bob" = chainNet :=
  ⟨chainNet_reachable, (addPerson_unique chainNet "Eve").1 chainNet_reachable,
    (addPerson_unique chainNet "Eve").2.1 (by decide),
    (addPerson_unique chainNet "Bob").2.2 (by decide)⟩


theorem unfriendLoop_eq_self {a b : Node} {l : List Edge} (h : ∀ e ∈ l, ¬ Joins e a b) :
    unfriendLoop a b l = l := by
  induction l with
  | nil => rfl
  | cons e rest ih =>
    have he : ¬ ((e.node1 = a ∧ e.node2 = b) ∨ (e.node1 = b ∧ e.node2 = a)) :=
      h e (List.mem_cons_self _ _)
    rw [unfriendLoop]
    simp only [he, if_false]
    rw [ih (fun e1 he1 => h e1 (List.mem_cons_of_mem _ he1))]

theorem unfriendLoop_eq_filter {a b : Node} {l : List Edge}
    (hu : l.Pairwise (fun e1 e2 => ¬ Joins e1 e2.node1 e2.node2)) :
    unfriendLoop a b l = l.filter (fun e => decide (¬ Joins e a b)) := by
  induction l with
  | nil => rfl
  | cons e rest ih =>
    have hhead : ∀ e2 ∈ rest, ¬ Joins e e2.node1 e2.node2 := (List.pairwise_cons.1 hu).1
    rw [unfriendLoop]
    by_cases hj : Joins e a b
    · have hj1 : (e.node1 = a ∧ e.node2 = b) ∨ (e.node1 = b ∧ e.node2 = a) := hj
      have hrest : ∀ e2 ∈ rest, ¬ Joins e2 a b :=
        fun e2 he2 hj2 => hhead e2 he2 (hj.same_pair hj2)
      simp only [hj1, if_true]
      rw [List.filter_cons_of_neg (by simpa using hj)]
      exact (List.filter_eq_self.2 (fun e2 he2 => by simpa using hrest e2 he2)).symm
    · have hj1 : ¬ ((e.node1 = a ∧ e.node2 = b) ∨ (e.node1 = b ∧ e.node2 = a)) := hj
      simp only [hj1, if_false]
      rw [List.filter_cons_of_pos (by simpa using hj), ih (List.Pairwise.of_cons hu)]

/-- C15: on a reachable network, after `unfriend a b` neither `areFriends a b`
nor `areFriends b a` holds, the node list is unchanged, and the edge list is the
old one without the edge joining `a` and `b`, the others in their old order;
when no edge joined `a` and `b` the network is unchanged. -/
theorem unfriend_effect (net : SocialNetwork) (a b : String) (hr : Reachable net) :
    areFriends (unfriend net a b) a b = false ∧
    areFriends (unfriend net a b) b a = false ∧
    (unfriend net a b).nodesList = net.nodesList ∧
    (unfriend net a b).edgeList =
      net.edgeList.filter (fun e => decide (¬ Joins e ⟨a⟩ ⟨b⟩)) ∧
    ((¬ ∃ e ∈ net.edgeList, Joins e ⟨a⟩ ⟨b⟩) → unfriend net a b = net) := by
  have hedges : (unfriend net a b).edgeList =
      net.edgeList.filter (fun e => decide (¬ Joins e ⟨a⟩ ⟨b⟩)) :=
    unfriendLoop_eq_filter hr.wellFormed.unique
  have hfalse : areFriends (unfriend net a b) a b = false := by
    rw [Bool.eq_false_iff]
    intro h
    obtain ⟨e, he, hj⟩ := areFriends_eq_true.1 h
    rw [hedges] at he
    have := (List.mem_filter.1 he).2
    exact (of_decide_eq_true this) hj
  refine ⟨hfalse, (areFriends_comm _ b a).trans hfalse, rfl, hedges, ?_⟩
  intro hno
  have h1 : unfriendLoop ⟨a⟩ ⟨b⟩ net.edgeList = net.edgeList :=
    unfriendLoop_eq_self (fun e he hj => hno ⟨e, he, hj⟩)
  unfold unfriend
  rw [h1]

theorem unfriend_effect_witness :
    Reachable chainNet ∧
    (unfriend chainNet "Carol" "Bob").edgeList =
      [⟨⟨"Alice"⟩, ⟨"Bob"⟩⟩, ⟨⟨"Carol"⟩, ⟨"Dave"⟩⟩] ∧
    unfriend chainNet "Alice" "Dave" = chainNet ∧
    areFriends (unfriend chainNet "Carol" "Bob") "Carol" "Bob" = false ∧
    areFriends (unfriend chainNet "Carol" "Bob") "Bob" "Carol" = false ∧
    (unfriend chainNet "Carol" "Bob").nodesList = chainNet.nodesList ∧
    (unfriend chainNet "Carol" "Bob").edgeList =
      chainNet.edgeList.filter (fun e => decide (¬ Joins e ⟨"Carol"⟩ ⟨"Bob"⟩)) ∧
    ((¬ ∃ e ∈ chainNet.edgeList, Joins e ⟨"Carol"⟩ ⟨"Bob"⟩) →
      unfriend chainNet "Carol" "Bob" = chainNet) :=
  ⟨chainNet_reachable, by decide, by decide,
    unfriend_effect chainNet "Carol" "Bob" chainNet_reachable⟩

theorem getNeighborsLoop_eq_filterMap (p : Node) (l : List Edge) :
    getNeighborsLoop p l = l.filterMap (otherEndpoint p) := by
  induction l with
  | nil => rfl
  | cons e rest ih =>
    rw [getNeighborsLoop_cons, ih]
    by_cases h1 : e.node1 = p
    · have ho : otherEndpoint p e = some e.node2 := by simp only [otherEndpoint, h1, if_true]
      simp only [h1, true_or, if_true]
      rw [List.filterMap_cons_some ho]
    · by_cases h2 : e.node2 = p
      · have ho : otherEndpoint p e = some e.node1 := by
          simp only [otherEndpoint, h1, h2, if_true, if_false]
        simp only [h1, h2, or_true, if_true, if_false]
        rw [List.filterMap_cons_some ho]
      · have ho : otherEndpoint p e = none := by
          simp only [otherEndpoint, h1, h2, if_false]
        simp only [h1, h2, or_self, if_false]
        rw [List.filterMap_cons_none ho]

/-- C16: for every network `getNeighbors p` lists, in edge-list order, the
other endpoint of every edge that has `p` as an endpoint; `b` is a neighbour of
`a` exactly when `areFriends a b`, and exactly when `a` is a neighbour of `b`;
on a reachable network a name that is not stored has no neighbours. -/
theorem getNeighbors_spec (net : SocialNetwork) (p : String) :
    getNeighbors net ⟨p⟩ = net.edgeList.filterMap (otherEndpoint ⟨p⟩) ∧
    (∀ a b : String, (⟨b⟩ : Node) ∈ getNeighbors net ⟨a⟩ ↔ areFriends net a b = true) ∧
    (∀ a b : String, (⟨b⟩ : Node) ∈ getNeighbors net ⟨a⟩ ↔
      (⟨a⟩ : Node) ∈ getNeighbors net ⟨b⟩) ∧
    (Reachable net → (⟨p⟩ : Node) ∉ net.nodesList → getNeighbors net ⟨p⟩ = []) :=
  ⟨getNeighborsLoop_eq_filterMap _ _, fun _ _ => mem_getNeighbors,
    fun _ _ => mem_getNeighbors_comm, fun hr hp => hr.wellFormed.getNeighbors_eq_nil hp⟩

theorem getNeighbors_spec_witness :
    getNeighbors chainNet ⟨"Bob"⟩ = [⟨"Alice"⟩, ⟨"Carol"⟩] ∧
    getNeighbors chainNet ⟨"Bob"⟩ = chainNet.edgeList.filterMap (otherEndpoint ⟨"Bob"⟩) ∧
    Reachable chainNet ∧ (⟨"Eve"⟩ : Node) ∉ chainNet.nodesList ∧
    getNeighbors chainNet ⟨"Eve"⟩ = [] :=
  ⟨by decide, (getNeighbors_spec chainNet "Bob").1, chainNet_reachable, by decide,
    (getNeighbors_spec chainNet "Eve").2.2.2 chainNet_reachable (by decide)⟩

/-- C17: in a reachable network both endpoints of every stored edge are stored
nodes, so `areFriends a b` is false as soon as `a` or `b` is not stored. -/
theorem endpoints_stored (net : SocialNetwork) (hr : Reachable net) :
    (∀ e ∈ net.edgeList, e.node1 ∈ net.nodesList ∧ e.node2 ∈ net.nodesList) ∧
    ∀ a b : String, ((⟨a⟩ : Node) ∉ net.nodesList ∨ (⟨b⟩ : Node) ∉ net.nodesList) →
      areFriends net a b = false := by
  have hst := hr.wellFormed.stored
  refine ⟨hst, ?_⟩
  intro a b hab
  rw [Bool.eq_false_iff]
  intro hfr
  obtain ⟨e, he, hj⟩ := areFriends_eq_true.1 hfr
  have h1 := hst e he
  rcases hj with ⟨h2, h3⟩ | ⟨h2, h3⟩
  · rcases hab with h | h
    · exact h (h2 ▸ h1.1)
    · exact h (h3 ▸ h1.2)
  · rcases hab with h | h
    · exact h (h3 ▸ h1.2)
    · exact h (h2 ▸ h1.1)

theorem endpoints_stored_witness :
    Reachable (deletePerson chainNet "Bob").2 ∧
    (deletePerson chainNet "Bob").2.edgeList = [⟨⟨"Carol"⟩, ⟨"Dave"⟩⟩] ∧
    (∀ e ∈ (deletePerson chainNet "Bob").2.edgeList,
      e.node1 ∈ (deletePerson chainNet "Bob").2.nodesList ∧
      e.node2 ∈ (deletePerson chainNet "Bob").2.nodesList) ∧
    ∀ a b : String, ((⟨a⟩ : Node) ∉ (deletePerson chainNet "Bob").2.nodesList ∨
        (⟨b⟩ : Node) ∉ (deletePerson chainNet "Bob").2.nodesList) →
      areFriends (deletePerson chainNet "Bob").2 a b = false :=
  ⟨.deletePerson "Bob" chainNet_reachable, by decide,
    endpoints_stored _ (.deletePerson "Bob" chainNet_reachable)⟩


/-! ## Ties in the recommendation ranking -/

theorem tieNet_reachable : Reachable tieNet :=
  .addFriend _ _ (.addFriend _ _ (.addFriend _ _ (.addPerson _ (.addPerson _ (.addPerson _
    (.addPerson _ .empty))))))

theorem reachable_foldl_addPerson (names : List String) {net : SocialNetwork}
    (h : Reachable net) : Reachable (names.foldl addPerson net) := by
  induction names generalizing net with
  | nil => exact h
  | cons n rest ih => exact ih (.addPerson n h)

theorem reachable_foldl_addFriend (names : List String) (b : String) {net : SocialNetwork}
    (h : Reachable net) : Reachable (names.foldl (fun net q => addFriend net q b) net) := by
  induction names generalizing net with
  | nil => exact h
  | cons n rest ih => exact ih (.addFriend n b h)

theorem tie17Net_reachable : Reachable tie17Net :=
  reachable_foldl_addFriend _ _
    (.addFriend _ _ (reachable_foldl_addPerson _ (.addPerson _ (.addPerson _ .empty))))

set_option maxRecDepth 1000000 in
theorem tie17Net_nodes : tie17Net.nodesList = ⟨"P"⟩ :: ⟨"F"⟩ :: tieNames.map Node.mk := by
  decide

set_option maxRecDepth 1000000 in
theorem tie17Net_candidates :
    potentialFriendsLoop tie17Net ⟨"P"⟩ tie17Net.nodesList
      = tieNames.map (fun q => (⟨q⟩, 1)) := by
  decide

set_option maxRecDepth 1000000 in
theorem tie17Net_sorted :
    stdSort byCount (potentialFriendsLoop tie17Net ⟨"P"⟩ tie17Net.nodesList) =
      some (gnuSort (potentialFriendsLoop tie17Net ⟨"P"⟩ tie17Net.nodesList)) := by
  decide

set_option maxRecDepth 1000000 in
theorem tie17Net_top17 :
    topKPeople gnuSort tie17Net "P" 17 =
      [⟨"Q09"⟩, ⟨"Q17"⟩, ⟨"Q16"⟩, ⟨"Q15"⟩, ⟨"Q14"⟩, ⟨"Q13"⟩, ⟨"Q12"⟩, ⟨"Q11"⟩, ⟨"Q10"⟩,
        ⟨"Q01"⟩, ⟨"Q08"⟩, ⟨"Q07"⟩, ⟨"Q06"⟩, ⟨"Q05"⟩, ⟨"Q04"⟩, ⟨"Q03"⟩, ⟨"Q02"⟩] := by
  decide

set_option maxRecDepth 1000000 in
theorem tie17Net_top1 : topKPeople gnuSort tie17Net "P" 1 = [⟨"Q09"⟩] := by
  decide

theorem tieNet_top :
    stdSort byCount (potentialFriendsLoop tieNet ⟨"P"⟩ tieNet.nodesList) =
      some (gnuSort (potentialFriendsLoop tieNet ⟨"P"⟩ tieNet.nodesList)) ∧
    topKPeople gnuSort tieNet "P" 2 = [⟨"Q1"⟩, ⟨"Q2"⟩] ∧
    topKPeople gnuSort tieNet "P" 1 = [⟨"Q1"⟩] := by
  decide

/-- C18 fails on the code from seventeen tied candidates on. On `tie17Net` the
candidates of `P` are `Q01`, ..., `Q17` in Graph-Store order, each with count 1;
the `sort` call, run as libstdc++ runs it, hands them back as `Q09`, `Q17`, ...,
`Q10`, `Q01`, `Q08`, ..., `Q02`: `Q09` is placed before `Q01`, and for `k = 1` it is
returned while `Q01` is left out. On `tieNet`, with two tied candidates, the
same call keeps the order. -/
theorem topKPeople_ties_seventeen :
    Reachable tie17Net ∧
    tie17Net.nodesList = ⟨"P"⟩ :: ⟨"F"⟩ :: tieNames.map Node.mk ∧
    potentialFriendsLoop tie17Net ⟨"P"⟩ tie17Net.nodesList
      = tieNames.map (fun q => (⟨q⟩, 1)) ∧
    stdSort byCount (potentialFriendsLoop tie17Net ⟨"P"⟩ tie17Net.nodesList) =
      some (gnuSort (potentialFriendsLoop tie17Net ⟨"P"⟩ tie17Net.nodesList)) ∧
    topKPeople gnuSort tie17Net "P" 17 =
      [⟨"Q09"⟩, ⟨"Q17"⟩, ⟨"Q16"⟩, ⟨"Q15"⟩, ⟨"Q14"⟩, ⟨"Q13"⟩, ⟨"Q12"⟩, ⟨"Q11"⟩, ⟨"Q10"⟩,
        ⟨"Q01"⟩, ⟨"Q08"⟩, ⟨"Q07"⟩, ⟨"Q06"⟩, ⟨"Q05"⟩, ⟨"Q04"⟩, ⟨"Q03"⟩, ⟨"Q02"⟩] ∧
    topKPeople gnuSort tie17Net "P" 1 = [⟨"Q09"⟩] ∧
    Reachable tieNet ∧
    stdSort byCount (potentialFriendsLoop tieNet ⟨"P"⟩ tieNet.nodesList) =
      some (gnuSort (potentialFriendsLoop tieNet ⟨"P"⟩ tieNet.nodesList)) ∧
    topKPeople gnuSort tieNet "P" 2 = [⟨"Q1"⟩, ⟨"Q2"⟩] ∧
    topKPeople gnuSort tieNet "P" 1 = [⟨"Q1"⟩] :=
  ⟨tie17Net_reachable, tie17Net_nodes, tie17Net_candidates, tie17Net_sorted, tie17Net_top17,
    tie17Net_top1, tieNet_reachable, tieNet_top⟩

/-! ## Unknown blacklist names and absence of faults -/

theorem markBlacklist_unknown {net : SocialNetwork} {bl : List Node}
    (h : ∀ b ∈ bl, b ∉ net.nodesList) (visited : List Bool) :
    markBlacklist net bl visited = .ok visited := by
  induction bl with
  | nil => rfl
  | cons b rest ih =>
    have hb : isnodefound net b = -1 :=
      isnodefound_eq_neg_one.2 (h b (List.mem_cons_self _ _))
    rw [markBlacklist]
    simp only [hb, ne_eq, not_true, if_false]
    exact ih (fun x hx => h x (List.mem_cons_of_mem _ hx))

theorem avoiding_eq_shortestPath (net : SocialNetwork) (start goal : String)
    (blacklister : List String) (fuel : Nat)
    (hB : ∀ n ∈ blacklister, (⟨n⟩ : Node) ∉ net.nodesList) :
    shortestPathAvoidingNodes fuel net start goal blacklister
      = shortestPath fuel net start goal := by
  by_cases hst : isnodefound net ⟨start⟩ = -1 ∨ isnodefound net ⟨goal⟩ = -1
  · simp only [shortestPathAvoidingNodes, shortestPath, hst, if_true]
  · have hst1 := hst
    rw [not_or] at hst1
    have hs : (⟨start⟩ : Node) ∈ net.nodesList := by
      by_contra h
      exact hst1.1 (isnodefound_eq_neg_one.2 h)
    have hg : (⟨goal⟩ : Node) ∈ net.nodesList := by
      by_contra h
      exact hst1.2 (isnodefound_eq_neg_one.2 h)
    have hB1 : ∀ b ∈ blacklister.map Node.mk, b ∉ net.nodesList := by
      intro b hb
      have := hB b.name (mem_blacklist.1 hb)
      exact this
    have hhit : blacklistHits ⟨start⟩ ⟨goal⟩ (blacklister.map Node.mk) = false := by
      rw [Bool.eq_false_iff]
      intro h
      rcases blacklistHits_eq_true.1 h with h1 | h1
      · exact hB1 _ h1 hs
      · exact hB1 _ h1 hg
    by_cases hsg : (⟨start⟩ : Node) = ⟨goal⟩
    · have hsg1 : start = goal := congrArg Node.name hsg
      subst hsg1
      simp only [shortestPathAvoidingNodes, shortestPath, hst, if_false, hhit,
        Bool.false_eq_true, if_true]
    · have hlen : idx net ⟨start⟩ < (List.replicate net.nodesList.length false).length := by
        simpa using idx_lt hs
      have hset1 : setAt (List.replicate net.nodesList.length false)
          (isnodefound net ⟨start⟩) false
          = .ok ((List.replicate net.nodesList.length false).set (idx net ⟨start⟩) false) := by
        rw [isnodefound_of_mem hs]
        exact setAt_natCast _ hlen
      have hset2 : setAt ((List.replicate net.nodesList.length false).set
          (idx net ⟨start⟩) false) (isnodefound net ⟨start⟩) true
          = .ok ((List.replicate net.nodesList.length false).set (idx net ⟨start⟩) true) := by
        rw [isnodefound_of_mem hs, setAt_natCast _ (by simpa using idx_lt hs), List.set_set]
      rw [shortestPath_eq hs hg hsg fuel]
      simp only [shortestPathAvoidingNodes, hst, if_false, hhit, Bool.false_eq_true, hsg,
        markBlacklist_unknown hB1, hset1, hset2]

theorem shortestPath_defined {net : SocialNetwork} (hr : Reachable net) (start goal : String)
    (fuel : Nat) (hfuel : 2 * net.nodesList.length ≤ fuel) :
    ∃ path, shortestPath fuel net start goal = .ok path ∧
      (path ≠ [] → IsPath net ⟨start⟩ ⟨goal⟩ path) := by
  by_cases hst : isnodefound net ⟨start⟩ = -1 ∨ isnodefound net ⟨goal⟩ = -1
  · exact ⟨[], by simp only [shortestPath, hst, if_true], fun h => absurd rfl h⟩
  · have hst1 := hst
    rw [not_or] at hst1
    have hs : (⟨start⟩ : Node) ∈ net.nodesList := by
      by_contra h
      exact hst1.1 (isnodefound_eq_neg_one.2 h)
    have hg : (⟨goal⟩ : Node) ∈ net.nodesList := by
      by_contra h
      exact hst1.2 (isnodefound_eq_neg_one.2 h)
    by_cases hsg : (⟨start⟩ : Node) = ⟨goal⟩
    · have hsg1 : start = goal := congrArg Node.name hsg
      subst hsg1
      exact ⟨[⟨start⟩], by simp only [shortestPath, hst, if_false, if_true],
        fun _ => isPath_self net _⟩
    · have hrep : Rep net ⟨(List.replicate net.nodesList.length false).set
          (idx net ⟨start⟩) true, List.replicate net.nodesList.length (-1),
          [isnodefound net ⟨start⟩]⟩ (absInit [] ⟨start⟩) := by
        refine rep_init [] hs _ (by simp) ?_
        intro v hv _
        rw [List.getElem?_replicate]
        simp [idx_lt hv]
      obtain ⟨st1, path, h2, h3, h4⟩ := traverse_spec hr.wellFormed [] ⟨start⟩ ⟨goal⟩ hs hg hsg
        (List.not_mem_nil _) _ hrep fuel hfuel
      rw [shortestPath_eq hs hg hsg fuel]
      simp only [h2, h3]
      refine ⟨path, rfl, ?_⟩
      rcases h4 with ⟨hnil, _⟩ | ⟨hpath, _, _⟩
      · exact fun h => absurd hnil h
      · exact fun _ => hpath

theorem avoiding_defined {net : SocialNetwork} (hr : Reachable net) (start goal : String)
    (blacklister : List String) (fuel : Nat) (hfuel : 2 * net.nodesList.length ≤ fuel) :
    ∃ path, shortestPathAvoidingNodes fuel net start goal blacklister = .ok path ∧
      (path ≠ [] → IsPath net ⟨start⟩ ⟨goal⟩ path) := by
  by_cases hst : isnodefound net ⟨start⟩ = -1 ∨ isnodefound net ⟨goal⟩ = -1
  · exact ⟨[], by simp only [shortestPathAvoidingNodes, hst, if_true], fun h => absurd rfl h⟩
  · by_cases hhit : blacklistHits ⟨start⟩ ⟨goal⟩ (blacklister.map Node.mk) = true
    · exact ⟨[], by simp only [shortestPathAvoidingNodes, hst, if_false, hhit, if_true],
        fun h => absurd rfl h⟩
    · have hhit1 : blacklistHits ⟨start⟩ ⟨goal⟩ (blacklister.map Node.mk) = false :=
        Bool.eq_false_iff.2 hhit
      have hst1 := hst
      rw [not_or] at hst1
      have hs : (⟨start⟩ : Node) ∈ net.nodesList := by
        by_contra h
        exact hst1.1 (isnodefound_eq_neg_one.2 h)
      have hg : (⟨goal⟩ : Node) ∈ net.nodesList := by
        by_contra h
        exact hst1.2 (isnodefound_eq_neg_one.2 h)
      by_cases hsg : (⟨start⟩ : Node) = ⟨goal⟩
      · have hsg1 : start = goal := congrArg Node.name hsg
        subst hsg1
        refine ⟨[⟨start⟩], ?_, fun _ => isPath_self net _⟩
        simp only [shortestPathAvoidingNodes, hst, if_false, hhit1, Bool.false_eq_true,
          if_true]
      · have hsB : (⟨start⟩ : Node) ∉ blacklister.map Node.mk := by
          intro h
          apply hhit
          rw [blacklistHits_eq_true]
          exact Or.inl h
        obtain ⟨st0, hrep, heq⟩ := avoiding_eq hs hg hsg hhit1 fuel
        obtain ⟨st1, path, h2, h3, h4⟩ := traverse_spec hr.wellFormed
          (blacklister.map Node.mk) ⟨start⟩ ⟨goal⟩ hs hg hsg hsB st0 hrep fuel hfuel
        rw [heq]
        simp only [h2, h3]
        refine ⟨path, rfl, ?_⟩
        rcases h4 with ⟨hnil, _⟩ | ⟨hpath, _, _⟩
        · exact fun h => absurd hnil h
        · exact fun _ => hpath

/-- C19: when no name of the blacklist is a stored node (the empty blacklist
included), `shortestPathAvoidingNodes` and `shortestPath` give the same result,
on every network and for every amount of fuel; on a reachable network with fuel
for `2 * |nodesList|` iterations that common result is a returned sequence. -/
theorem avoiding_unknown_blacklist (net : SocialNetwork) (start goal : String)
    (blacklister : List String) (fuel : Nat)
    (hB : ∀ n ∈ blacklister, (⟨n⟩ : Node) ∉ net.nodesList) :
    shortestPathAvoidingNodes fuel net start goal blacklister
      = shortestPath fuel net start goal ∧
    (Reachable net → 2 * net.nodesList.length ≤ fuel →
      ∃ path, shortestPath fuel net start goal = .ok path ∧
        shortestPathAvoidingNodes fuel net start goal blacklister = .ok path) := by
  have heq := avoiding_eq_shortestPath net start goal blacklister fuel hB
  refine ⟨heq, fun hr hfuel => ?_⟩
  obtain ⟨path, hpath, _⟩ := shortestPath_defined hr start goal fuel hfuel
  exact ⟨path, hpath, heq.trans hpath⟩

theorem avoiding_unknown_blacklist_witness :
    (∀ n ∈ ["Eve", "Zed"], (⟨n⟩ : Node) ∉ detourNet.nodesList) ∧ Reachable detourNet ∧
    shortestPathAvoidingNodes 10 detourNet "A" "D" ["Eve", "Zed"]
      = shortestPath 10 detourNet "A" "D" ∧
    shortestPath 10 detourNet "A" "D" = .ok [⟨"A"⟩, ⟨"B"⟩, ⟨"D"⟩] ∧
    ∃ path, shortestPath 10 detourNet "A" "D" = .ok path ∧
      shortestPathAvoidingNodes 10 detourNet "A" "D" ["Eve", "Zed"] = .ok path :=
  ⟨by decide, detourNet_reachable,
    (avoiding_unknown_blacklist detourNet "A" "D" ["Eve", "Zed"] 10 (by decide)).1, rfl,
    (avoiding_unknown_blacklist detourNet "A" "D" ["Eve", "Zed"] 10 (by decide)).2
      detourNet_reachable (by decide)⟩


theorem topLoop_eq (l : List (Node × Int)) (left j : Nat) (acc : List Node)
    (h : j + left ≤ l.length) :
    topLoop l left (j : Int) acc = .ok (acc ++ ((l.drop j).take left).map Prod.fst) := by
  induction left generalizing j acc with
  | zero => simp [topLoop]
  | succ left ih =>
    have hj : j < l.length := by omega
    have hget : getAt l (j : Int) = .ok l[j] := getAt_natCast (List.getElem?_eq_getElem hj)
    have hcast : (j : Int) + 1 = ((j + 1 : Nat) : Int) := by push_cast; rfl
    rw [topLoop]
    simp only [hget]
    rw [hcast, ih (j + 1) _ (by omega), List.drop_eq_getElem_cons hj, List.take_succ_cons,
      List.map_cons, List.append_assoc]
    rfl

theorem topKPeopleAt_eq (sort : List (Node × Int) → List (Node × Int)) (net : SocialNetwork)
    (person : String) (k : Int) :
    topKPeopleAt sort net person k = .ok (topKPeople sort net person k) := by
  unfold topKPeopleAt topKPeople
  by_cases h : isnodefound net ⟨person⟩ = -1 ∨ k ≤ 0
  · simp only [h, if_true]
  · simp only [h, if_false]
    generalize sort (potentialFriendsLoop net ⟨person⟩ net.nodesList) = l
    have hle : 0 + (min k (l.length : Int)).toNat ≤ l.length := by omega
    have := topLoop_eq l (min k (l.length : Int)).toNat 0 [] hle
    simpa using this

theorem nbOfCommonFriends_bounds (net : SocialNetwork) (a b : Node) :
    0 ≤ nbOfCommonFriends net a b ∧
    nbOfCommonFriends net a b ≤ ((getNeighbors net a).length : Int) := by
  unfold nbOfCommonFriends
  split
  · exact ⟨le_refl _, Int.natCast_nonneg _⟩
  · rw [countCommon_eq, zero_add]
    refine ⟨Int.natCast_nonneg _, ?_⟩
    exact_mod_cast List.length_filter_le _ _

/-- C20: on a reachable network no traversal faults. Every neighbour returned
by `getNeighbors` has a valid index; with fuel for `2 * |nodesList|` iterations
`shortestPath` and `shortestPathAvoidingNodes` return a sequence (no index out
of range, both loops end), which when not empty starts at `start` and ends at
`goal`; the counter of `nbOfCommonFriends` stays between `0` and the number of
neighbours; the last loop of `topKPeople` reads only inside the sorted vector. -/
theorem traversals_defined (sort : List (Node × Int) → List (Node × Int))
    (net : SocialNetwork) (start goal p q : String) (blacklister : List String) (k : Int)
    (fuel : Nat) (hr : Reachable net) (hfuel : 2 * net.nodesList.length ≤ fuel) :
    (∀ v u : Node, u ∈ getNeighbors net v →
      0 ≤ isnodefound net u ∧ isnodefound net u < (net.nodesList.length : Int)) ∧
    (∃ path, shortestPath fuel net start goal = .ok path ∧
      (path ≠ [] → path.head? = some ⟨start⟩ ∧ path.getLast? = some ⟨goal⟩)) ∧
    (∃ path, shortestPathAvoidingNodes fuel net start goal blacklister = .ok path ∧
      (path ≠ [] → path.head? = some ⟨start⟩ ∧ path.getLast? = some ⟨goal⟩)) ∧
    (0 ≤ nbOfCommonFriends net ⟨p⟩ ⟨q⟩ ∧
      nbOfCommonFriends net ⟨p⟩ ⟨q⟩ ≤ ((getNeighbors net ⟨p⟩).length : Int)) ∧
    topKPeopleAt sort net p k = .ok (topKPeople sort net p k) := by
  refine ⟨?_, ?_, ?_, nbOfCommonFriends_bounds net _ _, topKPeopleAt_eq sort net p k⟩
  · intro v u hu
    have hmem := (hr.wellFormed.mem_of_mem_getNeighbors hu).2
    rw [isnodefound_of_mem hmem]
    have := idx_lt hmem
    omega
  · obtain ⟨path, h1, h2⟩ := shortestPath_defined hr start goal fuel hfuel
    exact ⟨path, h1, fun h => ⟨(h2 h).1, (h2 h).2.1⟩⟩
  · obtain ⟨path, h1, h2⟩ := avoiding_defined hr start goal blacklister fuel hfuel
    exact ⟨path, h1, fun h => ⟨(h2 h).1, (h2 h).2.1⟩⟩

theorem traversals_defined_witness :
    Reachable detourNet ∧
    shortestPath 10 detourNet "A" "D" = .ok [⟨"A"⟩, ⟨"B"⟩, ⟨"D"⟩] ∧
    shortestPathAvoidingNodes 10 detourNet "A" "D" ["B", "Zed"]
      = .ok [⟨"A"⟩, ⟨"C"⟩, ⟨"E"⟩, ⟨"D"⟩] ∧
    topKPeopleAt insertionSortDesc detourNet "A" (-3) = .ok [] ∧
    topKPeopleAt insertionSortDesc detourNet "A" 7 = .ok [⟨"D"⟩, ⟨"E"⟩] ∧
    ((∀ v u : Node, u ∈ getNeighbors detourNet v →
      0 ≤ isnodefound detourNet u ∧
      isnodefound detourNet u < (detourNet.nodesList.length : Int)) ∧
    (∃ path, shortestPath 10 detourNet "A" "D" = .ok path ∧
      (path ≠ [] → path.head? = some ⟨"A"⟩ ∧ path.getLast? = some ⟨"D"⟩)) ∧
    (∃ path, shortestPathAvoidingNodes 10 detourNet "A" "D" ["B", "Zed"] = .ok path ∧
      (path ≠ [] → path.head? = some ⟨"A"⟩ ∧ path.getLast? = some ⟨"D"⟩)) ∧
    (0 ≤ nbOfCommonFriends detourNet ⟨"A"⟩ ⟨"D"⟩ ∧
      nbOfCommonFriends detourNet ⟨"A"⟩ ⟨"D"⟩
        ≤ ((getNeighbors detourNet ⟨"A"⟩).length : Int)) ∧
    topKPeopleAt insertionSortDesc detourNet "A" 7
      = .ok (topKPeople insertionSortDesc detourNet "A" 7)) :=
  ⟨detourNet_reachable, rfl, rfl, rfl, rfl,
    traversals_defined insertionSortDesc detourNet "A" "D" "A" "D" ["B", "Zed"] 7 10
      detourNet_reachable (by decide)⟩


/-! ## Self-friendship and the add/remove round trip -/

/-- C21: for every network and stored `a` with no edge `(a, a)`, `addFriend a a`
appends the edge `(a, a)`; afterwards `areFriends a a` is true and
`getNeighbors a` holds `a` exactly once more than before. -/
theorem addFriend_self (net : SocialNetwork) (a : String)
    (ha : (⟨a⟩ : Node) ∈ net.nodesList)
    (hno : ∀ e ∈ net.edgeList, ¬ (e.node1 = ⟨a⟩ ∧ e.node2 = ⟨a⟩)) :
    (addFriend net a a).edgeList = net.edgeList ++ [⟨⟨a⟩, ⟨a⟩⟩] ∧
    (addFriend net a a).nodesList = net.nodesList ∧
    areFriends (addFriend net a a) a a = true ∧
    (getNeighbors (addFriend net a a) ⟨a⟩).count ⟨a⟩ =
      (getNeighbors net ⟨a⟩).count ⟨a⟩ + 1 := by
  have hn : ¬ ((⟨a⟩ : Node) ∉ net.nodesList ∨ (⟨a⟩ : Node) ∉ net.nodesList ∨
      ∃ e ∈ net.edgeList, Joins e ⟨a⟩ ⟨a⟩) := by
    rintro (h | h | ⟨e, he, hj⟩)
    · exact h ha
    · exact h ha
    · exact hno e he (hj.elim id id)
  have hj : Joins (⟨⟨a⟩, ⟨a⟩⟩ : Edge) ⟨a⟩ ⟨a⟩ := Or.inl ⟨rfl, rfl⟩
  rw [addFriend_eq_append hn]
  refine ⟨rfl, rfl, ?_, ?_⟩
  · exact areFriends_eq_true.2
      ⟨_, List.mem_append_right _ (List.mem_singleton_self _), hj⟩
  · unfold getNeighbors
    rw [count_getNeighborsLoop, count_getNeighborsLoop, List.countP_append,
      List.countP_cons_of_pos _ _ (by simpa using hj)]
    rfl

theorem addFriend_self_witness :
    (⟨"Alice"⟩ : Node) ∈ chainNet.nodesList ∧
    getNeighbors chainNet ⟨"Alice"⟩ = [⟨"Bob"⟩] ∧
    getNeighbors (addFriend chainNet "Alice" "Alice") ⟨"Alice"⟩ = [⟨"Bob"⟩, ⟨"Alice"⟩] ∧
    (addFriend chainNet "Alice" "Alice").edgeList =
      chainNet.edgeList ++ [⟨⟨"Alice"⟩, ⟨"Alice"⟩⟩] ∧
    (addFriend chainNet "Alice" "Alice").nodesList = chainNet.nodesList ∧
    areFriends (addFriend chainNet "Alice" "Alice") "Alice" "Alice" = true ∧
    (getNeighbors (addFriend chainNet "Alice" "Alice") ⟨"Alice"⟩).count ⟨"Alice"⟩ =
      (getNeighbors chainNet ⟨"Alice"⟩).count ⟨"Alice"⟩ + 1 :=
  ⟨chainNet_mem_alice, by decide, by decide,
    addFriend_self chainNet "Alice" chainNet_mem_alice (by decide)⟩

theorem unfriendLoop_append_last {a b : Node} {l : List Edge} {e0 : Edge}
    (h : ∀ e ∈ l, ¬ Joins e a b) (h0 : Joins e0 a b) :
    unfriendLoop a b (l ++ [e0]) = l := by
  induction l with
  | nil =>
    have h1 : (e0.node1 = a ∧ e0.node2 = b) ∨ (e0.node1 = b ∧ e0.node2 = a) := h0
    show unfriendLoop a b [e0] = []
    rw [unfriendLoop]
    simp only [h1, if_true]
  | cons e rest ih =>
    have he : ¬ ((e.node1 = a ∧ e.node2 = b) ∨ (e.node1 = b ∧ e.node2 = a)) :=
      h e (List.mem_cons_self _ _)
    rw [List.cons_append, unfriendLoop]
    simp only [he, if_false]
    rw [ih (fun e1 he1 => h e1 (List.mem_cons_of_mem _ he1))]

/-- C22: for every network and stored `a`, `b` that are not friends,
`addFriend a b` followed by `unfriend a b`, or by `unfriend b a`, gives back
the network as it was, both lists in their old order. -/
theorem addFriend_unfriend_roundtrip (net : SocialNetwork) (a b : String)
    (ha : (⟨a⟩ : Node) ∈ net.nodesList) (hb : (⟨b⟩ : Node) ∈ net.nodesList)
    (hnf : areFriends net a b = false) :
    unfriend (addFriend net a b) a b = net ∧ unfriend (addFriend net a b) b a = net := by
  have hno : ∀ e ∈ net.edgeList, ¬ Joins e ⟨a⟩ ⟨b⟩ := by
    intro e he hj
    have := areFriends_eq_true.2 ⟨e, he, hj⟩
    rw [hnf] at this
    exact Bool.false_ne_true this
  have hn : ¬ ((⟨a⟩ : Node) ∉ net.nodesList ∨ (⟨b⟩ : Node) ∉ net.nodesList ∨
      ∃ e ∈ net.edgeList, Joins e ⟨a⟩ ⟨b⟩) := by
    rintro (h | h | ⟨e, he, hj⟩)
    · exact h ha
    · exact h hb
    · exact hno e he hj
  have hj : Joins (⟨⟨a⟩, ⟨b⟩⟩ : Edge) ⟨a⟩ ⟨b⟩ := Or.inl ⟨rfl, rfl⟩
  have h1 : unfriendLoop ⟨a⟩ ⟨b⟩ (net.edgeList ++ [⟨⟨a⟩, ⟨b⟩⟩]) = net.edgeList :=
    unfriendLoop_append_last hno hj
  have h2 : unfriendLoop ⟨b⟩ ⟨a⟩ (net.edgeList ++ [⟨⟨a⟩, ⟨b⟩⟩]) = net.edgeList :=
    unfriendLoop_append_last (fun e he hj1 => hno e he hj1.symm) hj.symm
  rw [addFriend_eq_append hn]
  show (⟨unfriendLoop ⟨a⟩ ⟨b⟩ (net.edgeList ++ [⟨⟨a⟩, ⟨b⟩⟩]), net.nodesList⟩ : SocialNetwork)
      = net ∧
    (⟨unfriendLoop ⟨b⟩ ⟨a⟩ (net.edgeList ++ [⟨⟨a⟩, ⟨b⟩⟩]), net.nodesList⟩ : SocialNetwork)
      = net
  rw [h1, h2]
  exact ⟨rfl, rfl⟩

theorem addFriend_unfriend_roundtrip_witness :
    (⟨"Alice"⟩ : Node) ∈ chainNet.nodesList ∧ (⟨"Dave"⟩ : Node) ∈ chainNet.nodesList ∧
    areFriends chainNet "Alice" "Dave" = false ∧
    addFriend chainNet "Alice" "Dave" ≠ chainNet ∧
    unfriend (addFriend chainNet "Alice" "Dave") "Alice" "Dave" = chainNet ∧
    unfriend (addFriend chainNet "Alice" "Dave") "Dave" "Alice" = chainNet :=
  ⟨chainNet_mem_alice, chainNet_mem_dave, by decide, by decide,
    addFriend_unfriend_roundtrip chainNet "Alice" "Dave" chainNet_mem_alice
      chainNet_mem_dave (by decide)⟩


/-! ## Routing in both directions -/

theorem IsPath.reverse {net : SocialNetwork} {s g : Node} {p : List Node}
    (h : IsPath net s g p) : IsPath net g s p.reverse := by
  obtain ⟨h1, h2, h3⟩ := h
  refine ⟨?_, ?_, ?_⟩
  · rw [List.head?_reverse]
    exact h2
  · rw [List.getLast?_reverse]
    exact h1
  · rw [List.chain'_reverse]
    refine h3.imp ?_
    intro x y hxy
    exact (areFriends_comm net y.name x.name).trans hxy

theorem shortestPath_char {net : SocialNetwork} (hr : Reachable net) (start goal : String)
    (fuel : Nat) (hfuel : 2 * net.nodesList.length ≤ fuel) :
    ∃ path, shortestPath fuel net start goal = .ok path ∧
      ((path = [] ∧ ((⟨start⟩ : Node) ∉ net.nodesList ∨ (⟨goal⟩ : Node) ∉ net.nodesList ∨
          ∀ p, ¬ IsPath net ⟨start⟩ ⟨goal⟩ p)) ∨
        ((⟨start⟩ : Node) ∈ net.nodesList ∧ (⟨goal⟩ : Node) ∈ net.nodesList ∧
          IsPath net ⟨start⟩ ⟨goal⟩ path ∧
          ∀ p, IsPath net ⟨start⟩ ⟨goal⟩ p → path.length ≤ p.length)) := by
  have hpos : ∀ {s g : Node} {p : List Node}, IsPath net s g p → 1 ≤ p.length := by
    intro s g p hp
    have := isPath_ne_nil hp
    cases p with
    | nil => exact absurd rfl this
    | cons y t => simp
  by_cases hst : isnodefound net ⟨start⟩ = -1 ∨ isnodefound net ⟨goal⟩ = -1
  · refine ⟨[], by simp only [shortestPath, hst, if_true], Or.inl ⟨rfl, ?_⟩⟩
    rcases hst with h | h
    · exact Or.inl (isnodefound_eq_neg_one.1 h)
    · exact Or.inr (Or.inl (isnodefound_eq_neg_one.1 h))
  · have hst1 := hst
    rw [not_or] at hst1
    have hs : (⟨start⟩ : Node) ∈ net.nodesList := by
      by_contra h
      exact hst1.1 (isnodefound_eq_neg_one.2 h)
    have hg : (⟨goal⟩ : Node) ∈ net.nodesList := by
      by_contra h
      exact hst1.2 (isnodefound_eq_neg_one.2 h)
    by_cases hsg : (⟨start⟩ : Node) = ⟨goal⟩
    · have hsg1 : start = goal := congrArg Node.name hsg
      subst hsg1
      refine ⟨[⟨start⟩], by simp only [shortestPath, hst, if_false, if_true],
        Or.inr ⟨hs, hs, isPath_self net _, ?_⟩⟩
      intro p hp
      exact hpos hp
    · have hrep : Rep net ⟨(List.replicate net.nodesList.length false).set
          (idx net ⟨start⟩) true, List.replicate net.nodesList.length (-1),
          [isnodefound net ⟨start⟩]⟩ (absInit [] ⟨start⟩) := by
        refine rep_init [] hs _ (by simp) ?_
        intro v hv _
        rw [List.getElem?_replicate]
        simp [idx_lt hv]
      obtain ⟨st1, path, h2, h3, h4⟩ := traverse_spec hr.wellFormed [] ⟨start⟩ ⟨goal⟩ hs hg hsg
        (List.not_mem_nil _) _ hrep fuel hfuel
      rw [shortestPath_eq hs hg hsg fuel]
      simp only [h2, h3]
      refine ⟨path, rfl, ?_⟩
      rcases h4 with ⟨hnil, hno⟩ | ⟨hpath, _, hmin⟩
      · refine Or.inl ⟨hnil, Or.inr (Or.inr ?_)⟩
        intro p hp
        exact hno _ (Reach.of_isPath hp (fun _ _ => List.not_mem_nil _))
      · refine Or.inr ⟨hs, hg, hpath, ?_⟩
        intro p hp
        have h5 := hmin _ (Reach.of_isPath hp (fun _ _ => List.not_mem_nil _))
        have h6 := hpos hp
        omega

theorem crossNet_reachable : Reachable crossNet :=
  .addFriend _ _ (.addFriend _ _ (.addFriend _ _ (.addFriend _ _
    (.addPerson _ (.addPerson _ (.addPerson _ (.addPerson _ .empty)))))))

/-- C23: on a reachable network `shortestPath a b` and `shortestPath b a` return
sequences of the same length, so one is empty exactly when the other is. They
need not be reverses of each other: on `crossNet` the route from `A` to `D`
goes through `B` and the route from `D` to `A` goes through `C`. -/
theorem shortestPath_undirected (net : SocialNetwork) (a b : String) (fuel : Nat)
    (hr : Reachable net) (hfuel : 2 * net.nodesList.length ≤ fuel) :
    (∃ p1 p2, shortestPath fuel net a b = .ok p1 ∧ shortestPath fuel net b a = .ok p2 ∧
      p1.length = p2.length ∧ (p1 = [] ↔ p2 = [])) ∧
    (Reachable crossNet ∧
      ∃ p1 p2, shortestPath 8 crossNet "A" "D" = .ok p1 ∧
        shortestPath 8 crossNet "D" "A" = .ok p2 ∧ p2 ≠ p1.reverse) := by
  refine ⟨?_, crossNet_reachable, [⟨"A"⟩, ⟨"B"⟩, ⟨"D"⟩], [⟨"D"⟩, ⟨"C"⟩, ⟨"A"⟩], rfl, rfl,
    by decide⟩
  obtain ⟨p1, h1, c1⟩ := shortestPath_char hr a b fuel hfuel
  obtain ⟨p2, h2, c2⟩ := shortestPath_char hr b a fuel hfuel
  have hlen : p1.length = p2.length := by
    rcases c1 with ⟨e1, r1⟩ | ⟨sa, sb, path1, min1⟩
    · rcases c2 with ⟨e2, _⟩ | ⟨sb2, sa2, path2, _⟩
      · rw [e1, e2]
      · rcases r1 with r | r | r
        · exact absurd sa2 r
        · exact absurd sb2 r
        · exact absurd path2.reverse (r _)
    · rcases c2 with ⟨e2, r2⟩ | ⟨_, _, path2, min2⟩
      · rcases r2 with r | r | r
        · exact absurd sb r
        · exact absurd sa r
        · exact absurd path1.reverse (r _)
      · have h3 := min1 _ path2.reverse
        have h4 := min2 _ path1.reverse
        rw [List.length_reverse] at h3 h4
        omega
  refine ⟨p1, p2, h1, h2, hlen, ?_⟩
  rw [← List.length_eq_zero, ← List.length_eq_zero, hlen]

theorem shortestPath_undirected_witness :
    Reachable detourNet ∧
    shortestPath 10 detourNet "A" "E" = .ok [⟨"A"⟩, ⟨"C"⟩, ⟨"E"⟩] ∧
    shortestPath 10 detourNet "E" "A" = .ok [⟨"E"⟩, ⟨"C"⟩, ⟨"A"⟩] ∧
    (∃ p1 p2, shortestPath 10 detourNet "A" "E" = .ok p1 ∧
      shortestPath 10 detourNet "E" "A" = .ok p2 ∧
      p1.length = p2.length ∧ (p1 = [] ↔ p2 = [])) ∧
    (Reachable crossNet ∧
      ∃ p1 p2, shortestPath 8 crossNet "A" "D" = .ok p1 ∧
        shortestPath 8 crossNet "D" "A" = .ok p2 ∧ p2 ≠ p1.reverse) :=
  ⟨detourNet_reachable, rfl, rfl,
    shortestPath_undirected detourNet "A" "E" 10 detourNet_reachable (by decide)⟩


end SocialNetworkModel
